import Mathlib

/-!
A verification development for the one-line front end `compiler.cpp`.

The program tokenizes a single line of text (`Lexer`) and checks it with a
recursive-descent parser (`Parser`).  This file embeds both classes as pure
Lean functions over explicit state and proves properties of them.

Conventions of the embedding:

* a C++ `char` is a `Char`; `std::string` is `List Char`; `size_t` is `Nat`
  (every index stays below the input length plus one, so no wrap-around);
* the `<cctype>` predicates are those of the "C" locale (the program never
  changes the locale): they hold on the ASCII ranges only;
* an exception is the `Result.error` outcome; `while` loops are iterated with a
  fuel counter and the `Result.outOfFuel` / `none` outcome means that the fuel
  given was not enough.  The entry points `Lexer.tokenize` and `Parser.parse`
  supply fuel themselves, and it is proved below that it always suffices.
-/

namespace Compiler

/-! ## Tokens and errors -/

/-- The enumeration `TokenType`. -/
inductive TokenType where
  | IDENTIFIER
  | KEYWORD
  | INTEGER
  | FLOAT
  | SYMBOL
  | END_OF_FILE
  deriving DecidableEq

/-- The record `Token`. -/
structure Token where
  type : TokenType
  value : List Char
  position : Nat
  deriving DecidableEq

/-- The two exception classes of the program. -/
inductive Error where
  | LexicalError
  | SyntaxError
  deriving DecidableEq

/-- Outcome of a call that may throw: a returned value, a thrown exception, or fuel exhausted. -/
inductive Result (α : Type) where
  | ok : α → Result α
  | error : Error → Result α
  | outOfFuel : Result α
  deriving DecidableEq

/-! ## Character classes (`<cctype>`, "C" locale) -/

/-- The function `std::isdigit`. -/
def isdigit (c : Char) : Bool := decide (48 ≤ c.toNat ∧ c.toNat ≤ 57)

/-- The function `std::isalpha`. -/
def isalpha (c : Char) : Bool :=
  decide ((65 ≤ c.toNat ∧ c.toNat ≤ 90) ∨ (97 ≤ c.toNat ∧ c.toNat ≤ 122))

/-- The function `std::isalnum`. -/
def isalnum (c : Char) : Bool := isalpha c || isdigit c

/-- The function `std::isspace`: space, `\t`, `\n`, `\v`, `\f`, `\r`. -/
def isspace (c : Char) : Bool := decide (c.toNat = 32 ∨ (9 ≤ c.toNat ∧ c.toNat ≤ 13))

/-- The sentinel `'\0'`. -/
def NUL : Char := Char.ofNat 0

/-! ## Lexer -/

/-- The private state of `class Lexer`. -/
structure Lexer where
  input : List Char
  pos : Nat
  current_char : Char
  deriving DecidableEq

/-- The member `keywords`. -/
def keywords : List (List Char) := [['i', 'f'], ['e', 'l', 's', 'e'], ['p', 'r', 'i', 'n', 't']]

/-- The member `operators`. -/
def operators : List Char := ['+', '-', '*', '/', '^', '<', '>', '=']

/-- The member `symbols`. -/
def symbols : List Char := [';', '(', ')']

/-- The constructor `Lexer::Lexer(text)`. -/
def Lexer.new (text : List Char) : Lexer :=
  if !text.isEmpty then Lexer.mk text 0 (text.getD 0 NUL) else Lexer.mk text 0 NUL

/-- The method `Lexer::advance`. -/
def Lexer.advance (l : Lexer) : Lexer :=
  if l.pos + 1 < l.input.length then Lexer.mk l.input (l.pos + 1) (l.input.getD (l.pos + 1) NUL)
  else Lexer.mk l.input (l.pos + 1) NUL

/-- The method `Lexer::peek`. -/
def Lexer.peek (l : Lexer) : Char :=
  if l.pos + 1 < l.input.length then l.input.getD (l.pos + 1) NUL else NUL

/-- Fuel handed to every inner loop of the lexer. -/
def Lexer.fuel (l : Lexer) : Nat := l.input.length + 1

/-- The method `Lexer::skip_whitespace`. -/
def Lexer.skip_whitespace : Nat → Lexer → Option Lexer
  | 0, _ => none
  | n + 1, l =>
    if l.current_char != NUL && isspace l.current_char then Lexer.skip_whitespace n l.advance
    else some l

/-- The loop `while (current_char != '\0' && p(current_char)) { result.push_back(current_char);
advance(); }` shared by `number` and `identifier_or_keyword`. -/
def Lexer.collect (p : Char → Bool) : Nat → Lexer → List Char → Option (Lexer × List Char)
  | 0, _, _ => none
  | n + 1, l, result =>
    if l.current_char != NUL && p l.current_char then
      Lexer.collect p n l.advance (result ++ [l.current_char])
    else some (l, result)

/-- The method `Lexer::number`. -/
def Lexer.number (l : Lexer) : Result (Token × Lexer) :=
  let start_pos := l.pos
  match Lexer.collect isdigit l.fuel l [] with
  | none => Result.outOfFuel
  | some (l1, result) =>
    if l1.current_char == '.' then
      let l2 := l1.advance
      if !isdigit l2.current_char then Result.error Error.LexicalError
      else
        match Lexer.collect isdigit l.fuel l2 (result ++ [l1.current_char]) with
        | none => Result.outOfFuel
        | some (l3, result) => Result.ok (Token.mk TokenType.FLOAT result start_pos, l3)
    else Result.ok (Token.mk TokenType.INTEGER result start_pos, l1)

/-- The method `Lexer::identifier_or_keyword`. -/
def Lexer.identifier_or_keyword (l : Lexer) : Result (Token × Lexer) :=
  let start_pos := l.pos
  if !isalpha l.current_char && l.current_char != '_' then Result.error Error.LexicalError
  else
    match Lexer.collect (fun c => isalnum c || c == '_') l.fuel l [] with
    | none => Result.outOfFuel
    | some (l1, result) =>
      if keywords.contains result then Result.ok (Token.mk TokenType.KEYWORD result start_pos, l1)
      else Result.ok (Token.mk TokenType.IDENTIFIER result start_pos, l1)

/-- The look-ahead loop of `tokenize`: `while (temp_pos < input.size() && (isalnum(input[temp_pos])
|| input[temp_pos] == '_')) { temp_str.push_back(input[temp_pos]); temp_pos++; }`. -/
def scan_run (input : List Char) : Nat → Nat → List Char → Option (Nat × List Char)
  | 0, _, _ => none
  | n + 1, temp_pos, temp_str =>
    if temp_pos < input.length
        && (isalnum (input.getD temp_pos NUL) || input.getD temp_pos NUL == '_') then
      scan_run input n (temp_pos + 1) (temp_str ++ [input.getD temp_pos NUL])
    else some (temp_pos, temp_str)

/-- The consuming loop of the invalid-identifier branch of `tokenize`:
`while (pos < input.size() && (isalnum(input[pos]) || input[pos] == '_')) {
temp_str.push_back(input[pos]); advance(); }`. -/
def Lexer.consume_run : Nat → Lexer → List Char → Option (Lexer × List Char)
  | 0, _, _ => none
  | n + 1, l, temp_str =>
    if l.pos < l.input.length
        && (isalnum (l.input.getD l.pos NUL) || l.input.getD l.pos NUL == '_') then
      Lexer.consume_run n l.advance (temp_str ++ [l.input.getD l.pos NUL])
    else some (l, temp_str)

/-- The main loop of `Lexer::tokenize` followed by the final `push_back` of `END_OF_FILE`. -/
def Lexer.tokenize_loop : Nat → Lexer → List Token → Result (List Token)
  | 0, _, _ => Result.outOfFuel
  | n + 1, l, tokens =>
    if l.current_char != NUL then
      match l.skip_whitespace l.fuel with
      | none => Result.outOfFuel
      | some l =>
        if l.current_char == NUL then
          Result.ok (tokens ++ [Token.mk TokenType.END_OF_FILE [] l.pos])
        else if isdigit l.current_char then
          match scan_run l.input l.fuel l.pos [] with
          | none => Result.outOfFuel
          | some (_, temp_str) =>
            if temp_str.length > 1 && isalpha (temp_str.getD 1 NUL) then
              match Lexer.consume_run l.fuel l [] with
              | none => Result.outOfFuel
              | some _ => Result.error Error.LexicalError
            else
              match l.number with
              | Result.ok (tok, l1) => Lexer.tokenize_loop n l1 (tokens ++ [tok])
              | Result.error e => Result.error e
              | Result.outOfFuel => Result.outOfFuel
        else if isalpha l.current_char || l.current_char == '_' then
          match l.identifier_or_keyword with
          | Result.ok (tok, l1) => Lexer.tokenize_loop n l1 (tokens ++ [tok])
          | Result.error e => Result.error e
          | Result.outOfFuel => Result.outOfFuel
        else if operators.contains l.current_char || symbols.contains l.current_char then
          Lexer.tokenize_loop n l.advance
            (tokens ++ [Token.mk TokenType.SYMBOL [l.current_char] l.pos])
        else Result.error Error.LexicalError
    else Result.ok (tokens ++ [Token.mk TokenType.END_OF_FILE [] l.pos])

/-- The method `Lexer::tokenize`, run on a freshly constructed lexer for `text`. -/
def Lexer.tokenize (text : List Char) : Result (List Token) :=
  Lexer.tokenize_loop (text.length + 1) (Lexer.new text) []

/-! ## Parser -/

/-- The private state of `class Parser`. -/
structure Parser where
  tokens : List Token
  pos : Nat
  current_token : Token
  deriving DecidableEq

/-- The constructor `Parser::Parser(tokens)`. -/
def Parser.new (tokens : List Token) : Parser :=
  Parser.mk tokens 0
    (if tokens.length > 0 then tokens.getD 0 (Token.mk TokenType.END_OF_FILE [] 0)
     else Token.mk TokenType.END_OF_FILE [] 0)

/-- The method `Parser::advance`. -/
def Parser.advance (p : Parser) : Parser :=
  if p.pos + 1 < p.tokens.length then
    Parser.mk p.tokens (p.pos + 1)
      (p.tokens.getD (p.pos + 1) (Token.mk TokenType.END_OF_FILE [] (p.pos + 1)))
  else Parser.mk p.tokens (p.pos + 1) (Token.mk TokenType.END_OF_FILE [] (p.pos + 1))

/-- The method `Parser::match`. -/
def Parser.match_token (p : Parser) (type : TokenType) (value : List Char) : Bool :=
  if p.current_token.type != type then false
  else if !value.isEmpty && p.current_token.value != value then false
  else true

/-- The method `Parser::is_statement_alphabet`. -/
def Parser.is_statement_alphabet (p : Parser) : Bool :=
  if p.current_token.type == TokenType.INTEGER || p.current_token.type == TokenType.FLOAT
      || p.current_token.type == TokenType.IDENTIFIER then true
  else if p.current_token.type == TokenType.KEYWORD && p.current_token.value != ['i', 'f']
      && p.current_token.value != ['e', 'l', 's', 'e'] then true
  else if p.current_token.type == TokenType.SYMBOL then true
  else false

/-- The method `Parser::is_statement_start`. -/
def Parser.is_statement_start (p : Parser) : Bool :=
  p.match_token TokenType.KEYWORD ['i', 'f'] || p.is_statement_alphabet

/-- The method `Parser::parse_x`: the flag returned and the state left. -/
def Parser.parse_x (p : Parser) : Bool × Parser :=
  if p.current_token.type == TokenType.INTEGER || p.current_token.type == TokenType.FLOAT
      || p.current_token.type == TokenType.IDENTIFIER
      || (p.current_token.type == TokenType.KEYWORD && p.current_token.value != ['i', 'f']
          && p.current_token.value != ['e', 'l', 's', 'e']) then (true, p.advance)
  else (false, p)

/-- The method `Parser::is_op1`; `value[0]` of an empty `std::string` is `'\0'`. -/
def Parser.is_op1 (p : Parser) : Bool :=
  if p.current_token.type == TokenType.SYMBOL then
    let c := p.current_token.value.getD 0 NUL
    c == '+' || c == '-' || c == '*' || c == '/' || c == '^' || c == '<' || c == '>' || c == '='
  else false

/-- The method `Parser::parse_cond`. -/
def Parser.parse_cond (p : Parser) : Result Parser :=
  let backup_pos := p.pos
  let backup_token := p.current_token
  match p.parse_x with
  | (true, p1) =>
    if p1.is_op1 then
      match p1.advance.parse_x with
      | (true, p2) => Result.ok p2
      | (false, p2) => Result.ok (Parser.mk p2.tokens backup_pos backup_token).parse_x.2
    else Result.ok p1
  | (false, _) => Result.error Error.SyntaxError

/-- The method `Parser::parse_A`; its callee `parse_statement` (the two are mutually recursive)
is passed in as `statement`. -/
def Parser.parse_A (statement : Parser → Result Parser) (p : Parser) : Result Parser :=
  match p.parse_cond with
  | Result.ok p1 =>
    match statement p1 with
    | Result.ok p2 =>
      if p2.match_token TokenType.KEYWORD ['e', 'l', 's', 'e'] then statement p2.advance
      else Result.ok p2
    | Result.error e => Result.error e
    | Result.outOfFuel => Result.outOfFuel
  | Result.error e => Result.error e
  | Result.outOfFuel => Result.outOfFuel

/-- The method `Parser::parse_statement`; the fuel bounds the depth of the recursion. -/
def Parser.parse_statement : Nat → Parser → Result Parser
  | 0, _ => Result.outOfFuel
  | n + 1, p =>
    if p.match_token TokenType.KEYWORD ['e', 'l', 's', 'e'] then Result.error Error.SyntaxError
    else if p.match_token TokenType.KEYWORD ['i', 'f'] then
      Parser.parse_A (Parser.parse_statement n) p.advance
    else if p.is_statement_alphabet then
      if p.advance.is_statement_start then Parser.parse_statement n p.advance
      else Result.ok p.advance
    else Result.error Error.SyntaxError

/-- The method `Parser::parseS`. -/
def Parser.parseS (fuel : Nat) (p : Parser) : Result Parser := Parser.parse_statement fuel p

/-- The method `Parser::parse`, run on a freshly constructed parser for `tokens`. -/
def Parser.parse (tokens : List Token) : Result Unit :=
  match Parser.parseS (tokens.length + 1) (Parser.new tokens) with
  | Result.ok p =>
    if p.current_token.type != TokenType.END_OF_FILE then Result.error Error.SyntaxError
    else Result.ok ()
  | Result.error e => Result.error e
  | Result.outOfFuel => Result.outOfFuel

/-- The three lines `main` can print. -/
inductive Verdict where
  | NoError
  | LexicalError
  | SyntaxError
  deriving DecidableEq

/-- The body of `main` once the line has been read; `none` when fuel ran out. -/
def main (line : List Char) : Option Verdict :=
  match Lexer.tokenize line with
  | Result.ok tokens =>
    match Parser.parse tokens with
    | Result.ok _ => some Verdict.NoError
    | Result.error Error.LexicalError => some Verdict.LexicalError
    | Result.error Error.SyntaxError => some Verdict.SyntaxError
    | Result.outOfFuel => none
  | Result.error Error.LexicalError => some Verdict.LexicalError
  | Result.error Error.SyntaxError => some Verdict.SyntaxError
  | Result.outOfFuel => none

/-! ## Synchronised states, token shapes and tokenizer runs

The definitions from here on are not part of the program.  They name the states the program
really reaches (`Lexer.sync`, `Parser.sync`), the properties the claims speak of (`Token.shape`,
the grammar of the specification) and two list-level readings of the program (`Chain` for the
tokenizer, `lcond` and `lstmt` for the parser) that the theorems `Lexer.tokenize_chain`,
`Parser.parse_cond_sync` and `Parser.parse_statement_sync` tie to the embedding above. -/

/-- The lexer state in which `current_char` mirrors `input[pos]`. -/
def Lexer.sync (inp : List Char) (p : Nat) : Lexer := Lexer.mk inp p (inp.getD p NUL)

/-- The shape of a token's text, kind by kind. -/
def Token.shape (t : Token) : Prop :=
  match t.type with
  | TokenType.KEYWORD =>
    t.value = ['i', 'f'] ∨ t.value = ['e', 'l', 's', 'e'] ∨ t.value = ['p', 'r', 'i', 'n', 't']
  | TokenType.IDENTIFIER =>
    (∃ c cs, t.value = c :: cs ∧ (isalpha c = true ∨ c = '_') ∧
      ∀ d ∈ c :: cs, isalpha d = true ∨ isdigit d = true ∨ d = '_') ∧
    t.value ≠ ['i', 'f'] ∧ t.value ≠ ['e', 'l', 's', 'e'] ∧ t.value ≠ ['p', 'r', 'i', 'n', 't']
  | TokenType.INTEGER => t.value ≠ [] ∧ ∀ d ∈ t.value, isdigit d = true
  | TokenType.FLOAT =>
    ∃ a b, t.value = a ++ '.' :: b ∧ a ≠ [] ∧ b ≠ [] ∧
      (∀ d ∈ a, isdigit d = true) ∧ ∀ d ∈ b, isdigit d = true
  | TokenType.SYMBOL =>
    ∃ c, t.value = [c] ∧ c ∈ ['+', '-', '*', '/', '^', '<', '>', '=', ';', '(', ')']
  | TokenType.END_OF_FILE => t.value = []

/-- A run of the tokenizer from offset `p` with `rest` still to read: blanks, a token, blanks, a
token, ..., blanks, and then the end of the text (or the sentinel) at offset `pe`. -/
inductive Chain : Nat → List Char → List Token → Nat → Prop
  | done (p : Nat) (ws rest : List Char) :
      (∀ c ∈ ws, isspace c = true) → rest.headD NUL = NUL →
      Chain p (ws ++ rest) [] (p + ws.length)
  | tok (p : Nat) (ws : List Char) (t : Token) (rest : List Char) (toks : List Token) (pe : Nat) :
      (∀ c ∈ ws, isspace c = true) → t.position = p + ws.length →
      t.type ≠ TokenType.END_OF_FILE → t.shape →
      Chain (p + ws.length + t.value.length) rest toks pe →
      Chain p (ws ++ (t.value ++ rest)) (t :: toks) pe

/-! ## The parser as a function of the tokens left -/

/-- The parser state in which `current_token` mirrors `tokens[pos]`. -/
def Parser.sync (toks : List Token) (p : Nat) : Parser :=
  Parser.mk toks p (toks.getD p (Token.mk TokenType.END_OF_FILE [] p))

/-- The test `match(KEYWORD, v)` as a property of the token looked at. -/
def Token.is_keyword (t : Token) (v : List Char) : Bool :=
  t.type == TokenType.KEYWORD && t.value == v

/-- The test of `parse_x` as a property of the token looked at. -/
def Token.is_value (t : Token) : Bool :=
  t.type == TokenType.INTEGER || t.type == TokenType.FLOAT || t.type == TokenType.IDENTIFIER
    || (t.type == TokenType.KEYWORD && t.value != ['i', 'f'] && t.value != ['e', 'l', 's', 'e'])

/-- The test `is_statement_alphabet` as a property of the token looked at. -/
def Token.is_alphabet (t : Token) : Bool := t.is_value || t.type == TokenType.SYMBOL

/-- The test `is_op1` as a property of the token looked at. -/
def Token.is_op1 (t : Token) : Bool :=
  t.type == TokenType.SYMBOL &&
    (t.value.getD 0 NUL == '+' || t.value.getD 0 NUL == '-' || t.value.getD 0 NUL == '*'
      || t.value.getD 0 NUL == '/' || t.value.getD 0 NUL == '^' || t.value.getD 0 NUL == '<'
      || t.value.getD 0 NUL == '>' || t.value.getD 0 NUL == '=')

/-- Length of the condition that `parse_cond` reads off the front of a token list, if any; it
is `Parser.parse_cond_sync` that says so. -/
def lcond : List Token → Option Nat
  | [] => none
  | v :: rest =>
    if v.is_value then
      match rest with
      | o :: w :: _ => if o.is_op1 && w.is_value then some 3 else some 1
      | _ => some 1
    else none

/-- Whether a token list starts with a token on which `is_statement_start` holds. -/
def starts_statement : List Token → Bool
  | [] => false
  | t :: _ => t.is_keyword ['i', 'f'] || t.is_alphabet

/-- Whether a token list starts with the keyword `else`. -/
def starts_else : List Token → Bool
  | [] => false
  | t :: _ => t.is_keyword ['e', 'l', 's', 'e']

/-- Number of tokens that `parse_statement` reads off the front of a token list; it is
`Parser.parse_statement_sync` that says so. -/
def lstmt : Nat → List Token → Result Nat
  | 0, _ => Result.outOfFuel
  | _ + 1, [] => Result.error Error.SyntaxError
  | n + 1, t :: rest =>
    if t.is_keyword ['e', 'l', 's', 'e'] then Result.error Error.SyntaxError
    else if t.is_keyword ['i', 'f'] then
      match lcond rest with
      | none => Result.error Error.SyntaxError
      | some kc =>
        match lstmt n (rest.drop kc) with
        | Result.ok k1 =>
          if starts_else (rest.drop (kc + k1)) then
            match lstmt n (rest.drop (kc + k1 + 1)) with
            | Result.ok k2 => Result.ok (1 + (kc + k1 + 1 + k2))
            | Result.error e => Result.error e
            | Result.outOfFuel => Result.outOfFuel
          else Result.ok (1 + (kc + k1))
        | Result.error e => Result.error e
        | Result.outOfFuel => Result.outOfFuel
    else if t.is_alphabet then
      if starts_statement rest then
        match lstmt n rest with
        | Result.ok k => Result.ok (1 + k)
        | Result.error e => Result.error e
        | Result.outOfFuel => Result.outOfFuel
      else Result.ok 1
    else Result.error Error.SyntaxError

/-- The token looked at in a synchronised state: the head of what is left, or else the
synthetic `END_OF_FILE` token. -/
def look (toks : List Token) (p : Nat) : Token :=
  (toks.drop p).headD (Token.mk TokenType.END_OF_FILE [] p)

/-- Transport of the outcome of a call along a function on returned values. -/
def Result.map {α β : Type} (f : α → β) : Result α → Result β
  | Result.ok a => Result.ok (f a)
  | Result.error e => Result.error e
  | Result.outOfFuel => Result.outOfFuel

/-! ## The grammar of the specification -/

namespace Grammar

/-- The terminal `'if'`: a KEYWORD token with text `if`. -/
def kw_if (t : Token) : Bool := t.type == TokenType.KEYWORD && t.value == ['i', 'f']

/-- The terminal `'else'`: a KEYWORD token with text `else`. -/
def kw_else (t : Token) : Bool := t.type == TokenType.KEYWORD && t.value == ['e', 'l', 's', 'e']

/-- The rule `value -> INTEGER | FLOAT | IDENTIFIER | KEYWORD-not-(if|else)`. -/
def value (t : Token) : Bool :=
  t.type == TokenType.INTEGER || t.type == TokenType.FLOAT || t.type == TokenType.IDENTIFIER
    || (t.type == TokenType.KEYWORD && !(t.value == ['i', 'f'])
        && !(t.value == ['e', 'l', 's', 'e']))

/-- The rule `op1 -> '+' | '-' | '*' | '/' | '^' | '<' | '>' | '='`: a SYMBOL token whose text
is one of these. -/
def op1 (t : Token) : Bool :=
  t.type == TokenType.SYMBOL &&
    [['+'], ['-'], ['*'], ['/'], ['^'], ['<'], ['>'], ['=']].contains t.value

/-- The rule `atom -> value | SYMBOL`, the statement-alphabet. -/
def atom (t : Token) : Bool := value t || t.type == TokenType.SYMBOL

/-- The rule `cond -> value [ op1 value ]`. -/
inductive cond : List Token → Prop
  | bare (v : Token) : value v = true → cond [v]
  | binary (v o w : Token) : value v = true → op1 o = true → value w = true → cond [v, o, w]

mutual
/-- The rule `statement -> 'if' conditional | atom [ statement ]`. -/
inductive statement : List Token → Prop
  | branch (i : Token) (c : List Token) : kw_if i = true → conditional c → statement (i :: c)
  | single (a : Token) : atom a = true → statement [a]
  | chain (a : Token) (s : List Token) : atom a = true → statement s → statement (a :: s)
/-- The rule `conditional -> cond statement [ 'else' statement ]`. -/
inductive conditional : List Token → Prop
  | no_else (c s : List Token) : cond c → statement s → conditional (c ++ s)
  | with_else (c s : List Token) (e : Token) (s2 : List Token) :
      cond c → statement s → kw_else e = true → statement s2 →
      conditional (c ++ s ++ e :: s2)
end

/-- The rule `S -> statement`. -/
def S (ts : List Token) : Prop := statement ts

/-- Whether a token list begins with an `op1` symbol followed by a `value`. -/
def starts_op1_value : List Token → Bool
  | o :: w :: _ => op1 o && value w
  | _ => false

/-- The rule `cond -> value [ op1 value ]` read as an ordered choice: the bare form is taken
only where the tokens `next` after the value do not begin with an `op1` and a `value`. -/
inductive ordered_cond (next : List Token) : List Token → Prop
  | bare (v : Token) : value v = true → starts_op1_value next = false → ordered_cond next [v]
  | binary (v o w : Token) :
      value v = true → op1 o = true → value w = true → ordered_cond next [v, o, w]

mutual
/-- The rule for `statement`, over the ordered reading of `cond`. -/
inductive ordered_statement : List Token → Prop
  | branch (i : Token) (c : List Token) :
      kw_if i = true → ordered_conditional c → ordered_statement (i :: c)
  | single (a : Token) : atom a = true → ordered_statement [a]
  | chain (a : Token) (s : List Token) :
      atom a = true → ordered_statement s → ordered_statement (a :: s)
/-- The rule for `conditional`, over the ordered reading of `cond`: what follows the
condition is the then-statement. -/
inductive ordered_conditional : List Token → Prop
  | no_else (c s : List Token) :
      ordered_cond s c → ordered_statement s → ordered_conditional (c ++ s)
  | with_else (c s : List Token) (e : Token) (s2 : List Token) :
      ordered_cond s c → ordered_statement s → kw_else e = true → ordered_statement s2 →
      ordered_conditional (c ++ s ++ e :: s2)
end

end Grammar

/-- Acceptance by counting.  The flag says whether a statement has been begun and may end
here; the number counts the enclosing `if`s still free to take an `else`. -/
inductive Run : Bool → Nat → List Token → Prop
  | stop (d : Nat) (t : Token) (rest : List Token) :
      t.type = TokenType.END_OF_FILE → Run true d (t :: rest)
  | atom (m : Bool) (d : Nat) (t : Token) (rest : List Token) :
      t.is_alphabet = true → Run true d rest → Run m d (t :: rest)
  | branch (m : Bool) (d : Nat) (t : Token) (rest : List Token) (kc : Nat) :
      t.is_keyword ['i', 'f'] = true → lcond rest = some kc →
      Run false (d + 1) (rest.drop kc) → Run m d (t :: rest)
  | other (d : Nat) (t : Token) (rest : List Token) :
      t.is_keyword ['e', 'l', 's', 'e'] = true → Run false d rest → Run true (d + 1) (t :: rest)

/-! ## The range of the cursor

The predicate of the cursor invariant, and the parser with the second branch of
`Parser::advance` left open: `Parser.parse_or_synthetic` says that it is the parser above once
that branch is put back. -/

/-- The predicate `pos < tokens.size()` and `current_token` equals `tokens[pos]`. -/
def Parser.in_range (p : Parser) : Prop :=
  p.pos < p.tokens.length ∧ p.tokens[p.pos]? = some p.current_token

/-- A token sequence whose last token is `END_OF_FILE`. -/
def ends_with_eof (toks : List Token) : Prop :=
  ∃ body eof, toks = body ++ [eof] ∧ eof.type = TokenType.END_OF_FILE

/-- The method `Parser::advance` with its second branch, the one that makes the synthetic
`END_OF_FILE` token, replaced by an arbitrary `alt`. -/
def Parser.advance_or (alt : Parser → Parser) (p : Parser) : Parser :=
  if p.pos + 1 < p.tokens.length then
    Parser.mk p.tokens (p.pos + 1)
      (p.tokens.getD (p.pos + 1) (Token.mk TokenType.END_OF_FILE [] (p.pos + 1)))
  else alt p

/-- The method `Parser::parse_x` over `advance_or`. -/
def Parser.parse_x_or (alt : Parser → Parser) (p : Parser) : Bool × Parser :=
  if p.current_token.type == TokenType.INTEGER || p.current_token.type == TokenType.FLOAT
      || p.current_token.type == TokenType.IDENTIFIER
      || (p.current_token.type == TokenType.KEYWORD && p.current_token.value != ['i', 'f']
          && p.current_token.value != ['e', 'l', 's', 'e']) then (true, p.advance_or alt)
  else (false, p)

/-- The method `Parser::parse_cond` over `advance_or`. -/
def Parser.parse_cond_or (alt : Parser → Parser) (p : Parser) : Result Parser :=
  let backup_pos := p.pos
  let backup_token := p.current_token
  match p.parse_x_or alt with
  | (true, p1) =>
    if p1.is_op1 then
      match (p1.advance_or alt).parse_x_or alt with
      | (true, p2) => Result.ok p2
      | (false, p2) =>
        Result.ok ((Parser.mk p2.tokens backup_pos backup_token).parse_x_or alt).2
    else Result.ok p1
  | (false, _) => Result.error Error.SyntaxError

/-- The method `Parser::parse_A` over `advance_or`. -/
def Parser.parse_A_or (alt : Parser → Parser) (statement : Parser → Result Parser)
    (p : Parser) : Result Parser :=
  match p.parse_cond_or alt with
  | Result.ok p1 =>
    match statement p1 with
    | Result.ok p2 =>
      if p2.match_token TokenType.KEYWORD ['e', 'l', 's', 'e'] then
        statement (p2.advance_or alt)
      else Result.ok p2
    | Result.error e => Result.error e
    | Result.outOfFuel => Result.outOfFuel
  | Result.error e => Result.error e
  | Result.outOfFuel => Result.outOfFuel

/-- The method `Parser::parse_statement` over `advance_or`. -/
def Parser.parse_statement_or (alt : Parser → Parser) : Nat → Parser → Result Parser
  | 0, _ => Result.outOfFuel
  | n + 1, p =>
    if p.match_token TokenType.KEYWORD ['e', 'l', 's', 'e'] then Result.error Error.SyntaxError
    else if p.match_token TokenType.KEYWORD ['i', 'f'] then
      Parser.parse_A_or alt (Parser.parse_statement_or alt n) (p.advance_or alt)
    else if p.is_statement_alphabet then
      if (p.advance_or alt).is_statement_start then
        Parser.parse_statement_or alt n (p.advance_or alt)
      else Result.ok (p.advance_or alt)
    else Result.error Error.SyntaxError

/-- The method `Parser::parse` over `advance_or`. -/
def Parser.parse_or (alt : Parser → Parser) (tokens : List Token) : Result Unit :=
  match Parser.parse_statement_or alt (tokens.length + 1) (Parser.new tokens) with
  | Result.ok p =>
    if p.current_token.type != TokenType.END_OF_FILE then Result.error Error.SyntaxError
    else Result.ok ()
  | Result.error e => Result.error e
  | Result.outOfFuel => Result.outOfFuel

/-- The branch of `Parser::advance` that makes the synthetic `END_OF_FILE` token. -/
def Parser.synthetic (q : Parser) : Parser :=
  Parser.mk q.tokens (q.pos + 1) (Token.mk TokenType.END_OF_FILE [] (q.pos + 1))

/-! ## The lexer on synchronised states -/

theorem NUL_toNat : NUL.toNat = 0 := by decide

theorem isdigit_NUL : isdigit NUL = false := by decide
theorem isalpha_NUL : isalpha NUL = false := by decide
theorem isspace_NUL : isspace NUL = false := by decide
theorem isalnum_NUL : isalnum NUL = false := by decide

theorem Lexer.new_eq (text : List Char) : Lexer.new text = Lexer.sync text 0 := by
  cases text <;> simp [Lexer.new, Lexer.sync]

theorem Lexer.advance_sync (inp : List Char) (p : Nat) :
    (Lexer.sync inp p).advance = Lexer.sync inp (p + 1) := by
  unfold Lexer.advance Lexer.sync
  by_cases h : p + 1 < inp.length
  · simp [h]
  · have hle : inp.length ≤ p + 1 := Nat.le_of_not_lt h
    simp [h, List.getElem?_eq_none hle]

theorem getD_of_drop {inp : List Char} {p : Nat} {c : Char} {r : List Char}
    (h : inp.drop p = c :: r) : inp.getD p NUL = c ∧ inp.drop (p + 1) = r ∧ p < inp.length := by
  have hp : p < inp.length := by
    by_contra hn
    rw [List.drop_eq_nil_of_le (Nat.le_of_not_lt hn)] at h
    cases h
  have h1 := List.drop_eq_getElem_cons hp
  rw [h] at h1
  injection h1 with h2 h3
  refine ⟨?_, h3.symm, hp⟩
  rw [List.getD_eq_getElem _ _ hp, ← h2]

theorem getD_of_drop_nil {inp : List Char} {p : Nat} (h : inp.drop p = []) :
    inp.getD p NUL = NUL ∧ inp.length ≤ p := by
  have hp : inp.length ≤ p := by simpa using h
  exact ⟨List.getD_eq_default _ _ hp, hp⟩

theorem Lexer.cur_sync (inp : List Char) (p : Nat) :
    (Lexer.sync inp p).current_char = (inp.drop p).headD NUL := by
  cases h : inp.drop p with
  | nil => simpa [Lexer.sync] using (getD_of_drop_nil h).1
  | cons c r => simpa [Lexer.sync] using (getD_of_drop h).1

/-- With fuel beyond the remaining input, `collect` consumes exactly the longest prefix whose
characters are not the sentinel and satisfy `q`. -/
theorem Lexer.collect_sync (q : Char → Bool) (inp : List Char) :
    ∀ (n p : Nat) (r : List Char), inp.length - p < n →
      Lexer.collect q n (Lexer.sync inp p) r =
        some (Lexer.sync inp (p + ((inp.drop p).takeWhile (fun c => c != NUL && q c)).length),
          r ++ (inp.drop p).takeWhile (fun c => c != NUL && q c)) := by
  intro n
  induction n with
  | zero => intro p r h; omega
  | succ n ih =>
    intro p r h
    rw [Lexer.collect]
    cases hd : inp.drop p with
    | nil =>
      have hcur : (Lexer.sync inp p).current_char = NUL := by rw [Lexer.cur_sync, hd]; rfl
      rw [hcur]
      simp
    | cons c rest =>
      obtain ⟨hc, hr, hp⟩ := getD_of_drop hd
      have hcur : (Lexer.sync inp p).current_char = c := by rw [Lexer.cur_sync, hd]; rfl
      rw [hcur]
      by_cases hq : (c != NUL && q c) = true
      · rw [if_pos hq, Lexer.advance_sync, ih (p + 1) _ (by omega), hr]
        simp [List.takeWhile_cons, hq, Nat.add_assoc, Nat.add_comm 1]
      · rw [if_neg hq]
        simp [List.takeWhile_cons, hq]

theorem Lexer.skip_whitespace_sync (inp : List Char) :
    ∀ (n p : Nat), inp.length - p < n →
      Lexer.skip_whitespace n (Lexer.sync inp p) =
        some (Lexer.sync inp (p + ((inp.drop p).takeWhile (fun c => c != NUL && isspace c)).length))
    := by
  intro n
  induction n with
  | zero => intro p h; omega
  | succ n ih =>
    intro p h
    rw [Lexer.skip_whitespace]
    cases hd : inp.drop p with
    | nil =>
      have hcur : (Lexer.sync inp p).current_char = NUL := by rw [Lexer.cur_sync, hd]; rfl
      rw [hcur]
      simp
    | cons c rest =>
      obtain ⟨hc, hr, hp⟩ := getD_of_drop hd
      have hcur : (Lexer.sync inp p).current_char = c := by rw [Lexer.cur_sync, hd]; rfl
      rw [hcur]
      by_cases hq : (c != NUL && isspace c) = true
      · rw [if_pos hq, Lexer.advance_sync, ih (p + 1) (by omega), hr]
        simp [List.takeWhile_cons, hq, Nat.add_assoc, Nat.add_comm 1]
      · rw [if_neg hq]
        simp [List.takeWhile_cons, hq]

theorem scan_run_eq (inp : List Char) :
    ∀ (n p : Nat) (r : List Char), inp.length - p < n →
      scan_run inp n p r =
        some (p + ((inp.drop p).takeWhile (fun c => isalnum c || c == '_')).length,
          r ++ (inp.drop p).takeWhile (fun c => isalnum c || c == '_')) := by
  intro n
  induction n with
  | zero => intro p r h; omega
  | succ n ih =>
    intro p r h
    rw [scan_run]
    cases hd : inp.drop p with
    | nil =>
      have h0 := (getD_of_drop_nil hd).2
      simp [Nat.not_lt.mpr h0]
    | cons c rest =>
      obtain ⟨hc, hr, hp⟩ := getD_of_drop hd
      rw [hc]
      by_cases hq : (isalnum c || c == '_') = true
      · have hq2 : (decide (p < inp.length) && (isalnum c || c == '_')) = true := by simp [hp, hq]
        rw [if_pos hq2, ih (p + 1) _ (by omega), hr]
        simp [List.takeWhile_cons, hq, Nat.add_assoc, Nat.add_comm 1]
      · have hq2 : ¬ (decide (p < inp.length) && (isalnum c || c == '_')) = true := by simp [hp, hq]
        rw [if_neg hq2]
        simp [List.takeWhile_cons, hq]

theorem Lexer.consume_run_sync (inp : List Char) :
    ∀ (n p : Nat) (r : List Char), inp.length - p < n →
      Lexer.consume_run n (Lexer.sync inp p) r ≠ none := by
  intro n
  induction n with
  | zero => intro p r h; omega
  | succ n ih =>
    intro p r h
    rw [Lexer.consume_run]
    split
    · rename_i hc
      have hp : p < inp.length := by
        simp [Lexer.sync] at hc
        exact hc.1
      rw [Lexer.advance_sync]
      exact ih (p + 1) _ (by omega)
    · simp

theorem drop_add_takeWhile (f : Char → Bool) (inp : List Char) (p : Nat) :
    inp.drop (p + ((inp.drop p).takeWhile f).length) = (inp.drop p).dropWhile f := by
  have h1 : inp.drop (p + ((inp.drop p).takeWhile f).length)
      = (inp.drop p).drop ((inp.drop p).takeWhile f).length := by
    rw [List.drop_drop]
  rw [h1]
  generalize inp.drop p = l
  induction l with
  | nil => simp
  | cons a l ih =>
    by_cases h : f a = true
    · simp [List.takeWhile_cons, List.dropWhile_cons, h, ih]
    · simp [List.takeWhile_cons, List.dropWhile_cons, h]

theorem drop_split (f : Char → Bool) (inp : List Char) (p : Nat) :
    inp.drop p = (inp.drop p).takeWhile f ++ inp.drop (p + ((inp.drop p).takeWhile f).length) := by
  rw [drop_add_takeWhile, List.takeWhile_append_dropWhile]

theorem mem_takeWhile_true {f : Char → Bool} {l : List Char} {c : Char}
    (h : c ∈ l.takeWhile f) : f c = true := by
  induction l with
  | nil => simp at h
  | cons a l ih =>
    rw [List.takeWhile_cons] at h
    by_cases ha : f a = true
    · rw [if_pos ha] at h
      rcases List.mem_cons.mp h with h1 | h1
      · rw [h1]; exact ha
      · exact ih h1
    · rw [if_neg ha] at h
      simp at h

theorem Lexer.fuel_sync (inp : List Char) (p : Nat) : (Lexer.sync inp p).fuel = inp.length + 1 := rfl
theorem Lexer.pos_sync (inp : List Char) (p : Nat) : (Lexer.sync inp p).pos = p := rfl
theorem Lexer.input_sync (inp : List Char) (p : Nat) : (Lexer.sync inp p).input = inp := rfl

/-- What `number` does when it is entered on a digit. -/
theorem Lexer.number_spec (inp : List Char) (q : Nat)
    (hdig : isdigit (Lexer.sync inp q).current_char = true) :
    (Lexer.sync inp q).number = Result.error Error.LexicalError ∨
    ∃ tok rest, (Lexer.sync inp q).number = Result.ok (tok, Lexer.sync inp (q + tok.value.length))
      ∧ inp.drop q = tok.value ++ rest ∧ tok.position = q
      ∧ tok.type ≠ TokenType.END_OF_FILE ∧ tok.shape := by
  set f : Char → Bool := fun c => c != NUL && isdigit c with hf
  have hfd : ∀ {l : List Char} {c : Char}, c ∈ l.takeWhile f → isdigit c = true := by
    intro l c hc
    have := mem_takeWhile_true hc
    simp [hf] at this
    exact this.2
  have hhead : ∀ {l : List Char}, isdigit (l.headD NUL) = true → l.takeWhile f ≠ [] := by
    intro l hl
    cases l with
    | nil => simp [isdigit_NUL] at hl
    | cons c r =>
      have hc : c ≠ NUL := by rintro rfl; simp [isdigit_NUL] at hl
      simp at hl
      simp [List.takeWhile_cons, hf, hl, hc]
  rw [Lexer.cur_sync] at hdig
  unfold Lexer.number
  rw [Lexer.fuel_sync, Lexer.pos_sync, Lexer.collect_sync isdigit inp _ q [] (by omega)]
  simp only [List.nil_append, Lexer.advance_sync, Lexer.cur_sync]
  set d1 := (inp.drop q).takeWhile f with hd1
  have hsplit1 := drop_split f inp q
  rw [← hd1] at hsplit1
  by_cases hdot : ((inp.drop (q + d1.length)).headD NUL == '.') = true
  · rw [if_pos hdot]
    have hdot2 : (inp.drop (q + d1.length)).headD NUL = '.' := by simpa using hdot
    by_cases hd2 : isdigit ((inp.drop (q + d1.length + 1)).headD NUL) = true
    · right
      rw [hd2]
      simp only [Bool.not_true, Bool.false_eq_true, if_false]
      rw [Lexer.collect_sync isdigit inp _ _ _ (by omega)]
      set d2 := (inp.drop (q + d1.length + 1)).takeWhile f with hd2def
      have hsplit2 := drop_split f inp (q + d1.length + 1)
      rw [← hd2def] at hsplit2
      have hrest1 : inp.drop (q + d1.length) = '.' :: inp.drop (q + d1.length + 1) := by
        cases hr : inp.drop (q + d1.length) with
        | nil => rw [hr] at hdot2; exact absurd hdot2 (by decide)
        | cons c r =>
          rw [hr] at hdot2
          simp at hdot2
          rw [(getD_of_drop hr).2.1, hdot2]
      refine ⟨Token.mk TokenType.FLOAT (d1 ++ ['.'] ++ d2) q,
        inp.drop (q + d1.length + 1 + d2.length), ?_, ?_, rfl, ?_, ?_⟩
      · rw [hdot2]
        simp only [List.length_append, List.length_singleton, Nat.add_assoc]
      · show inp.drop q = (d1 ++ ['.'] ++ d2) ++ _
        rw [hsplit1]
        conv_lhs => rw [hrest1, hsplit2]
        simp
      · simp
      · refine ⟨d1, d2, ?_, hhead hdig, hhead hd2, fun d hd => hfd hd, fun d hd => hfd hd⟩
        simp
    · left
      have hd2f : isdigit ((inp.drop (q + d1.length + 1)).headD NUL) = false := by
        simpa using hd2
      rw [hd2f]
      rfl
  · right
    rw [if_neg hdot]
    refine ⟨Token.mk TokenType.INTEGER d1 q, inp.drop (q + d1.length), rfl, hsplit1, rfl,
      by simp, ?_⟩
    exact ⟨hhead hdig, fun d hd => hfd hd⟩

/-- What `identifier_or_keyword` does when it is entered on a letter or an underscore. -/
theorem Lexer.identifier_spec (inp : List Char) (q : Nat)
    (hal : (isalpha (Lexer.sync inp q).current_char || (Lexer.sync inp q).current_char == '_')
      = true) :
    ∃ tok rest, (Lexer.sync inp q).identifier_or_keyword
        = Result.ok (tok, Lexer.sync inp (q + tok.value.length))
      ∧ inp.drop q = tok.value ++ rest ∧ tok.position = q
      ∧ tok.type ≠ TokenType.END_OF_FILE ∧ tok.shape := by
  set f : Char → Bool := fun c => c != NUL && (isalnum c || c == '_') with hf
  rw [Lexer.cur_sync] at hal
  unfold Lexer.identifier_or_keyword
  simp only [Lexer.fuel_sync, Lexer.pos_sync, Lexer.cur_sync]
  have hguard : (!isalpha ((inp.drop q).headD NUL) && (inp.drop q).headD NUL != '_') = false := by
    generalize (inp.drop q).headD NUL = c at hal
    cases h1 : isalpha c <;> cases h2 : (c == '_') <;> simp_all
  rw [hguard]
  simp only [Bool.false_eq_true, if_false]
  rw [Lexer.collect_sync _ inp _ q [] (by omega)]
  simp only [List.nil_append]
  set w := (inp.drop q).takeWhile f with hw
  have hsplit := drop_split f inp q
  rw [← hw] at hsplit
  have hshape : ∃ c cs, w = c :: cs ∧ (isalpha c = true ∨ c = '_') ∧
      ∀ d ∈ c :: cs, isalpha d = true ∨ isdigit d = true ∨ d = '_' := by
    cases hr : inp.drop q with
    | nil => rw [hr] at hal; simp [isalpha_NUL] at hal; exact absurd hal (by decide)
    | cons c r =>
      rw [hr] at hal
      simp only [List.headD_cons] at hal
      have hc : (isalpha c = true ∨ c = '_') := by
        rcases Bool.or_eq_true _ _ ▸ hal with h | h
        · exact Or.inl h
        · exact Or.inr (by simpa using h)
      have hfc : f c = true := by
        rcases hc with h | h
        · have : c ≠ NUL := by rintro rfl; simp [isalpha_NUL] at h
          simp [hf, isalnum, h, this]
        · subst h; decide
      refine ⟨c, r.takeWhile f, ?_, hc, ?_⟩
      · rw [hw, hr, List.takeWhile_cons, if_pos hfc]
      · intro d hd
        have hd2 : d ∈ (c :: r).takeWhile f := by rw [List.takeWhile_cons, if_pos hfc]; exact hd
        have := mem_takeWhile_true hd2
        simp [hf, isalnum] at this
        rcases this.2 with (h | h) | h
        · exact Or.inl h
        · exact Or.inr (Or.inl h)
        · exact Or.inr (Or.inr h)
  by_cases hk : keywords.contains w = true
  · rw [if_pos hk]
    refine ⟨Token.mk TokenType.KEYWORD w q, inp.drop (q + w.length), rfl, hsplit, rfl,
      by simp, ?_⟩
    simpa [Token.shape, keywords] using hk
  · rw [if_neg hk]
    refine ⟨Token.mk TokenType.IDENTIFIER w q, inp.drop (q + w.length), rfl, hsplit, rfl,
      by simp, ?_⟩
    refine ⟨hshape, ?_⟩
    simpa [keywords] using hk

theorem drop_of_append {inp a b : List Char} {q : Nat} (h : inp.drop q = a ++ b) :
    inp.drop (q + a.length) = b := by
  rw [← List.drop_drop, h, List.drop_left]

theorem Token.value_ne_nil {t : Token} (hs : t.shape) (ht : t.type ≠ TokenType.END_OF_FILE) :
    t.value ≠ [] := by
  unfold Token.shape at hs
  cases hty : t.type <;> rw [hty] at hs <;> simp only at hs
  · obtain ⟨⟨c, cs, h, _⟩, _⟩ := hs
    rw [h]; simp
  · rcases hs with h | h | h <;> rw [h] <;> simp
  · exact hs.1
  · obtain ⟨a, b, h, _⟩ := hs
    rw [h]; simp
  · obtain ⟨c, h, _⟩ := hs
    rw [h]; simp
  · exact absurd hty ht

/-- One turn of the main loop of `tokenize` from a synchronised state: it stops with the end
marker, or throws `LexicalError`, or appends one well-shaped token and goes on behind it. -/
theorem Lexer.tokenize_loop_step (inp : List Char) (n p : Nat) (acc : List Token) :
    (∃ ws, (∀ c ∈ ws, isspace c = true) ∧ (inp.drop (p + ws.length)).headD NUL = NUL ∧
        inp.drop p = ws ++ inp.drop (p + ws.length) ∧
        Lexer.tokenize_loop (n + 1) (Lexer.sync inp p) acc
          = Result.ok (acc ++ [Token.mk TokenType.END_OF_FILE [] (p + ws.length)])) ∨
    Lexer.tokenize_loop (n + 1) (Lexer.sync inp p) acc = Result.error Error.LexicalError ∨
    (∃ ws tok rest, (∀ c ∈ ws, isspace c = true) ∧ inp.drop p = ws ++ (tok.value ++ rest) ∧
        rest = inp.drop (p + ws.length + tok.value.length) ∧
        tok.position = p + ws.length ∧ tok.type ≠ TokenType.END_OF_FILE ∧ tok.shape ∧
        Lexer.tokenize_loop (n + 1) (Lexer.sync inp p) acc
          = Lexer.tokenize_loop n (Lexer.sync inp (p + ws.length + tok.value.length))
              (acc ++ [tok])) := by
  rw [Lexer.tokenize_loop]
  by_cases h0 : ((Lexer.sync inp p).current_char != NUL) = true
  swap
  · left
    refine ⟨[], by simp, ?_, by simp, ?_⟩
    · rw [Lexer.cur_sync] at h0
      simpa using h0
    · rw [if_neg h0]; rfl
  rw [if_pos h0, Lexer.fuel_sync, Lexer.skip_whitespace_sync inp _ p (by omega)]
  simp only
  set g : Char → Bool := fun c => c != NUL && isspace c with hg
  set ws := (inp.drop p).takeWhile g with hws
  have hsplit := drop_split g inp p
  rw [← hws] at hsplit
  have hsp : ∀ c ∈ ws, isspace c = true := by
    intro c hc
    have := mem_takeWhile_true hc
    simp [hg] at this
    exact this.2
  by_cases h1 : ((Lexer.sync inp (p + ws.length)).current_char == NUL) = true
  · left
    refine ⟨ws, hsp, ?_, hsplit, ?_⟩
    · rw [Lexer.cur_sync] at h1
      simpa using h1
    · rw [if_pos h1]; rfl
  rw [if_neg h1]
  right
  have hwrap : ∀ (tok : Token) (rest : List Char),
      inp.drop (p + ws.length) = tok.value ++ rest →
      inp.drop p = ws ++ (tok.value ++ rest) ∧
        rest = inp.drop (p + ws.length + tok.value.length) := by
    intro tok rest h
    refine ⟨?_, (drop_of_append h).symm⟩
    rw [← h]; exact hsplit
  by_cases hdig : isdigit (Lexer.sync inp (p + ws.length)).current_char = true
  · rw [if_pos hdig]
    simp only [Lexer.input_sync, Lexer.fuel_sync, Lexer.pos_sync]
    rw [scan_run_eq inp _ _ _ (by omega)]
    simp only
    split
    · left
      cases hc : Lexer.consume_run (inp.length + 1) (Lexer.sync inp (p + ws.length)) [] with
      | none => exact absurd hc (Lexer.consume_run_sync inp _ _ _ (by omega))
      | some v => rfl
    · rcases Lexer.number_spec inp _ hdig with herr | ⟨tok, rest, hnum, hdrop, hpos, hty, hsh⟩
      · left; rw [herr]
      · right
        rw [hnum]
        obtain ⟨ha, hb⟩ := hwrap tok rest hdrop
        exact ⟨ws, tok, rest, hsp, ha, hb, hpos, hty, hsh, rfl⟩
  rw [if_neg hdig]
  by_cases hal : (isalpha (Lexer.sync inp (p + ws.length)).current_char
      || (Lexer.sync inp (p + ws.length)).current_char == '_') = true
  · rw [if_pos hal]
    obtain ⟨tok, rest, hid, hdrop, hpos, hty, hsh⟩ := Lexer.identifier_spec inp _ hal
    right
    rw [hid]
    obtain ⟨ha, hb⟩ := hwrap tok rest hdrop
    exact ⟨ws, tok, rest, hsp, ha, hb, hpos, hty, hsh, rfl⟩
  rw [if_neg hal]
  by_cases hop : (operators.contains (Lexer.sync inp (p + ws.length)).current_char
      || symbols.contains (Lexer.sync inp (p + ws.length)).current_char) = true
  · rw [if_pos hop]
    right
    rw [Lexer.advance_sync, Lexer.pos_sync]
    cases hr : inp.drop (p + ws.length) with
    | nil =>
      have hcur : (Lexer.sync inp (p + ws.length)).current_char = NUL := by
        rw [Lexer.cur_sync, hr]; rfl
      rw [hcur] at h1
      simp at h1
    | cons c r =>
      have hcur : (Lexer.sync inp (p + ws.length)).current_char = c := by
        rw [Lexer.cur_sync, hr]; rfl
      rw [hcur] at hop ⊢
      have hdrop : inp.drop (p + ws.length)
          = (Token.mk TokenType.SYMBOL [c] (p + ws.length)).value ++ r := by rw [hr]; rfl
      obtain ⟨ha, hb⟩ := hwrap _ r hdrop
      refine ⟨ws, Token.mk TokenType.SYMBOL [c] (p + ws.length), r, hsp, ha, hb, rfl, by simp,
        ?_, rfl⟩
      refine ⟨c, rfl, ?_⟩
      simpa [operators, symbols, or_assoc] using hop
  · rw [if_neg hop]
    left; rfl

/-- The main loop never runs out of fuel when given more than the remaining input, throws only
`LexicalError`, and what it returns is the accumulated tokens, a chain, and the end marker. -/
theorem Lexer.tokenize_loop_spec (inp : List Char) :
    ∀ (n p : Nat) (acc : List Token),
      (inp.length - p < n →
        Lexer.tokenize_loop n (Lexer.sync inp p) acc ≠ Result.outOfFuel) ∧
      (∀ e, Lexer.tokenize_loop n (Lexer.sync inp p) acc = Result.error e
        → e = Error.LexicalError) ∧
      (∀ ts, Lexer.tokenize_loop n (Lexer.sync inp p) acc = Result.ok ts →
        ∃ toks pe, ts = acc ++ toks ++ [Token.mk TokenType.END_OF_FILE [] pe] ∧
          Chain p (inp.drop p) toks pe) := by
  intro n
  induction n with
  | zero =>
    intro p acc
    refine ⟨fun h => by omega, fun e h => ?_, fun ts h => ?_⟩
    · simp [Lexer.tokenize_loop] at h
    · simp [Lexer.tokenize_loop] at h
  | succ n ih =>
    intro p acc
    rcases Lexer.tokenize_loop_step inp n p acc with
      ⟨ws, hws, hend, hdrop, heq⟩ | heq | ⟨ws, tok, rest, hws, hdrop, hrest, hpos, hty, hsh, heq⟩
    · rw [heq]
      refine ⟨fun _ => by simp, fun e h => by simp at h, fun ts h => ?_⟩
      injection h with h
      refine ⟨[], p + ws.length, by simp [← h], ?_⟩
      rw [hdrop]
      exact Chain.done p ws _ hws hend
    · rw [heq]
      refine ⟨fun _ => by simp, fun e h => ?_, fun ts h => by simp at h⟩
      injection h with h
      exact h.symm
    · rw [heq]
      obtain ⟨ih1, ih2, ih3⟩ := ih (p + ws.length + tok.value.length) (acc ++ [tok])
      refine ⟨fun hn => ih1 ?_, ih2, fun ts h => ?_⟩
      · have hne := Token.value_ne_nil hsh hty
        have hlen : 0 < tok.value.length := List.length_pos.mpr hne
        have hp : p < inp.length := by
          by_contra hcon
          rw [List.drop_eq_nil_of_le (Nat.le_of_not_lt hcon)] at hdrop
          have := congrArg List.length hdrop
          simp at this
          omega
        omega
      · obtain ⟨toks, pe, hts, hch⟩ := ih3 ts h
        refine ⟨tok :: toks, pe, by simp [hts], ?_⟩
        rw [hdrop]
        rw [← hrest] at hch
        exact Chain.tok p ws tok rest toks pe hws hpos hty hsh hch

/-- `tokenize` always terminates with the fuel it takes. -/
theorem Lexer.tokenize_ne_outOfFuel (s : List Char) : Lexer.tokenize s ≠ Result.outOfFuel := by
  unfold Lexer.tokenize
  rw [Lexer.new_eq]
  exact (Lexer.tokenize_loop_spec s _ 0 []).1 (by omega)

/-- The only exception `tokenize` throws is `LexicalError`. -/
theorem Lexer.tokenize_error (s : List Char) (e : Error) (h : Lexer.tokenize s = Result.error e) :
    e = Error.LexicalError := by
  unfold Lexer.tokenize at h
  rw [Lexer.new_eq] at h
  exact (Lexer.tokenize_loop_spec s _ 0 []).2.1 e h

/-- What `tokenize` returns is a chain over the whole text followed by the end marker. -/
theorem Lexer.tokenize_chain (s : List Char) (ts : List Token)
    (h : Lexer.tokenize s = Result.ok ts) :
    ∃ toks pe, ts = toks ++ [Token.mk TokenType.END_OF_FILE [] pe] ∧ Chain 0 s toks pe := by
  unfold Lexer.tokenize at h
  rw [Lexer.new_eq] at h
  obtain ⟨toks, pe, h1, h2⟩ := (Lexer.tokenize_loop_spec s _ 0 []).2.2 ts h
  exact ⟨toks, pe, by simpa using h1, by simpa using h2⟩

/-- Every token of a chain is well-shaped and is not the end marker. -/
theorem Chain.shape_of_mem {p pe : Nat} {rest : List Char} {toks : List Token}
    (h : Chain p rest toks pe) :
    ∀ t ∈ toks, t.type ≠ TokenType.END_OF_FILE ∧ t.shape := by
  induction h with
  | done p ws rest _ _ => intro t ht; simp at ht
  | tok p ws t rest toks pe _ _ hty hsh _ ih =>
    intro u hu
    rcases List.mem_cons.mp hu with h | h
    · rw [h]; exact ⟨hty, hsh⟩
    · exact ih u h

/-- Every token of a chain over `inp.drop p` sits in `inp` at its recorded offset. -/
theorem Chain.text_of_mem {inp : List Char} {p pe : Nat} {rest : List Char} {toks : List Token}
    (h : Chain p rest toks pe) (hr : inp.drop p = rest) :
    ∀ t ∈ toks, p ≤ t.position ∧ ∃ r, inp.drop t.position = t.value ++ r := by
  induction h with
  | done p ws rest _ _ => intro t ht; simp at ht
  | tok p ws t rest toks pe _ hpos _ _ _ ih =>
    intro u hu
    have h1 : inp.drop (p + ws.length) = t.value ++ rest := drop_of_append hr
    have h2 : inp.drop (p + ws.length + t.value.length) = rest := drop_of_append h1
    rcases List.mem_cons.mp hu with h | h
    · rw [h, hpos]; exact ⟨by omega, rest, h1⟩
    · obtain ⟨h3, h4⟩ := ih h2 u h
      exact ⟨by omega, h4⟩

/-- The characters that can occur in the text of a token. -/
theorem Token.char_of_shape {t : Token} (hs : t.shape) (ht : t.type ≠ TokenType.END_OF_FILE) :
    ∀ c ∈ t.value, isalpha c = true ∨ isdigit c = true ∨ c = '_' ∨ c = '.' ∨
      c ∈ operators ∨ c ∈ symbols := by
  intro c hc
  unfold Token.shape at hs
  cases hty : t.type <;> rw [hty] at hs <;> simp only at hs
  · obtain ⟨⟨a, cs, h, _, hall⟩, _⟩ := hs
    rw [h] at hc
    rcases hall c hc with h1 | h1 | h1
    · exact Or.inl h1
    · exact Or.inr (Or.inl h1)
    · exact Or.inr (Or.inr (Or.inl h1))
  · left
    have hall : ∀ d ∈ t.value, isalpha d = true := by
      rcases hs with h | h | h <;> rw [h] <;> decide
    exact hall c hc
  · exact Or.inr (Or.inl (hs.2 c hc))
  · obtain ⟨a, b, h, _, _, ha, hb⟩ := hs
    rw [h] at hc
    rcases List.mem_append.mp hc with h1 | h1
    · exact Or.inr (Or.inl (ha c h1))
    · rcases List.mem_cons.mp h1 with h2 | h2
      · exact Or.inr (Or.inr (Or.inr (Or.inl h2)))
      · exact Or.inr (Or.inl (hb c h2))
  · obtain ⟨a, h, ha⟩ := hs
    rw [h] at hc
    have hca : c = a := by simpa using hc
    rw [hca]
    right; right; right; right
    simp only [operators, symbols]
    simp only [List.mem_cons, List.mem_singleton, List.not_mem_nil, or_false] at ha ⊢
    tauto
  · exact absurd hty ht

/-- A chain that reaches the end of a text without sentinel has read only blanks and
token characters. -/
theorem Chain.chars {p pe : Nat} {rest : List Char} {toks : List Token}
    (h : Chain p rest toks pe) (hnul : NUL ∉ rest) :
    ∀ c ∈ rest, isspace c = true ∨ isalpha c = true ∨ isdigit c = true ∨ c = '_' ∨ c = '.' ∨
      c ∈ operators ∨ c ∈ symbols := by
  induction h with
  | done p ws rest hws hend =>
    intro c hc
    cases rest with
    | nil => exact Or.inl (hws c (by simpa using hc))
    | cons a r =>
      simp only [List.headD_cons] at hend
      exact absurd (by rw [hend]; simp) hnul
  | tok p ws t rest toks pe hws _ hty hsh _ ih =>
    intro c hc
    rcases List.mem_append.mp hc with h1 | h1
    · exact Or.inl (hws c h1)
    · rcases List.mem_append.mp h1 with h2 | h2
      · exact Or.inr (Token.char_of_shape hsh hty c h2)
      · exact ih (fun hn => hnul (by simp [hn])) c h2

/-- C1: whenever `Lexer::tokenize` succeeds, the returned sequence is non-empty, its last token
is `END_OF_FILE` with empty text, no other token is `END_OF_FILE`, and every other token has
non-empty text. -/
theorem C1_tokenize_ends_with_one_eof (s : List Char) (ts : List Token)
    (h : Lexer.tokenize s = Result.ok ts) :
    ts ≠ [] ∧ ∃ body eof, ts = body ++ [eof] ∧
      eof.type = TokenType.END_OF_FILE ∧ eof.value = [] ∧
      ∀ t ∈ body, t.type ≠ TokenType.END_OF_FILE ∧ t.value ≠ [] := by
  obtain ⟨toks, pe, hts, hch⟩ := Lexer.tokenize_chain s ts h
  refine ⟨by simp [hts], toks, _, hts, rfl, rfl, fun t ht => ?_⟩
  obtain ⟨h1, h2⟩ := hch.shape_of_mem t ht
  exact ⟨h1, Token.value_ne_nil h2 h1⟩

/-- C1, instance: the theorem applied to a concrete input. -/
theorem C1_tokenize_ends_with_one_eof_witness :
    Lexer.tokenize ['x', ' ', '4', '2'] = Result.ok
        [Token.mk TokenType.IDENTIFIER ['x'] 0, Token.mk TokenType.INTEGER ['4', '2'] 2,
          Token.mk TokenType.END_OF_FILE [] 4] ∧
      ([Token.mk TokenType.IDENTIFIER ['x'] 0, Token.mk TokenType.INTEGER ['4', '2'] 2,
          Token.mk TokenType.END_OF_FILE [] 4] ≠ [] ∧
        ∃ body eof, [Token.mk TokenType.IDENTIFIER ['x'] 0,
            Token.mk TokenType.INTEGER ['4', '2'] 2, Token.mk TokenType.END_OF_FILE [] 4]
            = body ++ [eof] ∧
          eof.type = TokenType.END_OF_FILE ∧ eof.value = [] ∧
          ∀ t ∈ body, t.type ≠ TokenType.END_OF_FILE ∧ t.value ≠ []) :=
  ⟨by decide, C1_tokenize_ends_with_one_eof ['x', ' ', '4', '2'] _ (by decide)⟩

/-- C2: for every ASCII input `s` on which `Lexer::tokenize` succeeds and every token `t` of the
result other than `END_OF_FILE`, `t.value` is exactly the substring of `s` that starts at index
`t.position` and has length `|t.value|`. -/
theorem C2_token_text_is_substring (s : List Char) (ts : List Token)
    (_hascii : ∀ c ∈ s, c.toNat < 128) (h : Lexer.tokenize s = Result.ok ts) :
    ∀ t ∈ ts, t.type ≠ TokenType.END_OF_FILE →
      t.value = (s.drop t.position).take t.value.length := by
  obtain ⟨toks, pe, hts, hch⟩ := Lexer.tokenize_chain s ts h
  intro t ht hty
  rw [hts] at ht
  rcases List.mem_append.mp ht with h1 | h1
  · obtain ⟨_, r, hr⟩ := hch.text_of_mem (List.drop_zero s) t h1
    rw [hr, List.take_left]
  · rw [List.mem_singleton.mp h1] at hty
    exact absurd rfl hty

/-- C2, instance: the theorem applied to a concrete input. -/
theorem C2_token_text_is_substring_witness :
    (∀ c ∈ ['i', 'f', ' ', ' ', '3', '.', '5', '<', 'y'], c.toNat < 128) ∧
      Lexer.tokenize ['i', 'f', ' ', ' ', '3', '.', '5', '<', 'y'] = Result.ok
        [Token.mk TokenType.KEYWORD ['i', 'f'] 0, Token.mk TokenType.FLOAT ['3', '.', '5'] 4,
          Token.mk TokenType.SYMBOL ['<'] 7, Token.mk TokenType.IDENTIFIER ['y'] 8,
          Token.mk TokenType.END_OF_FILE [] 9] ∧
      ∀ t ∈ [Token.mk TokenType.KEYWORD ['i', 'f'] 0, Token.mk TokenType.FLOAT ['3', '.', '5'] 4,
          Token.mk TokenType.SYMBOL ['<'] 7, Token.mk TokenType.IDENTIFIER ['y'] 8,
          Token.mk TokenType.END_OF_FILE [] 9], t.type ≠ TokenType.END_OF_FILE →
        t.value = (['i', 'f', ' ', ' ', '3', '.', '5', '<', 'y'].drop t.position).take
          t.value.length :=
  ⟨by decide, by decide,
    C2_token_text_is_substring ['i', 'f', ' ', ' ', '3', '.', '5', '<', 'y'] _ (by decide)
      (by decide)⟩

/-- Every token that `tokenize` returns is well-shaped. -/
theorem Lexer.tokenize_shape (s : List Char) (ts : List Token)
    (h : Lexer.tokenize s = Result.ok ts) : ∀ t ∈ ts, t.shape := by
  obtain ⟨toks, pe, hts, hch⟩ := Lexer.tokenize_chain s ts h
  intro t ht
  rw [hts] at ht
  rcases List.mem_append.mp ht with h1 | h1
  · exact (hch.shape_of_mem t h1).2
  · rw [List.mem_singleton.mp h1]
    rfl

/-- C3: whenever `Lexer::tokenize` succeeds, the kind of every token fixes the shape of its
text: a KEYWORD is `if`, `else` or `print`; an IDENTIFIER starts with a letter or underscore,
consists of letters, digits and underscores only and is none of the three reserved words; an
INTEGER is a non-empty run of digits; a FLOAT is a non-empty run of digits, a `.`, and a
non-empty run of digits; a SYMBOL is exactly one of the characters `+ - * / ^ < > = ; ( )`. -/
theorem C3_token_kind_fixes_shape (s : List Char) (ts : List Token)
    (h : Lexer.tokenize s = Result.ok ts) : ∀ t ∈ ts, t.shape :=
  Lexer.tokenize_shape s ts h

/-- C3, instance: the theorem applied to a concrete input. -/
theorem C3_token_kind_fixes_shape_witness :
    Lexer.tokenize ['i', 'f', ' ', ' ', '3', '.', '5', '<', 'y', '_', '1'] = Result.ok
        [Token.mk TokenType.KEYWORD ['i', 'f'] 0, Token.mk TokenType.FLOAT ['3', '.', '5'] 4,
          Token.mk TokenType.SYMBOL ['<'] 7, Token.mk TokenType.IDENTIFIER ['y', '_', '1'] 8,
          Token.mk TokenType.END_OF_FILE [] 11] ∧
      ∀ t ∈ [Token.mk TokenType.KEYWORD ['i', 'f'] 0, Token.mk TokenType.FLOAT ['3', '.', '5'] 4,
          Token.mk TokenType.SYMBOL ['<'] 7, Token.mk TokenType.IDENTIFIER ['y', '_', '1'] 8,
          Token.mk TokenType.END_OF_FILE [] 11], t.shape :=
  ⟨by decide,
    C3_token_kind_fixes_shape ['i', 'f', ' ', ' ', '3', '.', '5', '<', 'y', '_', '1'] _
      (by decide)⟩

/-- C4: for every ASCII input without a NUL character, if the input contains a character that
is not whitespace, not a letter, not a digit, not an underscore, not `.` and not one of
`+ - * / ^ < > = ; ( )`, then `Lexer::tokenize` fails with `LexicalError`. -/
theorem C4_unrecognized_char_is_lexical_error (s : List Char)
    (_hascii : ∀ c ∈ s, c.toNat < 128) (hnul : NUL ∉ s)
    (hbad : ∃ c ∈ s, isspace c = false ∧ isalpha c = false ∧ isdigit c = false ∧ c ≠ '_' ∧
      c ≠ '.' ∧ c ∉ operators ∧ c ∉ symbols) :
    Lexer.tokenize s = Result.error Error.LexicalError := by
  cases hres : Lexer.tokenize s with
  | outOfFuel => exact absurd hres (Lexer.tokenize_ne_outOfFuel s)
  | error e => rw [Lexer.tokenize_error s e hres]
  | ok ts =>
    exfalso
    obtain ⟨toks, pe, _, hch⟩ := Lexer.tokenize_chain s ts hres
    obtain ⟨c, hc, h1, h2, h3, h4, h5, h6, h7⟩ := hbad
    rcases hch.chars hnul c hc with g | g | g | g | g | g | g
    · rw [h1] at g; cases g
    · rw [h2] at g; cases g
    · rw [h3] at g; cases g
    · exact h4 g
    · exact h5 g
    · exact h6 g
    · exact h7 g

/-- C4, instance: the theorem applied to a concrete input. -/
theorem C4_unrecognized_char_is_lexical_error_witness :
    ((∀ c ∈ ['x', ' ', '=', ' ', '1', ' ', '#'], c.toNat < 128) ∧
      NUL ∉ ['x', ' ', '=', ' ', '1', ' ', '#'] ∧
      (∃ c ∈ ['x', ' ', '=', ' ', '1', ' ', '#'], isspace c = false ∧ isalpha c = false ∧
        isdigit c = false ∧ c ≠ '_' ∧ c ≠ '.' ∧ c ∉ operators ∧ c ∉ symbols)) ∧
      Lexer.tokenize ['x', ' ', '=', ' ', '1', ' ', '#'] = Result.error Error.LexicalError :=
  ⟨⟨by decide, by decide, by decide⟩,
    C4_unrecognized_char_is_lexical_error ['x', ' ', '=', ' ', '1', ' ', '#'] (by decide)
      (by decide) (by decide)⟩

/-! ### The parser on synchronised states -/

theorem Parser.new_is_sync (toks : List Token) : Parser.new toks = Parser.sync toks 0 := by
  cases toks <;> simp [Parser.new, Parser.sync]

theorem Parser.advance_of_sync (toks : List Token) (p : Nat) :
    (Parser.sync toks p).advance = Parser.sync toks (p + 1) := by
  unfold Parser.advance Parser.sync
  by_cases h : p + 1 < toks.length
  · simp [h]
  · have hle : toks.length ≤ p + 1 := Nat.le_of_not_lt h
    simp [h, List.getElem?_eq_none hle]

theorem Parser.current_of_sync (toks : List Token) (p : Nat) :
    (Parser.sync toks p).current_token = look toks p := by
  unfold Parser.sync look
  simp [List.getD_eq_getElem?_getD, List.headD_eq_head?_getD]

theorem Parser.match_token_eq (p : Parser) (v : List Char) (hv : v ≠ []) :
    p.match_token TokenType.KEYWORD v = p.current_token.is_keyword v := by
  unfold Parser.match_token Token.is_keyword
  cases v with
  | nil => exact absurd rfl hv
  | cons a v =>
    by_cases h1 : p.current_token.type = TokenType.KEYWORD
    · by_cases h2 : p.current_token.value = a :: v <;> simp [h1, h2]
    · simp [h1]

theorem Parser.is_statement_alphabet_eq (p : Parser) :
    p.is_statement_alphabet = p.current_token.is_alphabet := by
  unfold Parser.is_statement_alphabet Token.is_alphabet Token.is_value
  cases p.current_token.type <;> cases (p.current_token.value != ['i', 'f']) <;>
    cases (p.current_token.value != ['e', 'l', 's', 'e']) <;> rfl

theorem Parser.is_statement_start_eq (p : Parser) :
    p.is_statement_start =
      (p.current_token.is_keyword ['i', 'f'] || p.current_token.is_alphabet) := by
  unfold Parser.is_statement_start
  rw [Parser.match_token_eq p _ (by simp), Parser.is_statement_alphabet_eq]

theorem Parser.is_op1_eq (p : Parser) : p.is_op1 = p.current_token.is_op1 := by
  unfold Parser.is_op1 Token.is_op1
  cases p.current_token.type <;> rfl

theorem Parser.parse_x_eq (p : Parser) :
    p.parse_x = if p.current_token.is_value then (true, p.advance) else (false, p) := by
  unfold Parser.parse_x Token.is_value
  rfl

theorem look_cons {toks : List Token} {p : Nat} {t : Token} {r : List Token}
    (h : toks.drop p = t :: r) : look toks p = t ∧ toks.drop (p + 1) = r := by
  refine ⟨by simp [look, h], ?_⟩
  rw [← List.drop_drop, h]
  rfl

theorem look_nil {toks : List Token} {p : Nat} (h : toks.drop p = []) :
    look toks p = Token.mk TokenType.END_OF_FILE [] p := by
  simp [look, h]

theorem drop_succ_add {toks : List Token} {p : Nat} {t : Token} {r : List Token}
    (h : toks.drop p = t :: r) (j : Nat) : toks.drop (p + 1 + j) = r.drop j := by
  rw [← List.drop_drop, (look_cons h).2]

theorem look_is_keyword (toks : List Token) (p : Nat) :
    (look toks p).is_keyword ['e', 'l', 's', 'e'] = starts_else (toks.drop p) := by
  cases h : toks.drop p with
  | nil => rw [look_nil h]; rfl
  | cons t r => rw [(look_cons h).1]; rfl

theorem look_starts_statement (toks : List Token) (p : Nat) :
    ((look toks p).is_keyword ['i', 'f'] || (look toks p).is_alphabet)
      = starts_statement (toks.drop p) := by
  cases h : toks.drop p with
  | nil => rw [look_nil h]; rfl
  | cons t r => rw [(look_cons h).1]; rfl

theorem Parser.tokens_sync (toks : List Token) (p : Nat) : (Parser.sync toks p).tokens = toks :=
  rfl

theorem Parser.pos_of_sync (toks : List Token) (p : Nat) : (Parser.sync toks p).pos = p := rfl

theorem Parser.mk_look (toks : List Token) (p : Nat) :
    Parser.mk toks p (look toks p) = Parser.sync toks p := by
  rw [← Parser.current_of_sync]
  rfl

/-- On a synchronised state `parse_cond` reads what `lcond` measures. -/
theorem Parser.parse_cond_sync (toks : List Token) (p : Nat) :
    (Parser.sync toks p).parse_cond =
      match lcond (toks.drop p) with
      | none => Result.error Error.SyntaxError
      | some k => Result.ok (Parser.sync toks (p + k)) := by
  have hsyn : ∀ q, (Token.mk TokenType.END_OF_FILE [] q).is_value = false := fun _ => rfl
  have hsyn2 : ∀ q, (Token.mk TokenType.END_OF_FILE [] q).is_op1 = false := fun _ => rfl
  unfold Parser.parse_cond
  cases h : toks.drop p with
  | nil =>
    simp [Parser.parse_x_eq, Parser.current_of_sync, look_nil h, hsyn, lcond]
  | cons v rest =>
    obtain ⟨hv, hrest⟩ := look_cons h
    have hback : Parser.mk toks p v = Parser.sync toks p := by rw [← hv]; exact Parser.mk_look _ _
    by_cases hval : v.is_value = true
    swap
    · simp [Parser.parse_x_eq, Parser.current_of_sync, hv, lcond, hval]
    cases h1 : rest with
    | nil =>
      rw [h1] at hrest
      simp [Parser.parse_x_eq, Parser.current_of_sync, Parser.is_op1_eq, Parser.advance_of_sync, hv, lcond,
        hval, look_nil hrest, hsyn2]
    | cons o rest2 =>
      rw [h1] at hrest
      obtain ⟨ho, hrest2⟩ := look_cons hrest
      by_cases hop : o.is_op1 = true
      swap
      · cases rest2 <;>
        simp [Parser.parse_x_eq, Parser.current_of_sync, Parser.is_op1_eq, Parser.advance_of_sync, hv,
          lcond, hval, ho, hop]
      cases h2 : rest2 with
      | nil =>
        rw [h2] at hrest2
        simp [Parser.parse_x_eq, Parser.current_of_sync, Parser.is_op1_eq, Parser.advance_of_sync, hv,
          lcond, hval, ho, hop, look_nil hrest2, hsyn, Parser.tokens_sync, Parser.pos_of_sync,
          hback]
      | cons w rest3 =>
        rw [h2] at hrest2
        obtain ⟨hw, _⟩ := look_cons hrest2
        by_cases hw2 : w.is_value = true
        · simp [Parser.parse_x_eq, Parser.current_of_sync, Parser.is_op1_eq, Parser.advance_of_sync, hv,
            lcond, hval, ho, hop, hw, hw2]
        · simp [Parser.parse_x_eq, Parser.current_of_sync, Parser.is_op1_eq, Parser.advance_of_sync, hv,
            lcond, hval, ho, hop, hw, hw2, Parser.tokens_sync, Parser.pos_of_sync, hback]

/-- On a synchronised state `parse_statement` reads what `lstmt` measures. -/
theorem Parser.parse_statement_sync (toks : List Token) :
    ∀ (n p : Nat), Parser.parse_statement n (Parser.sync toks p) =
      Result.map (fun k => Parser.sync toks (p + k)) (lstmt n (toks.drop p)) := by
  intro n
  induction n with
  | zero => intro p; rfl
  | succ n ih =>
    intro p
    rw [Parser.parse_statement]
    simp only [Parser.match_token_eq _ _ (List.cons_ne_nil _ _), Parser.is_statement_alphabet_eq,
      Parser.is_statement_start_eq, Parser.advance_of_sync, Parser.current_of_sync]
    cases h : toks.drop p with
    | nil =>
      rw [look_nil h]
      rfl
    | cons t rest =>
      obtain ⟨ht, hrest⟩ := look_cons h
      rw [ht, lstmt]
      by_cases h1 : t.is_keyword ['e', 'l', 's', 'e'] = true
      · rw [if_pos h1, if_pos h1]; rfl
      rw [if_neg h1, if_neg h1]
      by_cases h2 : t.is_keyword ['i', 'f'] = true
      · rw [if_pos h2, if_pos h2]
        unfold Parser.parse_A
        rw [Parser.parse_cond_sync, hrest]
        cases hc : lcond rest with
        | none => rfl
        | some kc =>
          simp only
          rw [ih, drop_succ_add h kc]
          cases hs1 : lstmt n (rest.drop kc) with
          | error e => rfl
          | outOfFuel => rfl
          | ok k1 =>
            simp only [Result.map]
            rw [Parser.match_token_eq _ _ (List.cons_ne_nil _ _), Parser.current_of_sync,
              look_is_keyword, Parser.advance_of_sync, ih]
            have e1 : toks.drop (p + 1 + kc + k1) = rest.drop (kc + k1) := by
              rw [Nat.add_assoc (p + 1), drop_succ_add h]
            have e2 : toks.drop (p + 1 + kc + k1 + 1) = rest.drop (kc + k1 + 1) := by
              rw [Nat.add_assoc (p + 1), Nat.add_assoc (p + 1), drop_succ_add h,
                Nat.add_assoc]
            rw [e1, e2]
            by_cases h3 : starts_else (rest.drop (kc + k1)) = true
            · rw [if_pos h3, if_pos h3]
              cases hs2 : lstmt n (rest.drop (kc + k1 + 1)) with
              | error e => rfl
              | outOfFuel => rfl
              | ok k2 =>
                simp only [Result.map]
                congr 2
                omega
            · rw [if_neg h3, if_neg h3]
              simp only [Result.map]
              congr 2
              omega
      rw [if_neg h2, if_neg h2]
      by_cases h3 : t.is_alphabet = true
      · rw [if_pos h3, if_pos h3, look_starts_statement, hrest]
        by_cases h4 : starts_statement rest = true
        · rw [if_pos h4, if_pos h4, ih, hrest]
          cases hs : lstmt n rest with
          | error e => rfl
          | outOfFuel => rfl
          | ok k =>
            simp only [Result.map]
            congr 2
            omega
        · rw [if_neg h4, if_neg h4]
          rfl
      · rw [if_neg h3, if_neg h3]
        rfl

/-! ### The parser as a function of the tokens left -/

theorem Parser.parse_eq (toks : List Token) :
    Parser.parse toks =
      match lstmt (toks.length + 1) toks with
      | Result.ok k =>
        if (look toks k).type != TokenType.END_OF_FILE then Result.error Error.SyntaxError
        else Result.ok ()
      | Result.error e => Result.error e
      | Result.outOfFuel => Result.outOfFuel := by
  unfold Parser.parse Parser.parseS
  rw [Parser.new_is_sync, Parser.parse_statement_sync, List.drop_zero]
  cases lstmt (toks.length + 1) toks with
  | ok k => simp only [Result.map, Parser.current_of_sync, Nat.zero_add]
  | error e => rfl
  | outOfFuel => rfl

theorem lcond_bounds {l : List Token} {k : Nat} (h : lcond l = some k) :
    0 < k ∧ k ≤ l.length := by
  unfold lcond at h
  split at h
  · cases h
  · split at h
    · split at h
      · split at h <;> (injection h with h; subst h; simp)
      · injection h with h; subst h; simp
    · cases h

theorem lstmt_bounds : ∀ (n : Nat) (l : List Token) (k : Nat),
    lstmt n l = Result.ok k → 0 < k ∧ k ≤ l.length := by
  intro n
  induction n with
  | zero => intro l k h; simp [lstmt] at h
  | succ n ih =>
    intro l k h
    cases l with
    | nil => simp [lstmt] at h
    | cons t rest =>
      rw [lstmt] at h
      split at h
      · cases h
      split at h
      · split at h
        · cases h
        · rename_i kc hc
          have hb := lcond_bounds hc
          split at h
          · rename_i k1 h1
            have hb1 := ih _ _ h1
            simp only [List.length_drop] at hb1
            split at h
            · split at h
              · rename_i k2 h2
                have hb2 := ih _ _ h2
                simp only [List.length_drop] at hb2
                injection h with h
                subst h
                simp only [List.length_cons]
                omega
              · cases h
              · cases h
            · injection h with h
              subst h
              simp only [List.length_cons]
              omega
          · cases h
          · cases h
      split at h
      · split at h
        · split at h
          · rename_i k1 h1
            have hb1 := ih _ _ h1
            injection h with h
            subst h
            simp only [List.length_cons]
            omega
          · cases h
          · cases h
        · injection h with h
          subst h
          simp
      · cases h

theorem lstmt_ne_outOfFuel : ∀ (n : Nat) (l : List Token),
    l.length < n → lstmt n l ≠ Result.outOfFuel := by
  intro n
  induction n with
  | zero => intro l h; omega
  | succ n ih =>
    intro l hl
    cases l with
    | nil => simp [lstmt]
    | cons t rest =>
      simp only [List.length_cons] at hl
      rw [lstmt]
      split
      · simp
      split
      · cases hc : lcond rest with
        | none => simp
        | some kc =>
          have hb := lcond_bounds hc
          simp only
          have hf1 := ih (rest.drop kc) (by simp only [List.length_drop]; omega)
          cases h1 : lstmt n (rest.drop kc) with
          | outOfFuel => exact absurd h1 hf1
          | error e => simp
          | ok k1 =>
            simp only
            split
            · have hf2 := ih (rest.drop (kc + k1 + 1)) (by simp only [List.length_drop]; omega)
              cases h2 : lstmt n (rest.drop (kc + k1 + 1)) with
              | outOfFuel => exact absurd h2 hf2
              | error e => simp
              | ok k2 => simp
            · simp
      split
      · split
        · have hf := ih rest (by omega)
          cases h1 : lstmt n rest with
          | outOfFuel => exact absurd h1 hf
          | error e => simp
          | ok k => simp
        · simp
      · simp

theorem lstmt_succ : ∀ (n : Nat) (l : List Token),
    lstmt n l ≠ Result.outOfFuel → lstmt (n + 1) l = lstmt n l := by
  intro n
  induction n with
  | zero => intro l h; simp [lstmt] at h
  | succ n ih =>
    intro l h
    cases l with
    | nil => rfl
    | cons t rest =>
      rw [lstmt] at h
      rw [lstmt, lstmt]
      split
      · rfl
      rename_i he
      rw [if_neg he] at h
      split
      · rename_i hi
        rw [if_pos hi] at h
        cases hc : lcond rest with
        | none => rfl
        | some kc =>
          rw [hc] at h
          simp only at h ⊢
          cases h1 : lstmt n (rest.drop kc) with
          | outOfFuel => rw [h1] at h; exact absurd rfl h
          | error e => rw [ih _ (by rw [h1]; simp), h1]
          | ok k1 =>
            rw [h1] at h
            rw [ih _ (by rw [h1]; simp), h1]
            simp only at h ⊢
            split
            · rename_i hs
              rw [if_pos hs] at h
              cases h2 : lstmt n (rest.drop (kc + k1 + 1)) with
              | outOfFuel => rw [h2] at h; exact absurd rfl h
              | error e => rw [ih _ (by rw [h2]; simp), h2]
              | ok k2 => rw [ih _ (by rw [h2]; simp), h2]
            · rfl
      rename_i hi
      rw [if_neg hi] at h
      split
      · rename_i ha
        rw [if_pos ha] at h
        split
        · rename_i hs
          rw [if_pos hs] at h
          cases h1 : lstmt n rest with
          | outOfFuel => rw [h1] at h; exact absurd rfl h
          | error e => rw [ih _ (by rw [h1]; simp), h1]
          | ok k => rw [ih _ (by rw [h1]; simp), h1]
        · rfl
      · rfl

theorem lstmt_mono {n : Nat} {l : List Token} (h : lstmt n l ≠ Result.outOfFuel) :
    ∀ m, n ≤ m → lstmt m l = lstmt n l := by
  intro m hm
  induction m with
  | zero =>
    have : n = 0 := by omega
    subst this; rfl
  | succ m ih =>
    by_cases hnm : n = m + 1
    · subst hnm; rfl
    · have h1 := ih (by omega)
      rw [lstmt_succ m l (by rw [h1]; exact h), h1]

/-- `parse` always terminates with the fuel it takes. -/
theorem Parser.parse_ne_outOfFuel (toks : List Token) : Parser.parse toks ≠ Result.outOfFuel := by
  rw [Parser.parse_eq]
  have h := lstmt_ne_outOfFuel (toks.length + 1) toks (by omega)
  cases h1 : lstmt (toks.length + 1) toks with
  | outOfFuel => exact absurd h1 h
  | error e => simp
  | ok k =>
    simp only
    split <;> simp

/-! ### The terminals of the grammar and the tests of the parser -/

theorem Grammar.value_eq (t : Token) : Grammar.value t = t.is_value := rfl

theorem Grammar.atom_eq (t : Token) : Grammar.atom t = t.is_alphabet := rfl

theorem Grammar.kw_if_eq (t : Token) : Grammar.kw_if t = t.is_keyword ['i', 'f'] := rfl

theorem Grammar.kw_else_eq (t : Token) : Grammar.kw_else t = t.is_keyword ['e', 'l', 's', 'e'] :=
  rfl

theorem Grammar.is_op1_of_op1 {t : Token} (h : Grammar.op1 t = true) : t.is_op1 = true := by
  unfold Grammar.op1 at h
  unfold Token.is_op1
  simp only [Bool.and_eq_true, beq_iff_eq, List.contains_eq_any_beq, List.any_cons, List.any_nil,
    Bool.or_false, Bool.or_eq_true] at h
  obtain ⟨h1, h2⟩ := h
  rw [h1]
  rcases h2 with h2 | h2 | h2 | h2 | h2 | h2 | h2 | h2 <;> rw [h2] <;> rfl

theorem Grammar.op1_of_is_op1 {t : Token} (hs : t.shape) (h : t.is_op1 = true) :
    Grammar.op1 t = true := by
  unfold Token.is_op1 at h
  unfold Grammar.op1
  simp only [Bool.and_eq_true, beq_iff_eq, Bool.or_eq_true] at h
  obtain ⟨h1, h2⟩ := h
  unfold Token.shape at hs
  rw [h1] at hs
  obtain ⟨c, hc, _⟩ := hs
  rw [hc] at h2 ⊢
  rw [h1]
  simp only [List.getD_cons_zero] at h2
  rcases h2 with ((((((h2 | h2) | h2) | h2) | h2) | h2) | h2) | h2 <;> rw [h2] <;> rfl

/-- The six classes of tokens the parser tells apart exclude one another. -/
theorem Token.alphabet_excl {t : Token} (h : t.is_alphabet = true) :
    t.is_keyword ['i', 'f'] = false ∧ t.is_keyword ['e', 'l', 's', 'e'] = false ∧
      t.type ≠ TokenType.END_OF_FILE := by
  unfold Token.is_alphabet Token.is_value at h
  unfold Token.is_keyword
  cases hty : t.type <;> rw [hty] at h <;> simp at h ⊢
  exact h

theorem Token.keyword_excl {t : Token} {v : List Char} (h : t.is_keyword v = true) :
    t.type = TokenType.KEYWORD ∧ t.value = v := by
  unfold Token.is_keyword at h
  simpa using h

theorem Token.value_alphabet {t : Token} (h : t.is_value = true) : t.is_alphabet = true := by
  unfold Token.is_alphabet
  rw [h]; rfl

theorem Token.op1_alphabet {t : Token} (h : t.is_op1 = true) : t.is_alphabet = true := by
  unfold Token.is_op1 at h
  unfold Token.is_alphabet
  simp only [Bool.and_eq_true, beq_iff_eq] at h
  rw [h.1]
  simp

/-- Every token is an atom, an `if`, an `else`, or an end marker. -/
theorem Token.classes (t : Token) :
    t.is_alphabet = true ∨ t.is_keyword ['i', 'f'] = true ∨
      t.is_keyword ['e', 'l', 's', 'e'] = true ∨ t.type = TokenType.END_OF_FILE := by
  unfold Token.is_alphabet Token.is_value Token.is_keyword
  cases t.type <;> simp
  by_cases h1 : t.value = ['i', 'f']
  · simp [h1]
  · by_cases h2 : t.value = ['e', 'l', 's', 'e']
    · simp [h2]
    · simp [h1, h2]

theorem look_append_length (body : List Token) (t : Token) (rest : List Token) :
    look (body ++ t :: rest) body.length = t := by
  simp [look]

/-- A run of atoms that is followed by no statement start is read as one statement. -/
theorem lstmt_atoms : ∀ (body : List Token) (rest : List Token) (n : Nat),
    body ≠ [] → (∀ t ∈ body, t.is_alphabet = true) → starts_statement rest = false →
    body.length ≤ n → lstmt n (body ++ rest) = Result.ok body.length := by
  intro body
  induction body with
  | nil => intro rest n h; exact absurd rfl h
  | cons a body ih =>
    intro rest n _ hall hrest hn
    cases n with
    | zero => simp at hn
    | succ n =>
      have ha := hall a (List.mem_cons_self _ _)
      obtain ⟨h1, h2, _⟩ := Token.alphabet_excl ha
      rw [List.cons_append, lstmt]
      simp only [h1, h2, ha, if_true, Bool.false_eq_true, if_false]
      cases body with
      | nil =>
        simp only [List.nil_append, hrest, Bool.false_eq_true, if_false]
        rfl
      | cons b body =>
        have hb := hall b (by simp)
        have hst : starts_statement ((b :: body) ++ rest) = true := by
          simp [starts_statement, hb]
        rw [if_pos hst, ih rest n (by simp) (fun t ht => hall t (List.mem_cons_of_mem _ ht)) hrest
          (by simpa using hn)]
        simp only [List.length_cons]
        congr 1
        omega

/-- C7: every non-empty list of statement-alphabet tokens (INTEGER, FLOAT, IDENTIFIER, any
SYMBOL, or a KEYWORD other than `if` and `else`) followed by one `END_OF_FILE` token is
accepted by `Parser::parse`; the input `print ( x )` tokenizes as KEYWORD, SYMBOL, IDENTIFIER,
SYMBOL and yields `No Error`. -/
theorem C7_alphabet_run_accepted (body : List Token) (eof : Token) (hne : body ≠ [])
    (hall : ∀ t ∈ body, Grammar.atom t = true) (heof : eof.type = TokenType.END_OF_FILE) :
    Parser.parse (body ++ [eof]) = Result.ok () ∧
      Lexer.tokenize ['p', 'r', 'i', 'n', 't', ' ', '(', ' ', 'x', ' ', ')'] = Result.ok
        [Token.mk TokenType.KEYWORD ['p', 'r', 'i', 'n', 't'] 0, Token.mk TokenType.SYMBOL ['('] 6,
          Token.mk TokenType.IDENTIFIER ['x'] 8, Token.mk TokenType.SYMBOL [')'] 10,
          Token.mk TokenType.END_OF_FILE [] 11] ∧
      main ['p', 'r', 'i', 'n', 't', ' ', '(', ' ', 'x', ' ', ')'] = some Verdict.NoError := by
  refine ⟨?_, by decide, by decide⟩
  have hst : starts_statement [eof] = false := by
    simp [starts_statement, Token.is_keyword, Token.is_alphabet, Token.is_value, heof]
  rw [Parser.parse_eq, lstmt_atoms body [eof] _ hne hall hst (by simp; omega)]
  simp only [look_append_length, heof]
  rfl

/-- C7, instance: the theorem applied to a concrete input. -/
theorem C7_alphabet_run_accepted_witness :
    ([Token.mk TokenType.KEYWORD ['p', 'r', 'i', 'n', 't'] 0, Token.mk TokenType.SYMBOL ['('] 6,
        Token.mk TokenType.IDENTIFIER ['x'] 8, Token.mk TokenType.SYMBOL [')'] 10] ≠ [] ∧
      (∀ t ∈ [Token.mk TokenType.KEYWORD ['p', 'r', 'i', 'n', 't'] 0,
        Token.mk TokenType.SYMBOL ['('] 6, Token.mk TokenType.IDENTIFIER ['x'] 8,
        Token.mk TokenType.SYMBOL [')'] 10], Grammar.atom t = true) ∧
      (Token.mk TokenType.END_OF_FILE [] 11).type = TokenType.END_OF_FILE) ∧
    Parser.parse ([Token.mk TokenType.KEYWORD ['p', 'r', 'i', 'n', 't'] 0,
        Token.mk TokenType.SYMBOL ['('] 6, Token.mk TokenType.IDENTIFIER ['x'] 8,
        Token.mk TokenType.SYMBOL [')'] 10] ++ [Token.mk TokenType.END_OF_FILE [] 11])
      = Result.ok () :=
  ⟨⟨by decide, by decide, rfl⟩,
    (C7_alphabet_run_accepted _ (Token.mk TokenType.END_OF_FILE [] 11) (by decide) (by decide)
      rfl).1⟩

/-- C8: for every token sequence whose first token is KEYWORD `else`, `Parser::parse` fails
with `SyntaxError`; the input `else x` yields `Syntax Error`. -/
theorem C8_leading_else_rejected (t : Token) (rest : List Token)
    (h : Grammar.kw_else t = true) :
    Parser.parse (t :: rest) = Result.error Error.SyntaxError ∧
      main ['e', 'l', 's', 'e', ' ', 'x'] = some Verdict.SyntaxError := by
  refine ⟨?_, by decide⟩
  rw [Grammar.kw_else_eq] at h
  rw [Parser.parse_eq, List.length_cons, lstmt, if_pos h]

/-- C8, instance: the theorem applied to a concrete input. -/
theorem C8_leading_else_rejected_witness :
    Grammar.kw_else (Token.mk TokenType.KEYWORD ['e', 'l', 's', 'e'] 0) = true ∧
      Parser.parse [Token.mk TokenType.KEYWORD ['e', 'l', 's', 'e'] 0,
        Token.mk TokenType.IDENTIFIER ['x'] 5, Token.mk TokenType.END_OF_FILE [] 6]
        = Result.error Error.SyntaxError :=
  ⟨rfl, (C8_leading_else_rejected (Token.mk TokenType.KEYWORD ['e', 'l', 's', 'e'] 0)
    [Token.mk TokenType.IDENTIFIER ['x'] 5, Token.mk TokenType.END_OF_FILE [] 6] rfl).1⟩

/-- C9: for all value tokens `v1`, `v2` and every op1 symbol token `o`, parsing
`[KEYWORD "if", v1, o, v2, END_OF_FILE]` fails with `SyntaxError` (the then-statement is
missing); the input `if x < y` yields `Syntax Error`. -/
theorem C9_if_without_then_rejected (i v1 o v2 eof : Token)
    (hi : Grammar.kw_if i = true) (h1 : Grammar.value v1 = true) (ho : Grammar.op1 o = true)
    (h2 : Grammar.value v2 = true) (heof : eof.type = TokenType.END_OF_FILE) :
    Parser.parse [i, v1, o, v2, eof] = Result.error Error.SyntaxError ∧
      main ['i', 'f', ' ', 'x', ' ', '<', ' ', 'y'] = some Verdict.SyntaxError := by
  refine ⟨?_, by decide⟩
  rw [Grammar.kw_if_eq] at hi
  rw [Grammar.value_eq] at h1 h2
  have ho2 := Grammar.is_op1_of_op1 ho
  have hie : i.is_keyword ['e', 'l', 's', 'e'] = false := by
    have := (Token.keyword_excl hi).2
    simp [Token.is_keyword, this]
  have he1 : eof.is_keyword ['e', 'l', 's', 'e'] = false := by simp [Token.is_keyword, heof]
  have he2 : eof.is_keyword ['i', 'f'] = false := by simp [Token.is_keyword, heof]
  have he3 : eof.is_alphabet = false := by simp [Token.is_alphabet, Token.is_value, heof]
  rw [Parser.parse_eq]
  simp [lstmt, lcond, hi, hie, h1, h2, ho2, he1, he2, he3]

/-- C9, instance: the theorem applied to a concrete input. -/
theorem C9_if_without_then_rejected_witness :
    (Grammar.kw_if (Token.mk TokenType.KEYWORD ['i', 'f'] 0) = true ∧
      Grammar.value (Token.mk TokenType.IDENTIFIER ['x'] 3) = true ∧
      Grammar.op1 (Token.mk TokenType.SYMBOL ['<'] 5) = true ∧
      Grammar.value (Token.mk TokenType.IDENTIFIER ['y'] 7) = true ∧
      (Token.mk TokenType.END_OF_FILE [] 8).type = TokenType.END_OF_FILE) ∧
    Parser.parse [Token.mk TokenType.KEYWORD ['i', 'f'] 0, Token.mk TokenType.IDENTIFIER ['x'] 3,
        Token.mk TokenType.SYMBOL ['<'] 5, Token.mk TokenType.IDENTIFIER ['y'] 7,
        Token.mk TokenType.END_OF_FILE [] 8] = Result.error Error.SyntaxError :=
  ⟨⟨rfl, rfl, rfl, rfl, rfl⟩,
    (C9_if_without_then_rejected (Token.mk TokenType.KEYWORD ['i', 'f'] 0)
      (Token.mk TokenType.IDENTIFIER ['x'] 3) (Token.mk TokenType.SYMBOL ['<'] 5)
      (Token.mk TokenType.IDENTIFIER ['y'] 7) (Token.mk TokenType.END_OF_FILE [] 8)
      rfl rfl rfl rfl rfl).1⟩

/-- C10: for all value tokens `v1`, `v2`, every op1 symbol token `o` and every
`END_OF_FILE`-terminated token sequence `rest` that `Parser::parse` accepts on its own,
`Parser::parse` accepts `[KEYWORD "if", v1, o, v2] ++ rest` (a missing else branch is not an
error); the input `if x < y z` yields `No Error`. -/
theorem C10_if_binary_then_accepted (i v1 o v2 : Token) (rest : List Token)
    (hi : Grammar.kw_if i = true) (h1 : Grammar.value v1 = true) (ho : Grammar.op1 o = true)
    (h2 : Grammar.value v2 = true)
    (_hterm : ∃ body eof, rest = body ++ [eof] ∧ eof.type = TokenType.END_OF_FILE)
    (hacc : Parser.parse rest = Result.ok ()) :
    Parser.parse ([i, v1, o, v2] ++ rest) = Result.ok () ∧
      main ['i', 'f', ' ', 'x', ' ', '<', ' ', 'y', ' ', 'z'] = some Verdict.NoError := by
  refine ⟨?_, by decide⟩
  rw [Grammar.kw_if_eq] at hi
  rw [Grammar.value_eq] at h1 h2
  have ho2 := Grammar.is_op1_of_op1 ho
  have hie : i.is_keyword ['e', 'l', 's', 'e'] = false := by
    have := (Token.keyword_excl hi).2
    simp [Token.is_keyword, this]
  rw [Parser.parse_eq] at hacc
  cases hs : lstmt (rest.length + 1) rest with
  | error e => rw [hs] at hacc; simp at hacc
  | outOfFuel => rw [hs] at hacc; simp at hacc
  | ok k =>
    rw [hs] at hacc
    simp only at hacc
    have hty : (look rest k).type = TokenType.END_OF_FILE := by
      by_contra hcon
      have hb : ((look rest k).type != TokenType.END_OF_FILE) = true := by simpa using hcon
      rw [if_pos hb] at hacc
      cases hacc
    have hs2 : lstmt (rest.length + 4) rest = Result.ok k := by
      rw [lstmt_mono (by rw [hs]; simp) _ (by omega), hs]
    have hne : starts_else (rest.drop k) = false := by
      unfold look at hty
      cases hd : rest.drop k with
      | nil => rfl
      | cons t r =>
        rw [hd] at hty
        simp only [List.headD_cons] at hty
        simp [starts_else, Token.is_keyword, hty]
    have hlook : (look (i :: v1 :: o :: v2 :: rest) (1 + (3 + k))).type
        = TokenType.END_OF_FILE := by
      unfold look at hty ⊢
      have hd4 : (i :: v1 :: o :: v2 :: rest).drop (1 + (3 + k)) = rest.drop k := by
        rw [show 1 + (3 + k) = k + 4 by omega]
        rfl
      rw [hd4]
      cases hd : rest.drop k with
      | nil => rfl
      | cons t r =>
        rw [hd] at hty
        simpa using hty
    rw [Parser.parse_eq]
    have hlen : ([i, v1, o, v2] ++ rest).length + 1 = (rest.length + 4) + 1 := by simp
    rw [hlen]
    show (match lstmt (rest.length + 4 + 1) (i :: v1 :: o :: v2 :: rest) with
      | Result.ok k =>
        if (look (i :: v1 :: o :: v2 :: rest) k).type != TokenType.END_OF_FILE then
          Result.error Error.SyntaxError
        else Result.ok ()
      | Result.error e => Result.error e
      | Result.outOfFuel => Result.outOfFuel) = Result.ok ()
    have hrun : lstmt (rest.length + 4 + 1) (i :: v1 :: o :: v2 :: rest)
        = Result.ok (1 + (3 + k)) := by
      rw [lstmt]
      simp only [hie, hi, lcond, h1, h2, ho2, Bool.and_self, if_true, Bool.false_eq_true,
        if_false]
      show (match lstmt (rest.length + 4) rest with
        | Result.ok k1 =>
          if starts_else (List.drop (3 + k1) (v1 :: o :: v2 :: rest)) = true then
            match lstmt (rest.length + 4) (List.drop (3 + k1 + 1) (v1 :: o :: v2 :: rest)) with
            | Result.ok k2 => Result.ok (1 + (3 + k1 + 1 + k2))
            | Result.error e => Result.error e
            | Result.outOfFuel => Result.outOfFuel
          else Result.ok (1 + (3 + k1))
        | Result.error e => Result.error e
        | Result.outOfFuel => Result.outOfFuel) = Result.ok (1 + (3 + k))
      rw [hs2]
      have hd3 : (v1 :: o :: v2 :: rest).drop (3 + k) = rest.drop k := by
        rw [show 3 + k = k + 3 by omega]
        rfl
      simp only [hd3, hne, Bool.false_eq_true, if_false]
    rw [hrun]
    simp only [hlook]
    rfl

/-- C10, instance: the theorem applied to a concrete input. -/
theorem C10_if_binary_then_accepted_witness :
    (Grammar.kw_if (Token.mk TokenType.KEYWORD ['i', 'f'] 0) = true ∧
      Grammar.value (Token.mk TokenType.IDENTIFIER ['x'] 3) = true ∧
      Grammar.op1 (Token.mk TokenType.SYMBOL ['<'] 5) = true ∧
      Grammar.value (Token.mk TokenType.IDENTIFIER ['y'] 7) = true ∧
      (∃ body eof, [Token.mk TokenType.IDENTIFIER ['z'] 9, Token.mk TokenType.END_OF_FILE [] 10]
        = body ++ [eof] ∧ eof.type = TokenType.END_OF_FILE) ∧
      Parser.parse [Token.mk TokenType.IDENTIFIER ['z'] 9, Token.mk TokenType.END_OF_FILE [] 10]
        = Result.ok ()) ∧
    Parser.parse ([Token.mk TokenType.KEYWORD ['i', 'f'] 0, Token.mk TokenType.IDENTIFIER ['x'] 3,
        Token.mk TokenType.SYMBOL ['<'] 5, Token.mk TokenType.IDENTIFIER ['y'] 7] ++
        [Token.mk TokenType.IDENTIFIER ['z'] 9, Token.mk TokenType.END_OF_FILE [] 10])
      = Result.ok () :=
  ⟨⟨rfl, rfl, rfl, rfl, ⟨[Token.mk TokenType.IDENTIFIER ['z'] 9], _, rfl, rfl⟩, by decide⟩,
    (C10_if_binary_then_accepted (Token.mk TokenType.KEYWORD ['i', 'f'] 0)
      (Token.mk TokenType.IDENTIFIER ['x'] 3) (Token.mk TokenType.SYMBOL ['<'] 5)
      (Token.mk TokenType.IDENTIFIER ['y'] 7)
      [Token.mk TokenType.IDENTIFIER ['z'] 9, Token.mk TokenType.END_OF_FILE [] 10]
      rfl rfl rfl rfl ⟨[Token.mk TokenType.IDENTIFIER ['z'] 9], _, rfl, rfl⟩ (by decide)).1⟩

/-! ### What the parser reads is derivable -/

theorem Token.keyword_not_eof {t : Token} {v : List Char} (h : t.is_keyword v = true) :
    t.type ≠ TokenType.END_OF_FILE := by
  rw [(Token.keyword_excl h).1]; simp

theorem starts_else_cons {l : List Token} (h : starts_else l = true) :
    ∃ e r, l = e :: r ∧ e.is_keyword ['e', 'l', 's', 'e'] = true := by
  cases l with
  | nil => simp [starts_else] at h
  | cons e r => exact ⟨e, r, rfl, h⟩

theorem lcond_derivable {l : List Token} {k : Nat} (h : lcond l = some k)
    (hsh : ∀ t ∈ l, t.shape) :
    Grammar.cond (l.take k) ∧ ∀ t ∈ l.take k, t.type ≠ TokenType.END_OF_FILE := by
  unfold lcond at h
  split at h
  · cases h
  · rename_i v rest
    split at h
    swap
    · cases h
    rename_i hv
    have hv1 : ∀ t ∈ [v], t.type ≠ TokenType.END_OF_FILE := by
      intro t ht
      rw [List.mem_singleton.mp ht]
      exact (Token.alphabet_excl (Token.value_alphabet hv)).2.2
    split at h
    · rename_i o w tail
      split at h
      · rename_i how
        injection h with h
        subst h
        simp only [Bool.and_eq_true] at how
        have hoo : Grammar.op1 o = true := Grammar.op1_of_is_op1 (hsh o (by simp)) how.1
        refine ⟨Grammar.cond.binary v o w hv hoo how.2, ?_⟩
        intro t ht
        simp only [List.take_succ_cons, List.take_zero, List.mem_cons, List.mem_singleton,
          List.not_mem_nil, or_false] at ht
        rcases ht with rfl | rfl | rfl
        · exact (Token.alphabet_excl (Token.value_alphabet hv)).2.2
        · exact (Token.alphabet_excl (Token.op1_alphabet how.1)).2.2
        · exact (Token.alphabet_excl (Token.value_alphabet how.2)).2.2
      · injection h with h
        subst h
        exact ⟨Grammar.cond.bare v hv, hv1⟩
    · injection h with h
      subst h
      exact ⟨Grammar.cond.bare v hv, hv1⟩

/-- The tokens `lstmt` reads form a statement of the grammar and hold no end marker. -/
theorem lstmt_derivable : ∀ (n : Nat) (l : List Token) (k : Nat),
    lstmt n l = Result.ok k → (∀ t ∈ l, t.shape) →
    Grammar.statement (l.take k) ∧ ∀ t ∈ l.take k, t.type ≠ TokenType.END_OF_FILE := by
  intro n
  induction n with
  | zero => intro l k h; simp [lstmt] at h
  | succ n ih =>
    intro l k h hsh
    cases l with
    | nil => simp [lstmt] at h
    | cons t rest =>
      have hshr : ∀ j, ∀ u ∈ rest.drop j, u.shape := fun j u hu =>
        hsh u (List.mem_cons_of_mem _ (List.mem_of_mem_drop hu))
      rw [lstmt] at h
      split at h
      · cases h
      split at h
      · rename_i hif
        split at h
        · cases h
        · rename_i kc hc
          obtain ⟨hcd, hcn⟩ := lcond_derivable hc (fun u hu => hsh u (List.mem_cons_of_mem _ hu))
          split at h
          · rename_i k1 h1
            obtain ⟨hd1, hn1⟩ := ih _ _ h1 (hshr kc)
            split at h
            · rename_i hel
              obtain ⟨e, r, her, hek⟩ := starts_else_cons hel
              split at h
              · rename_i k2 h2
                obtain ⟨hd2, hn2⟩ := ih _ _ h2 (hshr (kc + k1 + 1))
                injection h with h
                subst h
                have htake : (t :: rest).take (1 + (kc + k1 + 1 + k2))
                    = t :: (rest.take kc ++ (rest.drop kc).take k1 ++
                        e :: (rest.drop (kc + k1 + 1)).take k2) := by
                  rw [Nat.add_comm 1, List.take_succ_cons, List.take_add, List.take_add,
                    List.take_add, her]
                  simp
                rw [htake]
                refine ⟨Grammar.statement.branch t _ hif
                  (Grammar.conditional.with_else _ _ e _ hcd hd1 hek hd2), ?_⟩
                intro u hu
                simp only [List.mem_cons, List.mem_append] at hu
                rcases hu with rfl | (hu | hu) | rfl | hu
                · exact Token.keyword_not_eof hif
                · exact hcn u hu
                · exact hn1 u hu
                · exact Token.keyword_not_eof hek
                · exact hn2 u hu
              · cases h
              · cases h
            · injection h with h
              subst h
              have htake : (t :: rest).take (1 + (kc + k1))
                  = t :: (rest.take kc ++ (rest.drop kc).take k1) := by
                rw [Nat.add_comm 1, List.take_succ_cons, List.take_add]
              rw [htake]
              refine ⟨Grammar.statement.branch t _ hif
                (Grammar.conditional.no_else _ _ hcd hd1), ?_⟩
              intro u hu
              simp only [List.mem_cons, List.mem_append] at hu
              rcases hu with rfl | hu | hu
              · exact Token.keyword_not_eof hif
              · exact hcn u hu
              · exact hn1 u hu
          · cases h
          · cases h
      split at h
      · rename_i hal
        have hne := (Token.alphabet_excl hal).2.2
        split at h
        · split at h
          · rename_i k1 h1
            obtain ⟨hd1, hn1⟩ := ih _ _ h1 (fun u hu => hsh u (List.mem_cons_of_mem _ hu))
            injection h with h
            subst h
            rw [Nat.add_comm 1, List.take_succ_cons]
            refine ⟨Grammar.statement.chain t _ hal hd1, ?_⟩
            intro u hu
            rcases List.mem_cons.mp hu with rfl | hu
            · exact hne
            · exact hn1 u hu
          · cases h
          · cases h
        · injection h with h
          subst h
          refine ⟨Grammar.statement.single t hal, ?_⟩
          intro u hu
          simp only [List.take_succ_cons, List.take_zero, List.mem_singleton] at hu
          rw [hu]; exact hne
      · cases h

/-- C6: for every input on which `tokenize` succeeds, if `Parser::parse` returns without raising
`SyntaxError`, the token sequence before the `END_OF_FILE` marker is derivable from `S` in the
grammar of the specification. -/
theorem C6_accepted_is_derivable (s : List Char) (ts : List Token)
    (h : Lexer.tokenize s = Result.ok ts) (hp : Parser.parse ts = Result.ok ()) :
    Grammar.S ts.dropLast := by
  obtain ⟨toks, pe, hts, hch⟩ := Lexer.tokenize_chain s ts h
  have hsh : ∀ t ∈ ts, t.shape := Lexer.tokenize_shape s ts h
  rw [Parser.parse_eq] at hp
  cases hs : lstmt (ts.length + 1) ts with
  | error e => rw [hs] at hp; simp at hp
  | outOfFuel => rw [hs] at hp; simp at hp
  | ok k =>
    rw [hs] at hp
    simp only at hp
    have hty : (look ts k).type = TokenType.END_OF_FILE := by
      by_contra hcon
      have hb : ((look ts k).type != TokenType.END_OF_FILE) = true := by simpa using hcon
      rw [if_pos hb] at hp
      cases hp
    obtain ⟨hder, hno⟩ := lstmt_derivable _ _ _ hs hsh
    have hk : k = toks.length := by
      rcases Nat.lt_trichotomy k toks.length with hlt | heq | hgt
      · exfalso
        have hmem : look ts k ∈ toks := by
          unfold look
          rw [hts, List.drop_append_of_le_length (Nat.le_of_lt hlt)]
          cases hd : toks.drop k with
          | nil =>
            have := congrArg List.length hd
            simp at this
            omega
          | cons a r =>
            simp only [List.cons_append, List.headD_cons]
            exact List.mem_of_mem_drop (by rw [hd]; simp)
        exact (hch.shape_of_mem _ hmem).1 hty
      · exact heq
      · exfalso
        have hmem : Token.mk TokenType.END_OF_FILE [] pe ∈ ts.take k := by
          rw [hts, List.take_append_eq_append_take, List.take_of_length_le (Nat.le_of_lt hgt)]
          apply List.mem_append_right
          have : k - toks.length = (k - toks.length - 1) + 1 := by omega
          rw [this]
          simp
        exact hno _ hmem rfl
    have hdl : ts.dropLast = ts.take k := by
      rw [hts, hk]
      simp
    unfold Grammar.S
    rw [hdl]
    exact hder

/-! ### Acceptance by counting -/

theorem Run.mono {m : Bool} {d : Nat} {l : List Token} (h : Run m d l) :
    ∀ d2, d ≤ d2 → Run m d2 l := by
  induction h with
  | stop d t rest hty => intro d2 _; exact Run.stop d2 t rest hty
  | atom m d t rest hal _ ih => intro d2 hd; exact Run.atom m d2 t rest hal (ih d2 hd)
  | branch m d t rest kc hif hc _ ih =>
    intro d2 hd
    exact Run.branch m d2 t rest kc hif hc (ih (d2 + 1) (by omega))
  | other d t rest hel _ ih =>
    intro d2 hd
    obtain ⟨d3, rfl⟩ : ∃ d3, d2 = d3 + 1 := ⟨d2 - 1, by omega⟩
    exact Run.other d3 t rest hel (ih d3 (by omega))

theorem Token.else_not_start {t : Token} (h : t.is_keyword ['e', 'l', 's', 'e'] = true) :
    t.is_keyword ['i', 'f'] = false ∧ t.is_alphabet = false ∧ t.is_value = false := by
  obtain ⟨h1, h2⟩ := Token.keyword_excl h
  simp [Token.is_keyword, Token.is_alphabet, Token.is_value, h1, h2]

theorem Token.if_not_else {t : Token} (h : t.is_keyword ['i', 'f'] = true) :
    t.is_keyword ['e', 'l', 's', 'e'] = false := by
  obtain ⟨h1, h2⟩ := Token.keyword_excl h
  simp [Token.is_keyword, h1, h2]

theorem Token.eof_not_start {t : Token} (h : t.type = TokenType.END_OF_FILE) :
    t.is_keyword ['i', 'f'] = false ∧ t.is_alphabet = false ∧
      t.is_keyword ['e', 'l', 's', 'e'] = false ∧ t.is_value = false := by
  simp [Token.is_keyword, Token.is_alphabet, Token.is_value, h]

/-- Where a begun statement may end: at an end marker, or at an `else` that the count lets an
enclosing `if` take. -/
theorem Run.stop_or_else {d : Nat} {l : List Token} (h : Run true d l)
    (hns : starts_statement l = false) :
    (∃ t r, l = t :: r ∧ t.type = TokenType.END_OF_FILE) ∨
      (starts_else l = true ∧ Run true d l) := by
  cases h with
  | stop d t rest hty => exact Or.inl ⟨_, _, rfl, hty⟩
  | atom m d t rest hal hr => simp [starts_statement, hal] at hns
  | branch m d t rest kc hif hc hr => simp [starts_statement, hif] at hns
  | other d t rest hel hr => exact Or.inr ⟨hel, Run.other d t rest hel hr⟩

/-- A counted run that begins a statement is followed by `lstmt` up to the end of that
statement. -/
theorem Run.lstmt_ok : ∀ (n : Nat) (l : List Token) (m : Bool) (d : Nat),
    l.length < n → Run m d l → (m = false ∨ starts_statement l = true) →
    ∃ k, lstmt n l = Result.ok k ∧
      ((∃ t r, l.drop k = t :: r ∧ t.type = TokenType.END_OF_FILE) ∨
        (starts_else (l.drop k) = true ∧ Run true d (l.drop k))) := by
  intro n
  induction n with
  | zero => intro l m d hl; omega
  | succ n ih =>
    intro l m d hl hrun hm
    cases hrun with
    | stop d t rest hty =>
      exfalso
      rcases hm with hm | hm
      · cases hm
      · obtain ⟨h1, h2, _, _⟩ := Token.eof_not_start hty
        simp [starts_statement, h1, h2] at hm
    | other d t rest hel hr =>
      exfalso
      rcases hm with hm | hm
      · cases hm
      · obtain ⟨h1, h2, _⟩ := Token.else_not_start hel
        simp [starts_statement, h1, h2] at hm
    | atom m d t rest hal hr =>
      obtain ⟨h1, h2, _⟩ := Token.alphabet_excl hal
      simp only [List.length_cons] at hl
      rw [lstmt]
      simp only [h1, h2, hal, if_true, Bool.false_eq_true, if_false]
      by_cases hst : starts_statement rest = true
      · obtain ⟨k, hk, hstop⟩ := ih rest true d (by omega) hr (Or.inr hst)
        rw [if_pos hst, hk]
        refine ⟨1 + k, rfl, ?_⟩
        rw [Nat.add_comm 1, List.drop_succ_cons]
        exact hstop
      · rw [if_neg hst]
        refine ⟨1, rfl, ?_⟩
        exact Run.stop_or_else hr (by simpa using hst)
    | branch m d t rest kc hif hc hr =>
      have hb := lcond_bounds hc
      simp only [List.length_cons] at hl
      rw [lstmt]
      simp only [Token.if_not_else hif, hif, hc, if_true, Bool.false_eq_true, if_false]
      obtain ⟨k1, hk1, hstop1⟩ := ih (rest.drop kc) false (d + 1)
        (by simp only [List.length_drop]; omega) hr (Or.inl rfl)
      rw [hk1]
      simp only
      rw [List.drop_drop] at hstop1
      rcases hstop1 with ⟨e, r, her, hety⟩ | ⟨hel, hrun2⟩
      · have hne : starts_else (rest.drop (kc + k1)) = false := by
          rw [her]
          exact (Token.eof_not_start hety).2.2.1
        rw [if_neg (by rw [hne]; simp)]
        refine ⟨1 + (kc + k1), rfl, Or.inl ⟨e, r, ?_, hety⟩⟩
        rw [Nat.add_comm 1, List.drop_succ_cons]
        exact her
      · rw [if_pos hel]
        obtain ⟨e, r, her, hek⟩ := starts_else_cons hel
        have hr2 : Run false d r := by
          rw [her] at hrun2
          cases hrun2 with
          | stop _ _ _ hty => exact absurd hty (Token.keyword_not_eof hek)
          | atom _ _ _ _ hal _ => rw [(Token.else_not_start hek).2.1] at hal; cases hal
          | branch _ _ _ _ _ hif2 _ _ => rw [(Token.else_not_start hek).1] at hif2; cases hif2
          | other _ _ _ _ h => exact h
        have hdr : rest.drop (kc + k1 + 1) = r := by
          rw [← List.drop_drop, her]
          rfl
        have hk1b := lstmt_bounds _ _ _ hk1
        obtain ⟨k2, hk2, hstop2⟩ := ih r false d (by
          rw [← hdr]; simp only [List.length_drop]; omega) hr2 (Or.inl rfl)
        rw [hdr, hk2]
        refine ⟨1 + (kc + k1 + 1 + k2), rfl, ?_⟩
        rw [Nat.add_comm 1, List.drop_succ_cons, ← List.drop_drop, hdr]
        exact hstop2

/-- A token list that the counting accepts from the start is accepted by `parse`. -/
theorem Run.parse_ok {toks : List Token} (h : Run false 0 toks) :
    Parser.parse toks = Result.ok () := by
  obtain ⟨k, hk, hstop⟩ := Run.lstmt_ok (toks.length + 1) toks false 0 (by omega) h (Or.inl rfl)
  rw [Parser.parse_eq, hk]
  rcases hstop with ⟨t, r, htr, hty⟩ | ⟨hel, hrun⟩
  · have hl : look toks k = t := by simp [look, htr]
    simp only [hl, hty]
    rfl
  · exfalso
    obtain ⟨e, r, her, hek⟩ := starts_else_cons hel
    rw [her] at hrun
    cases hrun with
    | stop _ _ _ hty => exact absurd hty (Token.keyword_not_eof hek)
    | atom _ _ _ _ hal _ => rw [(Token.else_not_start hek).2.1] at hal; cases hal
    | branch _ _ _ _ _ hif2 _ _ => rw [(Token.else_not_start hek).1] at hif2; cases hif2

/-! ### What the ordered grammar derives is accepted -/

theorem lcond_ordered {s c : List Token} (hc : Grammar.ordered_cond s c) (hne : s ≠ [])
    (hsh : ∀ t ∈ s, t.shape) (x : List Token)
    (hx : ∀ t r, x = t :: r → t.is_value = false) :
    lcond (c ++ (s ++ x)) = some c.length := by
  cases hc with
  | binary v o w hv ho hw =>
    rw [Grammar.value_eq] at hv hw
    simp [lcond, hv, hw, Grammar.is_op1_of_op1 ho]
  | bare v hv hnext =>
    rw [Grammar.value_eq] at hv
    cases s with
    | nil => exact absurd rfl hne
    | cons o s2 =>
      have hfalse : ∀ w : Token, w.is_value = false → (o.is_op1 && w.is_value) = false := by
        intro w hw; rw [hw]; simp
      cases s2 with
      | nil =>
        cases x with
        | nil => simp [lcond, hv]
        | cons w r => simp [lcond, hv, hx w r rfl]
      | cons w s3 =>
        have hnot : (o.is_op1 && w.is_value) = false := by
          by_cases ho : o.is_op1 = true
          · have ho2 := Grammar.op1_of_is_op1 (hsh o (by simp)) ho
            simp only [Grammar.starts_op1_value, ho2, Bool.true_and] at hnext
            rw [Grammar.value_eq] at hnext
            rw [hnext]; simp
          · simp [ho]
        simp [lcond, hv, hnot]

theorem Grammar.ordered_statement_run {ts : List Token} (h : Grammar.ordered_statement ts) :
    (∀ t ∈ ts, t.shape) → ts ≠ [] ∧ ∀ (m : Bool) (d : Nat) (k : List Token),
      (∀ t r, k = t :: r → t.is_value = false) → Run true d k → Run m d (ts ++ k) := by
  refine @Grammar.ordered_statement.rec
    (fun ts _ => (∀ t ∈ ts, t.shape) → ts ≠ [] ∧ ∀ (m : Bool) (d : Nat) (k : List Token),
      (∀ t r, k = t :: r → t.is_value = false) → Run true d k → Run m d (ts ++ k))
    (fun c _ => (∀ t ∈ c, t.shape) → ∀ (d : Nat) (k : List Token),
      (∀ t r, k = t :: r → t.is_value = false) → Run true d k →
      ∃ kc, lcond (c ++ k) = some kc ∧ Run false (d + 1) ((c ++ k).drop kc))
    ?_ ?_ ?_ ?_ ?_ ts h
  · intro i c hi _ ihc hsh
    refine ⟨by simp, fun m d k hk hrun => ?_⟩
    obtain ⟨kc, hlc, hr⟩ := ihc (fun t ht => hsh t (List.mem_cons_of_mem _ ht)) d k hk hrun
    exact Run.branch m d i (c ++ k) kc hi hlc hr
  · intro a ha _
    exact ⟨by simp, fun m d k _ hrun => Run.atom m d a k ha hrun⟩
  · intro a s ha _ ihs hsh
    refine ⟨by simp, fun m d k hk hrun => ?_⟩
    exact Run.atom m d a (s ++ k) ha
      ((ihs (fun t ht => hsh t (List.mem_cons_of_mem _ ht))).2 true d k hk hrun)
  · intro c s hc _ ihs hsh d k hk hrun
    obtain ⟨hne, ihs2⟩ := ihs (fun t ht => hsh t (List.mem_append_right _ ht))
    refine ⟨c.length, ?_, ?_⟩
    · rw [List.append_assoc]
      exact lcond_ordered hc hne (fun t ht => hsh t (List.mem_append_right _ ht)) k hk
    · rw [List.append_assoc, List.drop_left]
      exact ihs2 false (d + 1) k hk (hrun.mono (d + 1) (by omega))
  · intro c s e s2 hc _ he _ ihs ihs2 hsh d k hk hrun
    have hshs : ∀ t ∈ s, t.shape := fun t ht =>
      hsh t (List.mem_append_left _ (List.mem_append_right _ ht))
    have hshs2 : ∀ t ∈ s2, t.shape := fun t ht =>
      hsh t (List.mem_append_right _ (List.mem_cons_of_mem _ ht))
    obtain ⟨hne, ihsa⟩ := ihs hshs
    obtain ⟨_, ihsb⟩ := ihs2 hshs2
    have hx : ∀ t r, e :: (s2 ++ k) = t :: r → t.is_value = false := by
      intro t r htr
      injection htr with h1 _
      rw [← h1]
      exact (Token.else_not_start he).2.2
    have hassoc : c ++ s ++ e :: s2 ++ k = c ++ (s ++ e :: (s2 ++ k)) := by simp
    refine ⟨c.length, ?_, ?_⟩
    · rw [hassoc]
      exact lcond_ordered hc hne hshs _ hx
    · rw [hassoc, List.drop_left]
      exact ihsa false (d + 1) _ hx (Run.other d e _ he (ihsb false d k hk hrun))

/-- C5, as amended: for every input on which `tokenize` succeeds, if the token sequence before
the `END_OF_FILE` marker is derivable from `S` in the grammar with `cond` read as an ordered
choice (the bare form `value` only where the then-statement does not begin with an op1 symbol
followed by a value), then `Parser::parse` returns without raising `SyntaxError`. -/
theorem C5_ordered_grammar_is_accepted (s : List Char) (ts : List Token)
    (h : Lexer.tokenize s = Result.ok ts)
    (hder : Grammar.ordered_statement ts.dropLast) :
    Parser.parse ts = Result.ok () := by
  obtain ⟨toks, pe, hts, _⟩ := Lexer.tokenize_chain s ts h
  have hsh : ∀ t ∈ ts, t.shape := Lexer.tokenize_shape s ts h
  have hdl : ts.dropLast = toks := by rw [hts]; simp
  rw [hdl] at hder
  have hrun := (Grammar.ordered_statement_run hder
    (fun t ht => hsh t (by rw [hts]; exact List.mem_append_left _ ht))).2 false 0
    [Token.mk TokenType.END_OF_FILE [] pe]
    (by intro t r htr; injection htr with h1 _; rw [← h1]; rfl)
    (Run.stop 0 _ [] rfl)
  rw [hts]
  exact Run.parse_ok hrun

/-- C5, as stated, fails: `if x + y` tokenizes, its tokens before the end marker are derivable
from `S` (condition `x`, then-statement `+ y`), and `Parser::parse` raises `SyntaxError`. -/
theorem C5_counterexample :
    Lexer.tokenize ['i', 'f', ' ', 'x', ' ', '+', ' ', 'y'] = Result.ok
        [Token.mk TokenType.KEYWORD ['i', 'f'] 0, Token.mk TokenType.IDENTIFIER ['x'] 3,
          Token.mk TokenType.SYMBOL ['+'] 5, Token.mk TokenType.IDENTIFIER ['y'] 7,
          Token.mk TokenType.END_OF_FILE [] 8] ∧
      Grammar.S (List.dropLast
        [Token.mk TokenType.KEYWORD ['i', 'f'] 0, Token.mk TokenType.IDENTIFIER ['x'] 3,
          Token.mk TokenType.SYMBOL ['+'] 5, Token.mk TokenType.IDENTIFIER ['y'] 7,
          Token.mk TokenType.END_OF_FILE [] 8]) ∧
      Parser.parse
        [Token.mk TokenType.KEYWORD ['i', 'f'] 0, Token.mk TokenType.IDENTIFIER ['x'] 3,
          Token.mk TokenType.SYMBOL ['+'] 5, Token.mk TokenType.IDENTIFIER ['y'] 7,
          Token.mk TokenType.END_OF_FILE [] 8] = Result.error Error.SyntaxError := by
  refine ⟨by decide, ?_, by decide⟩
  exact Grammar.statement.branch _ _ rfl
    (Grammar.conditional.no_else [Token.mk TokenType.IDENTIFIER ['x'] 3]
      [Token.mk TokenType.SYMBOL ['+'] 5, Token.mk TokenType.IDENTIFIER ['y'] 7]
      (Grammar.cond.bare _ rfl)
      (Grammar.statement.chain _ _ rfl (Grammar.statement.single _ rfl)))

/-- C5, instance: the theorem applied to a concrete input. -/
theorem C5_ordered_grammar_is_accepted_witness :
    (Lexer.tokenize ['i', 'f', ' ', 'x', ' ', '+', ' ', 'y', ' ', 'z'] = Result.ok
        [Token.mk TokenType.KEYWORD ['i', 'f'] 0, Token.mk TokenType.IDENTIFIER ['x'] 3,
          Token.mk TokenType.SYMBOL ['+'] 5, Token.mk TokenType.IDENTIFIER ['y'] 7,
          Token.mk TokenType.IDENTIFIER ['z'] 9, Token.mk TokenType.END_OF_FILE [] 10] ∧
      Grammar.ordered_statement (List.dropLast
        [Token.mk TokenType.KEYWORD ['i', 'f'] 0, Token.mk TokenType.IDENTIFIER ['x'] 3,
          Token.mk TokenType.SYMBOL ['+'] 5, Token.mk TokenType.IDENTIFIER ['y'] 7,
          Token.mk TokenType.IDENTIFIER ['z'] 9, Token.mk TokenType.END_OF_FILE [] 10])) ∧
      Parser.parse
        [Token.mk TokenType.KEYWORD ['i', 'f'] 0, Token.mk TokenType.IDENTIFIER ['x'] 3,
          Token.mk TokenType.SYMBOL ['+'] 5, Token.mk TokenType.IDENTIFIER ['y'] 7,
          Token.mk TokenType.IDENTIFIER ['z'] 9, Token.mk TokenType.END_OF_FILE [] 10]
        = Result.ok () :=
  have hder : Grammar.ordered_statement (List.dropLast
      [Token.mk TokenType.KEYWORD ['i', 'f'] 0, Token.mk TokenType.IDENTIFIER ['x'] 3,
        Token.mk TokenType.SYMBOL ['+'] 5, Token.mk TokenType.IDENTIFIER ['y'] 7,
        Token.mk TokenType.IDENTIFIER ['z'] 9, Token.mk TokenType.END_OF_FILE [] 10]) :=
    Grammar.ordered_statement.branch _ _ rfl
      (Grammar.ordered_conditional.no_else
        [Token.mk TokenType.IDENTIFIER ['x'] 3, Token.mk TokenType.SYMBOL ['+'] 5,
          Token.mk TokenType.IDENTIFIER ['y'] 7]
        [Token.mk TokenType.IDENTIFIER ['z'] 9]
        (Grammar.ordered_cond.binary _ _ _ rfl rfl rfl)
        (Grammar.ordered_statement.single _ rfl))
  ⟨⟨by decide, hder⟩,
    C5_ordered_grammar_is_accepted ['i', 'f', ' ', 'x', ' ', '+', ' ', 'y', ' ', 'z'] _
      (by decide) hder⟩

/-- C6, instance: the theorem applied to a concrete input. -/
theorem C6_accepted_is_derivable_witness :
    (Lexer.tokenize ['i', 'f', ' ', 'x', ' ', '<', ' ', 'y', ' ', 'z'] = Result.ok
        [Token.mk TokenType.KEYWORD ['i', 'f'] 0, Token.mk TokenType.IDENTIFIER ['x'] 3,
          Token.mk TokenType.SYMBOL ['<'] 5, Token.mk TokenType.IDENTIFIER ['y'] 7,
          Token.mk TokenType.IDENTIFIER ['z'] 9, Token.mk TokenType.END_OF_FILE [] 10] ∧
      Parser.parse
        [Token.mk TokenType.KEYWORD ['i', 'f'] 0, Token.mk TokenType.IDENTIFIER ['x'] 3,
          Token.mk TokenType.SYMBOL ['<'] 5, Token.mk TokenType.IDENTIFIER ['y'] 7,
          Token.mk TokenType.IDENTIFIER ['z'] 9, Token.mk TokenType.END_OF_FILE [] 10]
        = Result.ok ()) ∧
      Grammar.S (List.dropLast
        [Token.mk TokenType.KEYWORD ['i', 'f'] 0, Token.mk TokenType.IDENTIFIER ['x'] 3,
          Token.mk TokenType.SYMBOL ['<'] 5, Token.mk TokenType.IDENTIFIER ['y'] 7,
          Token.mk TokenType.IDENTIFIER ['z'] 9, Token.mk TokenType.END_OF_FILE [] 10]) :=
  ⟨⟨by decide, by decide⟩,
    C6_accepted_is_derivable ['i', 'f', ' ', 'x', ' ', '<', ' ', 'y', ' ', 'z'] _ (by decide)
      (by decide)⟩

/-! ### Offsets and concatenation of the tokens -/

theorem isspace_of_token_char {c : Char}
    (h : isalpha c = true ∨ isdigit c = true ∨ c = '_' ∨ c = '.' ∨ c ∈ operators ∨ c ∈ symbols) :
    isspace c = false := by
  rcases h with h | h | h | h | h | h
  · unfold isalpha at h
    unfold isspace
    simp only [decide_eq_true_eq, decide_eq_false_iff_not] at h ⊢
    omega
  · unfold isdigit at h
    unfold isspace
    simp only [decide_eq_true_eq, decide_eq_false_iff_not] at h ⊢
    omega
  · rw [h]; decide
  · rw [h]; decide
  · simp only [operators, List.mem_cons, List.mem_singleton, List.not_mem_nil, or_false] at h
    rcases h with h | h | h | h | h | h | h | h <;> rw [h] <;> decide
  · simp only [symbols, List.mem_cons, List.mem_singleton, List.not_mem_nil, or_false] at h
    rcases h with h | h | h <;> rw [h] <;> decide

theorem filter_all_space {ws : List Char} (h : ∀ c ∈ ws, isspace c = true) :
    ws.filter (fun c => !isspace c) = [] := by
  rw [List.filter_eq_nil_iff]
  intro c hc
  simp [h c hc]

theorem filter_no_space {v : List Char} (h : ∀ c ∈ v, isspace c = false) :
    v.filter (fun c => !isspace c) = v := by
  rw [List.filter_eq_self]
  intro c hc
  simp [h c hc]

/-- The texts of a chain that reaches the end of a text without sentinel, put end to end, are
the text without its blanks. -/
theorem Chain.join_values {p pe : Nat} {rest : List Char} {toks : List Token}
    (h : Chain p rest toks pe) (hnul : NUL ∉ rest) :
    (toks.map Token.value).flatten = rest.filter (fun c => !isspace c) := by
  induction h with
  | done p ws rest hws hend =>
    cases rest with
    | nil => simp [filter_all_space hws]
    | cons a r =>
      simp only [List.headD_cons] at hend
      exact absurd (by rw [hend]; simp) hnul
  | tok p ws t rest toks pe hws _ hty hsh _ ih =>
    have hv : ∀ c ∈ t.value, isspace c = false := fun c hc =>
      isspace_of_token_char (Token.char_of_shape hsh hty c hc)
    rw [List.filter_append, List.filter_append, filter_all_space hws, filter_no_space hv,
      ← ih (fun hn => hnul (by simp [hn]))]
    simp

/-- The first token after a chain position, or the end marker, starts at or after it. -/
theorem Chain.head_position {p pe : Nat} {rest : List Char} {toks : List Token}
    (h : Chain p rest toks pe) :
    ∀ u r, toks ++ [Token.mk TokenType.END_OF_FILE [] pe] = u :: r → p ≤ u.position := by
  cases h with
  | done p ws rest _ _ =>
    intro u r hu
    simp only [List.nil_append, List.cons.injEq] at hu
    rw [← hu.1]
    exact Nat.le_add_right _ _
  | tok p ws t rest toks pe _ hpos _ _ _ =>
    intro u r hu
    simp only [List.cons_append, List.cons.injEq] at hu
    rw [← hu.1, hpos]
    exact Nat.le_add_right _ _

/-- Along a chain no token reaches into the next one, the end marker included. -/
theorem Chain.no_overlap {p pe : Nat} {rest : List Char} {toks : List Token}
    (h : Chain p rest toks pe) :
    List.Chain' (fun t u : Token => t.position + t.value.length ≤ u.position)
      (toks ++ [Token.mk TokenType.END_OF_FILE [] pe]) := by
  induction h with
  | done p ws rest _ _ => simp
  | tok p ws t rest toks pe _ hpos _ _ hch ih =>
    rw [List.cons_append]
    cases hnext : toks ++ [Token.mk TokenType.END_OF_FILE [] pe] with
    | nil => simp at hnext
    | cons u r =>
      rw [hnext] at ih
      refine List.Chain'.cons ?_ ih
      have := hch.head_position u r hnext
      omega

/-- C15: whenever `Lexer::tokenize` succeeds, for every pair of consecutive tokens `t`, `u` of
the result (`u` may be the `END_OF_FILE` token), `t.position + |t.value| <= u.position`; so
tokens never overlap and offsets are non-decreasing. -/
theorem C15_offsets_never_overlap (s : List Char) (ts : List Token)
    (h : Lexer.tokenize s = Result.ok ts) :
    ∀ (pre : List Token) (t u : Token) (post : List Token), ts = pre ++ t :: u :: post →
      t.position + t.value.length ≤ u.position ∧ t.position ≤ u.position := by
  obtain ⟨toks, pe, hts, hch⟩ := Lexer.tokenize_chain s ts h
  intro pre t u post hsplit
  have hc := hch.no_overlap
  rw [← hts, hsplit, List.chain'_append_cons_cons] at hc
  exact ⟨hc.2.1, by have := hc.2.1; omega⟩

/-- C15, instance: the theorem applied to a concrete input. -/
theorem C15_offsets_never_overlap_witness :
    Lexer.tokenize ['a', 'b', ' ', ' ', '7', '+'] = Result.ok
        [Token.mk TokenType.IDENTIFIER ['a', 'b'] 0, Token.mk TokenType.INTEGER ['7'] 4,
          Token.mk TokenType.SYMBOL ['+'] 5, Token.mk TokenType.END_OF_FILE [] 6] ∧
      ∀ (pre : List Token) (t u : Token) (post : List Token),
        [Token.mk TokenType.IDENTIFIER ['a', 'b'] 0, Token.mk TokenType.INTEGER ['7'] 4,
          Token.mk TokenType.SYMBOL ['+'] 5, Token.mk TokenType.END_OF_FILE [] 6]
          = pre ++ t :: u :: post →
        t.position + t.value.length ≤ u.position ∧ t.position ≤ u.position :=
  ⟨by decide, C15_offsets_never_overlap ['a', 'b', ' ', ' ', '7', '+'] _ (by decide)⟩

/-- C19: for every ASCII input `s` without a NUL character on which `Lexer::tokenize`
succeeds, the texts of the returned tokens concatenated in order are exactly `s` with its
whitespace characters (space, tab, newline, vertical tab, form feed, carriage return)
removed. -/
theorem C19_tokens_spell_input_without_blanks (s : List Char) (ts : List Token)
    (_hascii : ∀ c ∈ s, c.toNat < 128) (hnul : NUL ∉ s)
    (h : Lexer.tokenize s = Result.ok ts) :
    (ts.map Token.value).flatten = s.filter (fun c => !isspace c) := by
  obtain ⟨toks, pe, hts, hch⟩ := Lexer.tokenize_chain s ts h
  rw [hts, ← hch.join_values hnul]
  simp

/-- C19, instance: the theorem applied to a concrete input. -/
theorem C19_tokens_spell_input_without_blanks_witness :
    ((∀ c ∈ ['i', 'f', ' ', 'x', '<', '2', '.', '5', ' ', ' ', 'y'], c.toNat < 128) ∧
      NUL ∉ ['i', 'f', ' ', 'x', '<', '2', '.', '5', ' ', ' ', 'y'] ∧
      Lexer.tokenize ['i', 'f', ' ', 'x', '<', '2', '.', '5', ' ', ' ', 'y'] = Result.ok
        [Token.mk TokenType.KEYWORD ['i', 'f'] 0, Token.mk TokenType.IDENTIFIER ['x'] 3,
          Token.mk TokenType.SYMBOL ['<'] 4, Token.mk TokenType.FLOAT ['2', '.', '5'] 5,
          Token.mk TokenType.IDENTIFIER ['y'] 10, Token.mk TokenType.END_OF_FILE [] 11]) ∧
      ([Token.mk TokenType.KEYWORD ['i', 'f'] 0, Token.mk TokenType.IDENTIFIER ['x'] 3,
          Token.mk TokenType.SYMBOL ['<'] 4, Token.mk TokenType.FLOAT ['2', '.', '5'] 5,
          Token.mk TokenType.IDENTIFIER ['y'] 10, Token.mk TokenType.END_OF_FILE [] 11].map
          Token.value).flatten
        = ['i', 'f', ' ', 'x', '<', '2', '.', '5', ' ', ' ', 'y'].filter
            (fun c => !isspace c) :=
  ⟨⟨by decide, by decide, by decide⟩,
    C19_tokens_spell_input_without_blanks ['i', 'f', ' ', 'x', '<', '2', '.', '5', ' ', ' ', 'y']
      _ (by decide) (by decide) (by decide)⟩

/-! ### The tokenizer on inputs of a given form -/

theorem takeWhile_stop {f : Char → Bool} {a b : List Char} (ha : ∀ c ∈ a, f c = true)
    (hb : ∀ c r, b = c :: r → f c = false) : (a ++ b).takeWhile f = a := by
  induction a with
  | nil =>
    cases b with
    | nil => rfl
    | cons c r => simp [List.takeWhile_cons, hb c r rfl]
  | cons x a ih =>
    rw [List.cons_append, List.takeWhile_cons, if_pos (ha x (List.mem_cons_self _ _)),
      ih (fun c hc => ha c (List.mem_cons_of_mem _ hc))]

theorem blank_ne_NUL {c : Char} (h : isspace c = true) : c ≠ NUL := by
  rintro rfl
  rw [isspace_NUL] at h
  cases h

/-- Blanks in front of something that is not a blank are what `skip_whitespace` skips. -/
theorem Lexer.skip_blanks {inp ws r : List Char} {p : Nat} (hd : inp.drop p = ws ++ r)
    (hws : ∀ c ∈ ws, isspace c = true) (hr : isspace (r.headD NUL) = false) :
    Lexer.skip_whitespace (inp.length + 1) (Lexer.sync inp p)
      = some (Lexer.sync inp (p + ws.length)) := by
  rw [Lexer.skip_whitespace_sync inp _ p (by omega), hd, takeWhile_stop]
  · intro c hc
    simp [hws c hc, blank_ne_NUL (hws c hc)]
  · intro c r2 hcr
    rw [hcr] at hr
    simp only [List.headD_cons] at hr
    simp [hr]

theorem Lexer.cur_after_blanks {inp ws r : List Char} {p : Nat} (hd : inp.drop p = ws ++ r) :
    (Lexer.sync inp (p + ws.length)).current_char = r.headD NUL := by
  rw [Lexer.cur_sync, drop_of_append hd]

theorem Lexer.drop_after_blanks {inp ws r : List Char} {p : Nat} (hd : inp.drop p = ws ++ r) :
    inp.drop (p + ws.length) = r := drop_of_append hd

/-- The main loop on blanks up to the end of the text (or the sentinel). -/
theorem Lexer.loop_end {inp ws r : List Char} {p : Nat} (n : Nat) (acc : List Token)
    (hd : inp.drop p = ws ++ r) (hws : ∀ c ∈ ws, isspace c = true) (hr : r.headD NUL = NUL) :
    Lexer.tokenize_loop (n + 1) (Lexer.sync inp p) acc
      = Result.ok (acc ++ [Token.mk TokenType.END_OF_FILE [] (p + ws.length)]) := by
  rw [Lexer.tokenize_loop]
  by_cases h0 : ((Lexer.sync inp p).current_char != NUL) = true
  · rw [if_pos h0, Lexer.fuel_sync,
      Lexer.skip_blanks hd hws (by rw [hr]; exact isspace_NUL)]
    simp only
    rw [Lexer.cur_after_blanks hd, hr]
    simp only [beq_self_eq_true, if_true, Lexer.pos_sync]
  · rw [if_neg h0]
    have hws0 : ws = [] := by
      cases ws with
      | nil => rfl
      | cons c ws2 =>
        exfalso
        apply h0
        rw [Lexer.cur_sync, hd]
        simpa using blank_ne_NUL (hws c (List.mem_cons_self _ _))
    rw [hws0]
    rfl

/-- The main loop in front of a token: the head of the loop body up to the choice of branch. -/
theorem Lexer.loop_enter {inp ws r : List Char} {p : Nat} (hd : inp.drop p = ws ++ r)
    (hws : ∀ c ∈ ws, isspace c = true) (hr : isspace (r.headD NUL) = false)
    (hr0 : r.headD NUL ≠ NUL) :
    ((Lexer.sync inp p).current_char != NUL) = true ∧
      Lexer.skip_whitespace (Lexer.sync inp p).fuel (Lexer.sync inp p)
        = some (Lexer.sync inp (p + ws.length)) ∧
      ((Lexer.sync inp (p + ws.length)).current_char == NUL) = false := by
  refine ⟨?_, Lexer.skip_blanks hd hws hr, ?_⟩
  · rw [Lexer.cur_sync, hd]
    cases ws with
    | nil => simpa using hr0
    | cons c ws2 => simpa using blank_ne_NUL (hws c (List.mem_cons_self _ _))
  · rw [Lexer.cur_after_blanks hd]
    simpa using hr0

theorem digit_facts {c : Char} (h : isdigit c = true) :
    c ≠ NUL ∧ isspace c = false ∧ isalpha c = false ∧ c ≠ '.' ∧ c ≠ '_' ∧ isalnum c = true := by
  unfold isdigit at h
  simp only [decide_eq_true_eq] at h
  have h1 : c ≠ NUL := by rintro rfl; rw [NUL_toNat] at h; omega
  have h2 : isspace c = false := by
    unfold isspace; simp only [decide_eq_false_iff_not]; omega
  have h3 : isalpha c = false := by
    unfold isalpha; simp only [decide_eq_false_iff_not]; omega
  have h4 : c ≠ '.' := by rintro rfl; revert h; decide
  have h5 : c ≠ '_' := by rintro rfl; revert h; decide
  refine ⟨h1, h2, h3, h4, h5, ?_⟩
  unfold isalnum isdigit
  simp [h]

theorem letter_facts {c : Char} (h : isalpha c = true ∨ c = '_') :
    c ≠ NUL ∧ isspace c = false ∧ isdigit c = false ∧ c ≠ '.' ∧
      (isalnum c || c == '_') = true := by
  rcases h with h | h
  · have h0 := h
    unfold isalpha at h
    simp only [decide_eq_true_eq] at h
    have h1 : c ≠ NUL := by rintro rfl; rw [NUL_toNat] at h; omega
    have h2 : isspace c = false := by
      unfold isspace; simp only [decide_eq_false_iff_not]; omega
    have h3 : isdigit c = false := by
      unfold isdigit; simp only [decide_eq_false_iff_not]; omega
    have h4 : c ≠ '.' := by rintro rfl; revert h; decide
    exact ⟨h1, h2, h3, h4, by simp [isalnum, h0]⟩
  · subst h
    exact ⟨by decide, by decide, by decide, by decide, by decide⟩

/-- The main loop in front of a digit that is followed by a letter: `LexicalError`. -/
theorem Lexer.loop_bad_digit {inp ws rest : List Char} {d a : Char} {p : Nat} (n : Nat)
    (acc : List Token) (hd : inp.drop p = ws ++ d :: a :: rest)
    (hws : ∀ c ∈ ws, isspace c = true) (hdig : isdigit d = true) (hal : isalpha a = true) :
    Lexer.tokenize_loop (n + 1) (Lexer.sync inp p) acc = Result.error Error.LexicalError := by
  obtain ⟨hd1, hd2, _, _, _, hd6⟩ := digit_facts hdig
  obtain ⟨h1, h2, h3⟩ := Lexer.loop_enter hd hws (by simpa using hd2) (by simpa using hd1)
  have hcur : (Lexer.sync inp (p + ws.length)).current_char = d := by
    rw [Lexer.cur_after_blanks hd]; rfl
  have hscan : (inp.drop (p + ws.length)).takeWhile (fun c => isalnum c || c == '_')
      = d :: a :: rest.takeWhile (fun c => isalnum c || c == '_') := by
    have ha6 : isalnum a = true := by simp [isalnum, hal]
    rw [Lexer.drop_after_blanks hd]
    simp [List.takeWhile_cons, hd6, ha6]
  rw [Lexer.tokenize_loop, if_pos h1, h2]
  simp only
  rw [h3, hcur]
  simp only [Bool.false_eq_true, if_false, hdig, if_true, Lexer.input_sync, Lexer.fuel_sync,
    Lexer.pos_sync]
  rw [scan_run_eq inp _ _ _ (by omega), hscan]
  simp only [List.nil_append, List.length_cons, List.getD_cons_succ, List.getD_cons_zero, hal]
  have hlen : decide ((rest.takeWhile (fun c => isalnum c || c == '_')).length + 1 + 1 > 1)
      = true := by simp
  rw [hlen]
  simp only [Bool.and_self, if_true]
  cases hc : Lexer.consume_run (inp.length + 1) (Lexer.sync inp (p + ws.length)) [] with
  | none => exact absurd hc (Lexer.consume_run_sync inp _ _ _ (by omega))
  | some v => rfl


/-- The method `number` on a synchronised state, in closed form. -/
theorem Lexer.number_eq (inp : List Char) (q : Nat) :
    (Lexer.sync inp q).number =
      if ((inp.drop (q + ((inp.drop q).takeWhile (fun c => c != NUL && isdigit c)).length)).headD
          NUL == '.') = true then
        if (!isdigit ((inp.drop (q + ((inp.drop q).takeWhile
            (fun c => c != NUL && isdigit c)).length + 1)).headD NUL)) = true then
          Result.error Error.LexicalError
        else
          Result.ok (Token.mk TokenType.FLOAT
            ((inp.drop q).takeWhile (fun c => c != NUL && isdigit c) ++ ['.'] ++
              (inp.drop (q + ((inp.drop q).takeWhile (fun c => c != NUL && isdigit c)).length
                + 1)).takeWhile (fun c => c != NUL && isdigit c)) q,
            Lexer.sync inp (q + ((inp.drop q).takeWhile (fun c => c != NUL && isdigit c)).length
              + 1 + ((inp.drop (q + ((inp.drop q).takeWhile
                (fun c => c != NUL && isdigit c)).length + 1)).takeWhile
                  (fun c => c != NUL && isdigit c)).length))
      else
        Result.ok (Token.mk TokenType.INTEGER
          ((inp.drop q).takeWhile (fun c => c != NUL && isdigit c)) q,
          Lexer.sync inp (q + ((inp.drop q).takeWhile (fun c => c != NUL && isdigit c)).length))
    := by
  unfold Lexer.number
  rw [Lexer.fuel_sync, Lexer.pos_sync, Lexer.collect_sync isdigit inp _ q [] (by omega)]
  simp only [List.nil_append, Lexer.advance_sync, Lexer.cur_sync]
  split
  · rename_i hdot
    have hdot2 := eq_of_beq hdot
    split
    · rfl
    · rw [Lexer.collect_sync isdigit inp _ _ _ (by omega), hdot2]
  · rfl

/-- The method `identifier_or_keyword` on a synchronised state, in closed form. -/
theorem Lexer.identifier_eq (inp : List Char) (q : Nat) :
    (Lexer.sync inp q).identifier_or_keyword =
      if (!isalpha ((inp.drop q).headD NUL) && (inp.drop q).headD NUL != '_') = true then
        Result.error Error.LexicalError
      else if keywords.contains
          ((inp.drop q).takeWhile (fun c => c != NUL && (isalnum c || c == '_'))) = true then
        Result.ok (Token.mk TokenType.KEYWORD
          ((inp.drop q).takeWhile (fun c => c != NUL && (isalnum c || c == '_'))) q,
          Lexer.sync inp (q + ((inp.drop q).takeWhile
            (fun c => c != NUL && (isalnum c || c == '_'))).length))
      else
        Result.ok (Token.mk TokenType.IDENTIFIER
          ((inp.drop q).takeWhile (fun c => c != NUL && (isalnum c || c == '_'))) q,
          Lexer.sync inp (q + ((inp.drop q).takeWhile
            (fun c => c != NUL && (isalnum c || c == '_'))).length)) := by
  unfold Lexer.identifier_or_keyword
  simp only [Lexer.fuel_sync, Lexer.pos_sync, Lexer.cur_sync]
  split
  · rfl
  · rw [Lexer.collect_sync _ inp _ q [] (by omega)]
    simp only [List.nil_append]

/-- The main loop in front of a digit that the look-ahead lets through: `number` is run. -/
theorem Lexer.loop_number {inp ws r : List Char} {p : Nat} (n : Nat) (acc : List Token)
    (hd : inp.drop p = ws ++ r) (hws : ∀ c ∈ ws, isspace c = true)
    (hdig : isdigit (r.headD NUL) = true)
    (hscan : (decide ((r.takeWhile (fun c => isalnum c || c == '_')).length > 1) &&
      isalpha ((r.takeWhile (fun c => isalnum c || c == '_')).getD 1 NUL)) = false) :
    Lexer.tokenize_loop (n + 1) (Lexer.sync inp p) acc =
      match (Lexer.sync inp (p + ws.length)).number with
      | Result.ok (tok, l1) => Lexer.tokenize_loop n l1 (acc ++ [tok])
      | Result.error e => Result.error e
      | Result.outOfFuel => Result.outOfFuel := by
  obtain ⟨hd1, hd2, _⟩ := digit_facts hdig
  obtain ⟨h1, h2, h3⟩ := Lexer.loop_enter hd hws hd2 hd1
  have hcur : (Lexer.sync inp (p + ws.length)).current_char = r.headD NUL :=
    Lexer.cur_after_blanks hd
  rw [Lexer.tokenize_loop, if_pos h1, h2]
  simp only
  rw [h3, hcur]
  simp only [Bool.false_eq_true, if_false, hdig, if_true, Lexer.input_sync, Lexer.fuel_sync,
    Lexer.pos_sync]
  rw [scan_run_eq inp _ _ _ (by omega), Lexer.drop_after_blanks hd]
  simp only [List.nil_append, hscan, Bool.false_eq_true, if_false]

/-- The main loop in front of a letter or an underscore: `identifier_or_keyword` is run. -/
theorem Lexer.loop_identifier {inp ws r : List Char} {p : Nat} (n : Nat) (acc : List Token)
    (hd : inp.drop p = ws ++ r) (hws : ∀ c ∈ ws, isspace c = true)
    (hal : isalpha (r.headD NUL) = true ∨ r.headD NUL = '_') :
    Lexer.tokenize_loop (n + 1) (Lexer.sync inp p) acc =
      match (Lexer.sync inp (p + ws.length)).identifier_or_keyword with
      | Result.ok (tok, l1) => Lexer.tokenize_loop n l1 (acc ++ [tok])
      | Result.error e => Result.error e
      | Result.outOfFuel => Result.outOfFuel := by
  obtain ⟨hl1, hl2, hl3, _, _⟩ := letter_facts hal
  obtain ⟨h1, h2, h3⟩ := Lexer.loop_enter hd hws hl2 hl1
  have hcur : (Lexer.sync inp (p + ws.length)).current_char = r.headD NUL :=
    Lexer.cur_after_blanks hd
  have hguard : (isalpha (r.headD NUL) || r.headD NUL == '_') = true := by
    generalize r.headD NUL = c at hal
    rcases hal with h | h
    · simp [h]
    · simp [h]
  rw [Lexer.tokenize_loop, if_pos h1, h2]
  simp only
  rw [h3, hcur]
  simp only [Bool.false_eq_true, if_false, hl3, hguard, if_true]


theorem digits_getD_not_alpha {ds : List Char} (hds : ∀ c ∈ ds, isdigit c = true) (i : Nat) :
    isalpha (ds.getD i NUL) = false := by
  by_cases hi : i < ds.length
  · rw [List.getD_eq_getElem _ _ hi]
    exact (digit_facts (hds _ (List.getElem_mem hi))).2.2.1
  · rw [List.getD_eq_default _ _ (Nat.le_of_not_lt hi)]
    exact isalpha_NUL

theorem digits_takeWhile {ds b : List Char} (hds : ∀ c ∈ ds, isdigit c = true)
    (hb : isdigit (b.headD NUL) = false) :
    (ds ++ b).takeWhile (fun c => c != NUL && isdigit c) = ds := by
  apply takeWhile_stop
  · intro c hc
    simp [hds c hc, (digit_facts (hds c hc)).1]
  · intro c r hcr
    rw [hcr] at hb
    simp only [List.headD_cons] at hb
    simp [hb]

/-- C12: for every input whose first non-whitespace character is a digit that is immediately
followed by an alphabetic character, `Lexer::tokenize` fails with `LexicalError`; the input
`1abc` yields `Lexical Error`. -/
theorem C12_digit_then_letter_is_lexical_error (ws : List Char) (d a : Char) (rest : List Char)
    (hws : ∀ c ∈ ws, isspace c = true) (hd : isdigit d = true) (ha : isalpha a = true) :
    Lexer.tokenize (ws ++ d :: a :: rest) = Result.error Error.LexicalError ∧
      main ['1', 'a', 'b', 'c'] = some Verdict.LexicalError := by
  refine ⟨?_, by decide⟩
  unfold Lexer.tokenize
  rw [Lexer.new_eq]
  exact Lexer.loop_bad_digit _ [] (List.drop_zero _) hws hd ha

/-- C12, instance: the theorem applied to a concrete input. -/
theorem C12_digit_then_letter_is_lexical_error_witness :
    ((∀ c ∈ [' ', ' '], isspace c = true) ∧ isdigit '7' = true ∧ isalpha 'z' = true) ∧
      Lexer.tokenize ([' ', ' '] ++ '7' :: 'z' :: ['9', ' ', 'x'])
        = Result.error Error.LexicalError :=
  ⟨⟨by decide, by decide, by decide⟩,
    (C12_digit_then_letter_is_lexical_error [' ', ' '] '7' 'z' ['9', ' ', 'x'] (by decide)
      (by decide) (by decide)).1⟩

/-- C13: for every input made of optional whitespace, a non-empty run of digits, a `.`, and
then either the end of the input or a character that is not a digit, `Lexer::tokenize` fails
with `LexicalError`; the input `3.` yields `Lexical Error`. -/
theorem C13_fraction_needs_a_digit (ws ds rest : List Char)
    (hws : ∀ c ∈ ws, isspace c = true) (hne : ds ≠ []) (hds : ∀ c ∈ ds, isdigit c = true)
    (hrest : rest = [] ∨ ∃ c r, rest = c :: r ∧ isdigit c = false) :
    Lexer.tokenize (ws ++ ds ++ '.' :: rest) = Result.error Error.LexicalError ∧
      main ['3', '.'] = some Verdict.LexicalError := by
  refine ⟨?_, by decide⟩
  have hrd : isdigit (rest.headD NUL) = false := by
    rcases hrest with h | ⟨c, r, h, hc⟩
    · rw [h]; exact isdigit_NUL
    · rw [h]; exact hc
  have hdot : isdigit (('.' :: rest).headD NUL) = false := by
    show isdigit '.' = false
    decide
  have hdrop : (ws ++ ds ++ '.' :: rest).drop 0 = ws ++ (ds ++ '.' :: rest) := by simp
  have hhead : isdigit ((ds ++ '.' :: rest).headD NUL) = true := by
    cases ds with
    | nil => exact absurd rfl hne
    | cons c ds2 => exact hds c (List.mem_cons_self _ _)
  have htw : (ds ++ '.' :: rest).takeWhile (fun c => isalnum c || c == '_') = ds := by
    apply takeWhile_stop
    · intro c hc
      simp [(digit_facts (hds c hc)).2.2.2.2.2]
    · intro c r hcr
      injection hcr with h1 _
      rw [← h1]; decide
  have hscan : (decide (((ds ++ '.' :: rest).takeWhile
      (fun c => isalnum c || c == '_')).length > 1) &&
      isalpha (((ds ++ '.' :: rest).takeWhile (fun c => isalnum c || c == '_')).getD 1 NUL))
      = false := by
    rw [htw, digits_getD_not_alpha hds]
    simp
  unfold Lexer.tokenize
  rw [Lexer.new_eq, Lexer.loop_number _ [] hdrop hws hhead hscan, Lexer.number_eq]
  have hd1 : (ws ++ ds ++ '.' :: rest).drop (0 + ws.length) = ds ++ '.' :: rest :=
    drop_of_append hdrop
  have hd2 : (ws ++ ds ++ '.' :: rest).drop (0 + ws.length + ds.length) = ['.'] ++ rest :=
    drop_of_append hd1
  have hd3 : (ws ++ ds ++ '.' :: rest).drop (0 + ws.length + ds.length + 1) = rest :=
    drop_of_append hd2
  rw [hd1, digits_takeWhile hds hdot, hd2, hd3, hrd]
  rfl

/-- C13, instance: the theorem applied to a concrete input. -/
theorem C13_fraction_needs_a_digit_witness :
    ((∀ c ∈ [' '], isspace c = true) ∧ ['4', '2'] ≠ [] ∧
      (∀ c ∈ ['4', '2'], isdigit c = true) ∧
      (['x'] = [] ∨ ∃ c r, ['x'] = c :: r ∧ isdigit c = false)) ∧
      Lexer.tokenize ([' '] ++ ['4', '2'] ++ '.' :: ['x']) = Result.error Error.LexicalError :=
  ⟨⟨by decide, by decide, by decide, Or.inr ⟨'x', [], rfl, by decide⟩⟩,
    (C13_fraction_needs_a_digit [' '] ['4', '2'] ['x'] (by decide) (by decide) (by decide)
      (Or.inr ⟨'x', [], rfl, by decide⟩)).1⟩

/-- C14: for every input consisting solely of whitespace characters (the empty input
included), `Lexer::tokenize` succeeds and returns exactly one token, `END_OF_FILE` with empty
text, and `Parser::parse` on that sequence fails with `SyntaxError`. -/
theorem C14_blank_input (ws : List Char) (hws : ∀ c ∈ ws, isspace c = true) :
    Lexer.tokenize ws = Result.ok [Token.mk TokenType.END_OF_FILE [] ws.length] ∧
      Parser.parse [Token.mk TokenType.END_OF_FILE [] ws.length]
        = Result.error Error.SyntaxError := by
  refine ⟨?_, rfl⟩
  unfold Lexer.tokenize
  rw [Lexer.new_eq, Lexer.loop_end _ [] (by simp : ws.drop 0 = ws ++ []) hws rfl]
  simp

/-- C14, instance: the theorem applied to a concrete input. -/
theorem C14_blank_input_witness :
    (∀ c ∈ [' ', Char.ofNat 9, ' '], isspace c = true) ∧
      Lexer.tokenize [' ', Char.ofNat 9, ' ']
        = Result.ok [Token.mk TokenType.END_OF_FILE [] [' ', Char.ofNat 9, ' '].length] ∧
      Parser.parse [Token.mk TokenType.END_OF_FILE [] [' ', Char.ofNat 9, ' '].length]
        = Result.error Error.SyntaxError :=
  ⟨by decide, C14_blank_input [' ', Char.ofNat 9, ' '] (by decide)⟩


/-- C20: for every digit string `ds` of length at least 2 and every string `w` that starts with
a letter or underscore and consists only of letters, digits and underscores,
`Lexer::tokenize` on `ds ++ w` succeeds and returns exactly three tokens: INTEGER `ds` at
offset 0, then `w` at offset `|ds|` (KEYWORD if `w` is `if`, `else` or `print`, IDENTIFIER
otherwise), then `END_OF_FILE` at offset `|ds| + |w|`; so `12abc` tokenizes as INTEGER `12`,
IDENTIFIER `abc`, `END_OF_FILE` without a `LexicalError`. -/
theorem C20_digits_then_word (ds w : List Char) (hlen : 2 ≤ ds.length)
    (hds : ∀ c ∈ ds, isdigit c = true)
    (hw : ∃ c cs, w = c :: cs ∧ (isalpha c = true ∨ c = '_'))
    (hall : ∀ c ∈ w, isalpha c = true ∨ isdigit c = true ∨ c = '_') :
    Lexer.tokenize (ds ++ w) = Result.ok
        [Token.mk TokenType.INTEGER ds 0,
          Token.mk (if w = ['i', 'f'] ∨ w = ['e', 'l', 's', 'e'] ∨ w = ['p', 'r', 'i', 'n', 't']
            then TokenType.KEYWORD else TokenType.IDENTIFIER) w ds.length,
          Token.mk TokenType.END_OF_FILE [] (ds.length + w.length)] ∧
      Lexer.tokenize ['1', '2', 'a', 'b', 'c'] = Result.ok
        [Token.mk TokenType.INTEGER ['1', '2'] 0, Token.mk TokenType.IDENTIFIER ['a', 'b', 'c'] 2,
          Token.mk TokenType.END_OF_FILE [] 5] := by
  refine ⟨?_, by decide⟩
  obtain ⟨c, cs, hwc, hc⟩ := hw
  obtain ⟨hc1, hc2, hc3, hc4, hc5⟩ := letter_facts hc
  have hwhead : w.headD NUL = c := by rw [hwc]; rfl
  have hword : ∀ x ∈ w, (x != NUL && (isalnum x || x == '_')) = true := by
    intro x hx
    rcases hall x hx with h | h | h
    · obtain ⟨h1, _, _, _, h5⟩ := letter_facts (Or.inl h)
      simp [h1, h5]
    · obtain ⟨h1, _, _, _, _, h6⟩ := digit_facts h
      simp [h1, h6]
    · obtain ⟨h1, _, _, _, h5⟩ := letter_facts (Or.inr h)
      simp [h1, h5]
  have hdrop0 : (ds ++ w).drop 0 = [] ++ (ds ++ w) := by simp
  have hhead : isdigit (([] ++ (ds ++ w)).headD NUL) = true := by
    cases ds with
    | nil => simp at hlen
    | cons x ds2 => exact hds x (List.mem_cons_self _ _)
  have htw : (ds ++ w).takeWhile (fun x => isalnum x || x == '_') = ds ++ w := by
    have := @takeWhile_stop (fun x => isalnum x || x == '_') (ds ++ w) [] (by
      intro x hx
      rcases List.mem_append.mp hx with h | h
      · simp [(digit_facts (hds x h)).2.2.2.2.2]
      · have := hword x h
        simp only [Bool.and_eq_true] at this
        exact this.2) (by intro x r h; cases h)
    simpa using this
  have hscan : (decide (((ds ++ w).takeWhile
      (fun x => isalnum x || x == '_')).length > 1) &&
      isalpha (((ds ++ w).takeWhile (fun x => isalnum x || x == '_')).getD 1 NUL)) = false := by
    have h1 : (ds ++ w).getD 1 NUL = ds.getD 1 NUL := by
      rw [List.getD_eq_getElem _ _ (by simp; omega), List.getD_eq_getElem _ _ (by omega),
        List.getElem_append_left]
    rw [htw, h1, digits_getD_not_alpha hds]
    simp
  have hd1 : (ds ++ w).drop (0 + ([] : List Char).length) = ds ++ w := by simp
  have hd2 : (ds ++ w).drop (0 + ([] : List Char).length + ds.length) = w :=
    drop_of_append hd1
  have hd2b : (ds ++ w).drop (0 + ([] : List Char).length + ds.length) = [] ++ w := hd2
  have hd3 : (ds ++ w).drop (0 + ([] : List Char).length + ds.length
      + ([] : List Char).length) = w := hd2
  have hd3b : (ds ++ w).drop (0 + ([] : List Char).length + ds.length
      + ([] : List Char).length) = w ++ [] := by rw [hd3]; simp
  have hd4 : (ds ++ w).drop (0 + ([] : List Char).length + ds.length
      + ([] : List Char).length + w.length) = [] ++ [] := drop_of_append hd3b
  have hwtw : w.takeWhile (fun x => x != NUL && (isalnum x || x == '_')) = w := by
    have := @takeWhile_stop (fun x => x != NUL && (isalnum x || x == '_')) w [] hword
      (by intro x r h; cases h)
    simpa using this
  have hnotdot : ((w.headD NUL == '.') = true) = False := by
    rw [hwhead]; simpa using hc4
  have hguard : ((!isalpha (w.headD NUL) && w.headD NUL != '_') = true) = False := by
    rw [hwhead]
    rcases hc with h | h
    · simp [h]
    · simp [h]
  have hfuel : (ds ++ w).length + 1 = ((ds ++ w).length - 2) + 1 + 1 + 1 := by
    have : 2 ≤ (ds ++ w).length := by simp; omega
    omega
  have hkw : (keywords.contains w = true)
      = (w = ['i', 'f'] ∨ w = ['e', 'l', 's', 'e'] ∨ w = ['p', 'r', 'i', 'n', 't']) := by
    simp [keywords]
  unfold Lexer.tokenize
  rw [Lexer.new_eq, hfuel, Lexer.loop_number _ [] hdrop0 (by simp) hhead hscan, Lexer.number_eq]
  rw [hd1, digits_takeWhile hds (by rw [hwhead]; exact hc3), hd2]
  simp only [hnotdot, if_false]
  rw [Lexer.loop_identifier _ _ hd2b (by simp) (by rw [hwhead]; exact hc), Lexer.identifier_eq]
  rw [hd3]
  simp only [hguard, if_false, hwtw, hkw]
  by_cases hk : w = ['i', 'f'] ∨ w = ['e', 'l', 's', 'e'] ∨ w = ['p', 'r', 'i', 'n', 't']
  · rw [if_pos hk, if_pos hk]
    simp only
    rw [Lexer.loop_end _ _ hd4 (by simp) rfl]
    simp
  · rw [if_neg hk, if_neg hk]
    simp only
    rw [Lexer.loop_end _ _ hd4 (by simp) rfl]
    simp

/-- C20, instance: the theorem applied to a concrete input. -/
theorem C20_digits_then_word_witness :
    (2 ≤ ['0', '7'].length ∧ (∀ c ∈ ['0', '7'], isdigit c = true) ∧
      (∃ c cs, ['i', 'f'] = c :: cs ∧ (isalpha c = true ∨ c = '_')) ∧
      (∀ c ∈ ['i', 'f'], isalpha c = true ∨ isdigit c = true ∨ c = '_')) ∧
      Lexer.tokenize (['0', '7'] ++ ['i', 'f']) = Result.ok
        [Token.mk TokenType.INTEGER ['0', '7'] 0,
          Token.mk (if ['i', 'f'] = ['i', 'f'] ∨ ['i', 'f'] = ['e', 'l', 's', 'e'] ∨
            ['i', 'f'] = ['p', 'r', 'i', 'n', 't']
            then TokenType.KEYWORD else TokenType.IDENTIFIER) ['i', 'f'] ['0', '7'].length,
          Token.mk TokenType.END_OF_FILE [] (['0', '7'].length + ['i', 'f'].length)] :=
  ⟨⟨by decide, by decide, ⟨'i', ['f'], rfl, Or.inl (by decide)⟩, by decide⟩,
    (C20_digits_then_word ['0', '7'] ['i', 'f'] (by decide) (by decide)
      ⟨'i', ['f'], rfl, Or.inl (by decide)⟩ (by decide)).1⟩

/-! ### The cursor stays inside the token sequence -/

theorem Parser.advance_or_synthetic (p : Parser) :
    p.advance_or Parser.synthetic = p.advance := rfl

theorem Parser.advance_in_range {toks : List Token} (hlast : ends_with_eof toks) {st : Parser}
    (ht : st.tokens = toks) (hin : st.in_range)
    (hty : st.current_token.type ≠ TokenType.END_OF_FILE) :
    st.pos + 1 < toks.length ∧ st.advance.tokens = toks ∧ st.advance.in_range ∧
      ∀ alt, st.advance_or alt = st.advance := by
  obtain ⟨body, eof, hb, he⟩ := hlast
  obtain ⟨hpos, hcur⟩ := hin
  rw [ht] at hpos hcur
  have hlt : st.pos + 1 < toks.length := by
    by_contra hcon
    have hp : st.pos = body.length := by
      rw [hb] at hpos hcon
      simp only [List.length_append, List.length_singleton] at hpos hcon
      omega
    rw [hb, hp] at hcur
    simp only [List.getElem?_concat_length, Option.some.injEq] at hcur
    rw [← hcur] at hty
    exact hty he
  have hlt2 : st.pos + 1 < st.tokens.length := by rw [ht]; exact hlt
  refine ⟨hlt, ?_, ?_, ?_⟩
  · unfold Parser.advance
    rw [if_pos hlt2]
    exact ht
  · unfold Parser.advance
    rw [if_pos hlt2]
    refine ⟨hlt2, ?_⟩
    simp only [List.getD_eq_getElem?_getD]
    rw [List.getElem?_eq_getElem hlt2]
    rfl
  · intro alt
    unfold Parser.advance_or Parser.advance
    rw [if_pos hlt2, if_pos hlt2]

theorem Parser.guard_not_eof (p : Parser) :
    (p.current_token.is_value = true → p.current_token.type ≠ TokenType.END_OF_FILE) ∧
    (p.is_op1 = true → p.current_token.type ≠ TokenType.END_OF_FILE) ∧
    (p.match_token TokenType.KEYWORD ['i', 'f'] = true →
      p.current_token.type ≠ TokenType.END_OF_FILE) ∧
    (p.match_token TokenType.KEYWORD ['e', 'l', 's', 'e'] = true →
      p.current_token.type ≠ TokenType.END_OF_FILE) ∧
    (p.is_statement_alphabet = true → p.current_token.type ≠ TokenType.END_OF_FILE) := by
  refine ⟨fun h => (Token.alphabet_excl (Token.value_alphabet h)).2.2, fun h => ?_, fun h => ?_,
    fun h => ?_, fun h => ?_⟩
  · rw [Parser.is_op1_eq] at h
    exact (Token.alphabet_excl (Token.op1_alphabet h)).2.2
  · rw [Parser.match_token_eq _ _ (List.cons_ne_nil _ _)] at h
    exact Token.keyword_not_eof h
  · rw [Parser.match_token_eq _ _ (List.cons_ne_nil _ _)] at h
    exact Token.keyword_not_eof h
  · rw [Parser.is_statement_alphabet_eq] at h
    exact (Token.alphabet_excl h).2.2

theorem Parser.parse_x_or_eq (alt : Parser → Parser) (p : Parser) :
    p.parse_x_or alt
      = if p.current_token.is_value then (true, p.advance_or alt) else (false, p) := by
  unfold Parser.parse_x_or Token.is_value
  rfl

theorem Parser.new_in_range {toks : List Token} (hlast : ends_with_eof toks) :
    (Parser.new toks).tokens = toks ∧ (Parser.new toks).in_range := by
  obtain ⟨body, eof, hb, _⟩ := hlast
  have hpos : 0 < toks.length := by rw [hb]; simp
  refine ⟨rfl, hpos, ?_⟩
  cases toks with
  | nil => simp at hpos
  | cons t r => simp [Parser.new]

theorem Parser.parse_x_in_range {toks : List Token} (hlast : ends_with_eof toks) {st : Parser}
    (ht : st.tokens = toks) (hin : st.in_range) :
    st.parse_x.2.tokens = toks ∧ st.parse_x.2.in_range ∧
      ∀ alt, st.parse_x_or alt = st.parse_x := by
  rw [Parser.parse_x_eq]
  by_cases hv : st.current_token.is_value = true
  · obtain ⟨_, h2, h3, h4⟩ :=
      Parser.advance_in_range hlast ht hin ((Parser.guard_not_eof st).1 hv)
    rw [if_pos hv]
    refine ⟨h2, h3, fun alt => ?_⟩
    rw [Parser.parse_x_or_eq, if_pos hv, h4]
  · rw [if_neg hv]
    refine ⟨ht, hin, fun alt => ?_⟩
    rw [Parser.parse_x_or_eq, if_neg hv]

theorem Parser.parse_cond_in_range {toks : List Token} (hlast : ends_with_eof toks)
    {st : Parser} (ht : st.tokens = toks) (hin : st.in_range) :
    (∀ alt, st.parse_cond_or alt = st.parse_cond) ∧
      ∀ st2, st.parse_cond = Result.ok st2 → st2.tokens = toks ∧ st2.in_range := by
  have hor : ∀ alt, st.parse_cond_or alt = st.parse_cond := by
    intro alt
    unfold Parser.parse_cond_or Parser.parse_cond
    rw [(Parser.parse_x_in_range hlast ht hin).2.2 alt, Parser.parse_x_eq]
    by_cases hv : st.current_token.is_value = true
    swap
    · rw [if_neg hv]
    obtain ⟨_, h2, h3, _⟩ :=
      Parser.advance_in_range hlast ht hin ((Parser.guard_not_eof st).1 hv)
    rw [if_pos hv]
    simp only
    by_cases hop : st.advance.is_op1 = true
    swap
    · rw [if_neg hop, if_neg hop]
    obtain ⟨_, k2, k3, k4⟩ :=
      Parser.advance_in_range hlast h2 h3 ((Parser.guard_not_eof st.advance).2.1 hop)
    rw [if_pos hop, if_pos hop, k4 alt, (Parser.parse_x_in_range hlast k2 k3).2.2 alt,
      Parser.parse_x_eq]
    by_cases hw : st.advance.advance.current_token.is_value = true
    · rw [if_pos hw]
    · rw [if_neg hw]
      simp only
      have hback : Parser.mk st.advance.advance.tokens st.pos st.current_token = st := by
        rw [k2, ← ht]
      rw [hback, (Parser.parse_x_in_range hlast ht hin).2.2 alt]
  refine ⟨hor, ?_⟩
  intro st2 h
  unfold Parser.parse_cond at h
  rw [Parser.parse_x_eq] at h
  by_cases hv : st.current_token.is_value = true
  swap
  · rw [if_neg hv] at h
    cases h
  obtain ⟨_, h2, h3, _⟩ :=
    Parser.advance_in_range hlast ht hin ((Parser.guard_not_eof st).1 hv)
  rw [if_pos hv] at h
  simp only at h
  by_cases hop : st.advance.is_op1 = true
  swap
  · rw [if_neg hop] at h
    injection h with h
    rw [← h]
    exact ⟨h2, h3⟩
  obtain ⟨_, k2, k3, _⟩ :=
    Parser.advance_in_range hlast h2 h3 ((Parser.guard_not_eof st.advance).2.1 hop)
  rw [if_pos hop, Parser.parse_x_eq] at h
  by_cases hw : st.advance.advance.current_token.is_value = true
  · obtain ⟨_, m2, m3, _⟩ :=
      Parser.advance_in_range hlast k2 k3 ((Parser.guard_not_eof st.advance.advance).1 hw)
    rw [if_pos hw] at h
    injection h with h
    rw [← h]
    exact ⟨m2, m3⟩
  · rw [if_neg hw] at h
    simp only at h
    have hback : Parser.mk st.advance.advance.tokens st.pos st.current_token = st := by
      rw [k2, ← ht]
    rw [hback, Parser.parse_x_eq, if_pos hv] at h
    injection h with h
    rw [← h]
    exact ⟨h2, h3⟩

theorem Parser.parse_A_in_range {toks : List Token} (hlast : ends_with_eof toks)
    (alt : Parser → Parser) (f g : Parser → Result Parser)
    (hfg : ∀ st : Parser, st.tokens = toks → st.in_range →
      g st = f st ∧ ∀ st2, f st = Result.ok st2 → st2.tokens = toks ∧ st2.in_range)
    {st : Parser} (ht : st.tokens = toks) (hin : st.in_range) :
    Parser.parse_A_or alt g st = Parser.parse_A f st ∧
      ∀ st2, Parser.parse_A f st = Result.ok st2 → st2.tokens = toks ∧ st2.in_range := by
  obtain ⟨hc1, hc2⟩ := Parser.parse_cond_in_range hlast ht hin
  unfold Parser.parse_A_or Parser.parse_A
  rw [hc1 alt]
  cases hpc : st.parse_cond with
  | error e => exact ⟨rfl, fun st2 h => by cases h⟩
  | outOfFuel => exact ⟨rfl, fun st2 h => by cases h⟩
  | ok p1 =>
    obtain ⟨t1, i1⟩ := hc2 p1 hpc
    obtain ⟨e1, r1⟩ := hfg p1 t1 i1
    simp only
    rw [e1]
    cases hf1 : f p1 with
    | error e => exact ⟨rfl, fun st2 h => by cases h⟩
    | outOfFuel => exact ⟨rfl, fun st2 h => by cases h⟩
    | ok p2 =>
      obtain ⟨t2, i2⟩ := r1 p2 hf1
      simp only
      by_cases hel : p2.match_token TokenType.KEYWORD ['e', 'l', 's', 'e'] = true
      · obtain ⟨_, t3, i3, a3⟩ :=
          Parser.advance_in_range hlast t2 i2 ((Parser.guard_not_eof p2).2.2.2.1 hel)
        obtain ⟨e3, r3⟩ := hfg p2.advance t3 i3
        rw [if_pos hel, if_pos hel, a3 alt, e3]
        exact ⟨rfl, r3⟩
      · rw [if_neg hel, if_neg hel]
        refine ⟨rfl, fun st2 h => ?_⟩
        injection h with h
        rw [← h]
        exact ⟨t2, i2⟩

theorem Parser.parse_statement_in_range {toks : List Token} (hlast : ends_with_eof toks)
    (alt : Parser → Parser) :
    ∀ (n : Nat) (st : Parser), st.tokens = toks → st.in_range →
      Parser.parse_statement_or alt n st = Parser.parse_statement n st ∧
        ∀ st2, Parser.parse_statement n st = Result.ok st2 →
          st2.tokens = toks ∧ st2.in_range := by
  intro n
  induction n with
  | zero =>
    intro st _ _
    exact ⟨rfl, fun st2 h => by cases h⟩
  | succ n ih =>
    intro st ht hin
    rw [Parser.parse_statement_or, Parser.parse_statement]
    by_cases h1 : st.match_token TokenType.KEYWORD ['e', 'l', 's', 'e'] = true
    · rw [if_pos h1, if_pos h1]
      exact ⟨rfl, fun st2 h => by cases h⟩
    rw [if_neg h1, if_neg h1]
    by_cases h2 : st.match_token TokenType.KEYWORD ['i', 'f'] = true
    · obtain ⟨_, t3, i3, a3⟩ :=
        Parser.advance_in_range hlast ht hin ((Parser.guard_not_eof st).2.2.1 h2)
      rw [if_pos h2, if_pos h2, a3 alt]
      exact Parser.parse_A_in_range hlast alt _ _ ih t3 i3
    rw [if_neg h2, if_neg h2]
    by_cases h3 : st.is_statement_alphabet = true
    · obtain ⟨_, t3, i3, a3⟩ :=
        Parser.advance_in_range hlast ht hin ((Parser.guard_not_eof st).2.2.2.2 h3)
      rw [if_pos h3, if_pos h3, a3 alt]
      by_cases h4 : st.advance.is_statement_start = true
      · rw [if_pos h4, if_pos h4]
        exact ih st.advance t3 i3
      · rw [if_neg h4, if_neg h4]
        refine ⟨rfl, fun st2 h => ?_⟩
        injection h with h
        rw [← h]
        exact ⟨t3, i3⟩
    · rw [if_neg h3, if_neg h3]
      exact ⟨rfl, fun st2 h => by cases h⟩

/-- C17: for every token sequence whose last token is `END_OF_FILE`, the predicate
`pos < tokens.size()` and `current_token` equals `tokens[pos]` holds in the initial parser
state and is preserved by every parser operation run during `Parser::parse`: by `advance` as
the rules call it (on a token that passed one of their tests, hence not an `END_OF_FILE`
token), by `parse_x`, by `parse_cond` with its restore of the checkpoint, by `parse_A` and by
`parse_statement`.  Hence the cursor never runs past the sequence and the synthetic
`END_OF_FILE` branch of `Parser::advance` is never taken: replacing that branch by anything
at all changes nothing in `Parser::parse`. -/
theorem C17_cursor_stays_in_range (toks : List Token) (hlast : ends_with_eof toks) :
    (Parser.new toks).tokens = toks ∧ (Parser.new toks).in_range ∧
    (∀ st : Parser, st.tokens = toks → st.in_range →
      (st.parse_x.1 = true ∨ st.is_op1 = true ∨
        st.match_token TokenType.KEYWORD ['i', 'f'] = true ∨
        st.match_token TokenType.KEYWORD ['e', 'l', 's', 'e'] = true ∨
        st.is_statement_alphabet = true) →
      st.pos + 1 < st.tokens.length ∧ st.advance.tokens = toks ∧ st.advance.in_range) ∧
    (∀ st : Parser, st.tokens = toks → st.in_range →
      st.parse_x.2.tokens = toks ∧ st.parse_x.2.in_range) ∧
    (∀ st st2 : Parser, st.tokens = toks → st.in_range → st.parse_cond = Result.ok st2 →
      st2.tokens = toks ∧ st2.in_range) ∧
    (∀ (n : Nat) (st st2 : Parser), st.tokens = toks → st.in_range →
      Parser.parse_A (Parser.parse_statement n) st = Result.ok st2 →
      st2.tokens = toks ∧ st2.in_range) ∧
    (∀ (n : Nat) (st st2 : Parser), st.tokens = toks → st.in_range →
      Parser.parse_statement n st = Result.ok st2 → st2.tokens = toks ∧ st2.in_range) ∧
    (∀ alt : Parser → Parser, Parser.parse_or alt toks = Parser.parse toks) := by
  refine ⟨(Parser.new_in_range hlast).1, (Parser.new_in_range hlast).2, ?_, ?_, ?_, ?_, ?_, ?_⟩
  · intro st ht hin hguard
    have hty : st.current_token.type ≠ TokenType.END_OF_FILE := by
      obtain ⟨g1, g2, g3, g4, g5⟩ := Parser.guard_not_eof st
      rcases hguard with h | h | h | h | h
      · apply g1
        rw [Parser.parse_x_eq] at h
        by_cases hv : st.current_token.is_value = true
        · exact hv
        · rw [if_neg hv] at h
          cases h
      · exact g2 h
      · exact g3 h
      · exact g4 h
      · exact g5 h
    obtain ⟨h1, h2, h3, _⟩ := Parser.advance_in_range hlast ht hin hty
    exact ⟨by rw [ht]; exact h1, h2, h3⟩
  · intro st ht hin
    obtain ⟨h1, h2, _⟩ := Parser.parse_x_in_range hlast ht hin
    exact ⟨h1, h2⟩
  · intro st st2 ht hin h
    exact (Parser.parse_cond_in_range hlast ht hin).2 st2 h
  · intro n st st2 ht hin h
    exact (Parser.parse_A_in_range hlast (fun q => q) _ _
      (Parser.parse_statement_in_range hlast (fun q => q) n) ht hin).2 st2 h
  · intro n st st2 ht hin h
    exact (Parser.parse_statement_in_range hlast (fun q => q) n st ht hin).2 st2 h
  · intro alt
    unfold Parser.parse_or Parser.parse Parser.parseS
    rw [(Parser.parse_statement_in_range hlast alt _ _ (Parser.new_in_range hlast).1
      (Parser.new_in_range hlast).2).1]

/-- C17, instance: the theorem applied to a concrete input. -/
theorem C17_cursor_stays_in_range_witness :
    ends_with_eof [Token.mk TokenType.KEYWORD ['i', 'f'] 0, Token.mk TokenType.IDENTIFIER ['x'] 3,
        Token.mk TokenType.SYMBOL ['+'] 5, Token.mk TokenType.END_OF_FILE [] 6] ∧
      (Parser.new [Token.mk TokenType.KEYWORD ['i', 'f'] 0, Token.mk TokenType.IDENTIFIER ['x'] 3,
        Token.mk TokenType.SYMBOL ['+'] 5, Token.mk TokenType.END_OF_FILE [] 6]).in_range ∧
      ∀ alt : Parser → Parser,
        Parser.parse_or alt [Token.mk TokenType.KEYWORD ['i', 'f'] 0,
          Token.mk TokenType.IDENTIFIER ['x'] 3, Token.mk TokenType.SYMBOL ['+'] 5,
          Token.mk TokenType.END_OF_FILE [] 6]
        = Parser.parse [Token.mk TokenType.KEYWORD ['i', 'f'] 0,
          Token.mk TokenType.IDENTIFIER ['x'] 3, Token.mk TokenType.SYMBOL ['+'] 5,
          Token.mk TokenType.END_OF_FILE [] 6] :=
  have hlast : ends_with_eof [Token.mk TokenType.KEYWORD ['i', 'f'] 0,
      Token.mk TokenType.IDENTIFIER ['x'] 3, Token.mk TokenType.SYMBOL ['+'] 5,
      Token.mk TokenType.END_OF_FILE [] 6] :=
    ⟨[Token.mk TokenType.KEYWORD ['i', 'f'] 0, Token.mk TokenType.IDENTIFIER ['x'] 3,
      Token.mk TokenType.SYMBOL ['+'] 5], Token.mk TokenType.END_OF_FILE [] 6, rfl, rfl⟩
  ⟨hlast, (C17_cursor_stays_in_range _ hlast).2.1,
    (C17_cursor_stays_in_range _ hlast).2.2.2.2.2.2.2⟩

/-- C18: for every token sequence and every parser state, whenever `Parser::parse_statement`
returns successfully the current token is either `END_OF_FILE` or KEYWORD `else`; consequently
the trailing-input `SyntaxError` of `Parser::parse` is raised only when the token left over
after `S` is an `else`. -/
theorem C18_statement_stops_at_eof_or_else (n : Nat) (st st2 : Parser)
    (h : Parser.parse_statement n st = Result.ok st2) :
    (st2.current_token.type = TokenType.END_OF_FILE ∨
      (st2.current_token.type = TokenType.KEYWORD ∧
        st2.current_token.value = ['e', 'l', 's', 'e'])) ∧
    ∀ (toks : List Token) (p : Parser),
      Parser.parseS (toks.length + 1) (Parser.new toks) = Result.ok p →
      p.current_token.type ≠ TokenType.END_OF_FILE →
      p.current_token.type = TokenType.KEYWORD ∧ p.current_token.value = ['e', 'l', 's', 'e']
    := by
  have key : ∀ (n : Nat) (st st2 : Parser), Parser.parse_statement n st = Result.ok st2 →
      (st2.current_token.type = TokenType.END_OF_FILE ∨
        (st2.current_token.type = TokenType.KEYWORD ∧
          st2.current_token.value = ['e', 'l', 's', 'e'])) := by
    intro n
    induction n with
    | zero => intro st st2 h; cases h
    | succ n ih =>
      intro st st2 h
      rw [Parser.parse_statement] at h
      split at h
      · cases h
      split at h
      · unfold Parser.parse_A at h
        split at h
        · rename_i p1 _
          split at h
          · rename_i p2 hp2
            split at h
            · exact ih _ _ h
            · injection h with h
              rw [← h]
              exact ih _ _ hp2
          · cases h
          · cases h
        · cases h
        · cases h
      split at h
      · split at h
        · exact ih _ _ h
        · rename_i hns
          injection h with h
          rw [← h]
          rw [Parser.is_statement_start_eq] at hns
          rcases Token.classes st.advance.current_token with c | c | c | c
          · rw [c] at hns; simp at hns
          · rw [c] at hns; simp at hns
          · exact Or.inr (Token.keyword_excl c)
          · exact Or.inl c
      · cases h
  refine ⟨key n st st2 h, fun toks p hp hne => ?_⟩
  rcases key _ _ _ hp with c | c
  · exact absurd c hne
  · exact c

/-- C18, instance: the theorem applied to a concrete input. -/
theorem C18_statement_stops_at_eof_or_else_witness :
    Parser.parse_statement 3
        (Parser.new [Token.mk TokenType.IDENTIFIER ['x'] 0,
          Token.mk TokenType.KEYWORD ['e', 'l', 's', 'e'] 2,
          Token.mk TokenType.IDENTIFIER ['y'] 7, Token.mk TokenType.END_OF_FILE [] 8])
      = Result.ok (Parser.mk [Token.mk TokenType.IDENTIFIER ['x'] 0,
          Token.mk TokenType.KEYWORD ['e', 'l', 's', 'e'] 2,
          Token.mk TokenType.IDENTIFIER ['y'] 7, Token.mk TokenType.END_OF_FILE [] 8] 1
          (Token.mk TokenType.KEYWORD ['e', 'l', 's', 'e'] 2)) ∧
      ((Token.mk TokenType.KEYWORD ['e', 'l', 's', 'e'] 2).type = TokenType.END_OF_FILE ∨
        ((Token.mk TokenType.KEYWORD ['e', 'l', 's', 'e'] 2).type = TokenType.KEYWORD ∧
          (Token.mk TokenType.KEYWORD ['e', 'l', 's', 'e'] 2).value = ['e', 'l', 's', 'e'])) :=
  ⟨by decide,
    (C18_statement_stops_at_eof_or_else 3
      (Parser.new [Token.mk TokenType.IDENTIFIER ['x'] 0,
        Token.mk TokenType.KEYWORD ['e', 'l', 's', 'e'] 2,
        Token.mk TokenType.IDENTIFIER ['y'] 7, Token.mk TokenType.END_OF_FILE [] 8])
      (Parser.mk [Token.mk TokenType.IDENTIFIER ['x'] 0,
        Token.mk TokenType.KEYWORD ['e', 'l', 's', 'e'] 2,
        Token.mk TokenType.IDENTIFIER ['y'] 7, Token.mk TokenType.END_OF_FILE [] 8] 1
        (Token.mk TokenType.KEYWORD ['e', 'l', 's', 'e'] 2)) (by decide)).1⟩

/-! ### The cursor after `parse_cond` -/

theorem Parser.eq_sync_of_in_range {st : Parser} (hin : st.in_range) :
    st = Parser.sync st.tokens st.pos := by
  obtain ⟨_, hcur⟩ := hin
  cases st with
  | mk toks p cur =>
    simp only at hcur
    simp [Parser.sync, List.getD_eq_getElem?_getD, hcur]

theorem look_mem_or (toks : List Token) (i : Nat) :
    look toks i ∈ toks ∨ look toks i = Token.mk TokenType.END_OF_FILE [] i := by
  cases h : toks.drop i with
  | nil => exact Or.inr (look_nil h)
  | cons t r =>
    left
    rw [(look_cons h).1]
    exact List.mem_of_mem_drop (by rw [h]; exact List.mem_cons_self _ _)

theorem lcond_look (toks : List Token) (p : Nat) :
    lcond (toks.drop p) =
      if (look toks p).is_value = true then
        if ((look toks (p + 1)).is_op1 && (look toks (p + 2)).is_value) = true then some 3
        else some 1
      else none := by
  have hsyn : ∀ q, (Token.mk TokenType.END_OF_FILE [] q).is_value = false := fun _ => rfl
  have hsyn2 : ∀ q, (Token.mk TokenType.END_OF_FILE [] q).is_op1 = false := fun _ => rfl
  cases h : toks.drop p with
  | nil => simp [lcond, look_nil h, hsyn]
  | cons v rest =>
    obtain ⟨hv, hrest⟩ := look_cons h
    rw [hv]
    cases h1 : rest with
    | nil =>
      rw [h1] at hrest
      simp [lcond, look_nil hrest, hsyn2]
    | cons o rest2 =>
      rw [h1] at hrest
      obtain ⟨ho, hrest2⟩ := look_cons hrest
      rw [ho]
      cases h2 : rest2 with
      | nil =>
        rw [h2] at hrest2
        simp [lcond, look_nil hrest2, hsyn]
      | cons w rest3 =>
        rw [h2] at hrest2
        rw [(look_cons hrest2).1]
        simp [lcond]

theorem Token.is_op1_eq_op1 {t : Token}
    (h : t.type = TokenType.SYMBOL → t.value.length = 1) : t.is_op1 = Grammar.op1 t := by
  unfold Token.is_op1 Grammar.op1
  by_cases hty : t.type = TokenType.SYMBOL
  · obtain ⟨c, hc⟩ := List.length_eq_one.mp (h hty)
    rw [hty, hc]
    simp [Bool.or_assoc]
    rfl
  · have : (t.type == TokenType.SYMBOL) = false := by simpa using hty
    rw [this]
    rfl

/-- C16, as amended: for every `END_OF_FILE`-terminated token sequence in which every SYMBOL
token has a one-character text (as every SYMBOL token of the tokenizer has) and every parser
state with cursor `p` and current token `tokens[p]`: `Parser::parse_cond` raises `SyntaxError`
exactly when `tokens[p]` is not a value; otherwise it succeeds and leaves the cursor at `p+3`
when `tokens[p+1]` is an op1 symbol and `tokens[p+2]` is a value, and at `p+1` in every other
case, the current token being the token at the cursor (so an operator whose right-hand side is
not a value is left unconsumed as the current token). -/
theorem C16_parse_cond_cursor (st : Parser)
    (_hterm : ends_with_eof st.tokens) (hin : st.in_range)
    (hsym : ∀ t ∈ st.tokens, t.type = TokenType.SYMBOL → t.value.length = 1) :
    (st.parse_cond = Result.error Error.SyntaxError ↔
      Grammar.value st.current_token = false) ∧
    (Grammar.value st.current_token = true →
      ∃ st2, st.parse_cond = Result.ok st2 ∧ st2.tokens = st.tokens ∧
        st2.current_token = look st.tokens st2.pos ∧
        st2.pos = if (Grammar.op1 (look st.tokens (st.pos + 1)) &&
            Grammar.value (look st.tokens (st.pos + 2))) = true
          then st.pos + 3 else st.pos + 1) := by
  have hop : (look st.tokens (st.pos + 1)).is_op1 = Grammar.op1 (look st.tokens (st.pos + 1)) := by
    apply Token.is_op1_eq_op1
    rcases look_mem_or st.tokens (st.pos + 1) with h | h
    · exact hsym _ h
    · rw [h]; intro hh; cases hh
  have hcur : st.current_token = look st.tokens st.pos := by
    have h := congrArg Parser.current_token (Parser.eq_sync_of_in_range hin)
    rw [Parser.current_of_sync] at h
    exact h
  have hpc := Parser.parse_cond_sync st.tokens st.pos
  rw [← Parser.eq_sync_of_in_range hin, lcond_look, ← hcur, hop] at hpc
  simp only [Grammar.value_eq]
  by_cases hv : st.current_token.is_value = true
  · rw [if_pos hv] at hpc
    have hex : ∃ st2, st.parse_cond = Result.ok st2 ∧ st2.tokens = st.tokens ∧
        st2.current_token = look st.tokens st2.pos ∧
        st2.pos = if (Grammar.op1 (look st.tokens (st.pos + 1)) &&
            (look st.tokens (st.pos + 2)).is_value) = true
          then st.pos + 3 else st.pos + 1 := by
      by_cases hb : (Grammar.op1 (look st.tokens (st.pos + 1)) &&
          (look st.tokens (st.pos + 2)).is_value) = true
      · rw [if_pos hb] at hpc
        refine ⟨_, hpc, rfl, ?_, ?_⟩
        · rw [Parser.current_of_sync, Parser.pos_of_sync]
        · rw [Parser.pos_of_sync, if_pos hb]
      · rw [if_neg hb] at hpc
        refine ⟨_, hpc, rfl, ?_, ?_⟩
        · rw [Parser.current_of_sync, Parser.pos_of_sync]
        · rw [Parser.pos_of_sync, if_neg hb]
    refine ⟨?_, fun _ => hex⟩
    rw [hv]
    constructor
    · intro h
      obtain ⟨st2, h2, _⟩ := hex
      rw [h2] at h
      cases h
    · intro h; cases h
  · rw [if_neg hv] at hpc
    refine ⟨?_, fun h => absurd h hv⟩
    constructor
    · intro _; simpa using hv
    · intro _; exact hpc

/-- C16, as stated, fails: in the sequence IDENTIFIER `x`, SYMBOL with the two-character text
`<=`, IDENTIFIER `y`, `END_OF_FILE`, with the cursor at 0, the token after `x` is not an op1
symbol (its text is none of the eight operators), so the claim puts the cursor at 1; but
`is_op1` tests the first character only, `parse_cond` takes the binary form and leaves the
cursor at 3. -/
theorem C16_counterexample :
    ends_with_eof [Token.mk TokenType.IDENTIFIER ['x'] 0, Token.mk TokenType.SYMBOL ['<', '='] 2,
        Token.mk TokenType.IDENTIFIER ['y'] 5, Token.mk TokenType.END_OF_FILE [] 6] ∧
      (Parser.new [Token.mk TokenType.IDENTIFIER ['x'] 0, Token.mk TokenType.SYMBOL ['<', '='] 2,
        Token.mk TokenType.IDENTIFIER ['y'] 5, Token.mk TokenType.END_OF_FILE [] 6]).in_range ∧
      Grammar.value (Token.mk TokenType.IDENTIFIER ['x'] 0) = true ∧
      Grammar.op1 (look [Token.mk TokenType.IDENTIFIER ['x'] 0,
        Token.mk TokenType.SYMBOL ['<', '='] 2, Token.mk TokenType.IDENTIFIER ['y'] 5,
        Token.mk TokenType.END_OF_FILE [] 6] (0 + 1)) = false ∧
      (Parser.new [Token.mk TokenType.IDENTIFIER ['x'] 0, Token.mk TokenType.SYMBOL ['<', '='] 2,
        Token.mk TokenType.IDENTIFIER ['y'] 5, Token.mk TokenType.END_OF_FILE [] 6]).parse_cond
        = Result.ok (Parser.mk [Token.mk TokenType.IDENTIFIER ['x'] 0,
            Token.mk TokenType.SYMBOL ['<', '='] 2, Token.mk TokenType.IDENTIFIER ['y'] 5,
            Token.mk TokenType.END_OF_FILE [] 6] 3 (Token.mk TokenType.END_OF_FILE [] 6)) ∧
      ¬ ∃ st2, (Parser.new [Token.mk TokenType.IDENTIFIER ['x'] 0,
          Token.mk TokenType.SYMBOL ['<', '='] 2, Token.mk TokenType.IDENTIFIER ['y'] 5,
          Token.mk TokenType.END_OF_FILE [] 6]).parse_cond = Result.ok st2 ∧
        st2.pos = if (Grammar.op1 (look [Token.mk TokenType.IDENTIFIER ['x'] 0,
            Token.mk TokenType.SYMBOL ['<', '='] 2, Token.mk TokenType.IDENTIFIER ['y'] 5,
            Token.mk TokenType.END_OF_FILE [] 6] (0 + 1)) &&
          Grammar.value (look [Token.mk TokenType.IDENTIFIER ['x'] 0,
            Token.mk TokenType.SYMBOL ['<', '='] 2, Token.mk TokenType.IDENTIFIER ['y'] 5,
            Token.mk TokenType.END_OF_FILE [] 6] (0 + 2))) = true
          then 0 + 3 else 0 + 1 := by
  have hrun : (Parser.new [Token.mk TokenType.IDENTIFIER ['x'] 0,
      Token.mk TokenType.SYMBOL ['<', '='] 2, Token.mk TokenType.IDENTIFIER ['y'] 5,
      Token.mk TokenType.END_OF_FILE [] 6]).parse_cond
      = Result.ok (Parser.mk [Token.mk TokenType.IDENTIFIER ['x'] 0,
          Token.mk TokenType.SYMBOL ['<', '='] 2, Token.mk TokenType.IDENTIFIER ['y'] 5,
          Token.mk TokenType.END_OF_FILE [] 6] 3 (Token.mk TokenType.END_OF_FILE [] 6)) := by
    decide
  refine ⟨⟨[Token.mk TokenType.IDENTIFIER ['x'] 0, Token.mk TokenType.SYMBOL ['<', '='] 2,
    Token.mk TokenType.IDENTIFIER ['y'] 5], Token.mk TokenType.END_OF_FILE [] 6, rfl, rfl⟩,
    ⟨by decide, by decide⟩, rfl, by decide, hrun, ?_⟩
  rintro ⟨st2, h, hp⟩
  rw [hrun] at h
  injection h with h
  rw [← h] at hp
  revert hp
  decide

/-- C16, instance: the theorem applied to `x + y` with the cursor at 0, where the condition is
read in its binary form and the cursor is left at 3. -/
theorem C16_parse_cond_cursor_witness :
    (ends_with_eof (Parser.new [Token.mk TokenType.IDENTIFIER ['x'] 0,
        Token.mk TokenType.SYMBOL ['+'] 2, Token.mk TokenType.IDENTIFIER ['y'] 4,
        Token.mk TokenType.END_OF_FILE [] 5]).tokens ∧
      (Parser.new [Token.mk TokenType.IDENTIFIER ['x'] 0, Token.mk TokenType.SYMBOL ['+'] 2,
        Token.mk TokenType.IDENTIFIER ['y'] 4, Token.mk TokenType.END_OF_FILE [] 5]).in_range ∧
      (∀ t ∈ (Parser.new [Token.mk TokenType.IDENTIFIER ['x'] 0,
        Token.mk TokenType.SYMBOL ['+'] 2, Token.mk TokenType.IDENTIFIER ['y'] 4,
        Token.mk TokenType.END_OF_FILE [] 5]).tokens,
        t.type = TokenType.SYMBOL → t.value.length = 1) ∧
      Grammar.value (Parser.new [Token.mk TokenType.IDENTIFIER ['x'] 0,
        Token.mk TokenType.SYMBOL ['+'] 2, Token.mk TokenType.IDENTIFIER ['y'] 4,
        Token.mk TokenType.END_OF_FILE [] 5]).current_token = true) ∧
      (∃ st2, (Parser.new [Token.mk TokenType.IDENTIFIER ['x'] 0,
          Token.mk TokenType.SYMBOL ['+'] 2, Token.mk TokenType.IDENTIFIER ['y'] 4,
          Token.mk TokenType.END_OF_FILE [] 5]).parse_cond = Result.ok st2 ∧
        st2.tokens = (Parser.new [Token.mk TokenType.IDENTIFIER ['x'] 0,
          Token.mk TokenType.SYMBOL ['+'] 2, Token.mk TokenType.IDENTIFIER ['y'] 4,
          Token.mk TokenType.END_OF_FILE [] 5]).tokens ∧
        st2.current_token = look (Parser.new [Token.mk TokenType.IDENTIFIER ['x'] 0,
          Token.mk TokenType.SYMBOL ['+'] 2, Token.mk TokenType.IDENTIFIER ['y'] 4,
          Token.mk TokenType.END_OF_FILE [] 5]).tokens st2.pos ∧
        st2.pos = if (Grammar.op1 (look (Parser.new [Token.mk TokenType.IDENTIFIER ['x'] 0,
              Token.mk TokenType.SYMBOL ['+'] 2, Token.mk TokenType.IDENTIFIER ['y'] 4,
              Token.mk TokenType.END_OF_FILE [] 5]).tokens
              ((Parser.new [Token.mk TokenType.IDENTIFIER ['x'] 0,
                Token.mk TokenType.SYMBOL ['+'] 2, Token.mk TokenType.IDENTIFIER ['y'] 4,
                Token.mk TokenType.END_OF_FILE [] 5]).pos + 1)) &&
            Grammar.value (look (Parser.new [Token.mk TokenType.IDENTIFIER ['x'] 0,
              Token.mk TokenType.SYMBOL ['+'] 2, Token.mk TokenType.IDENTIFIER ['y'] 4,
              Token.mk TokenType.END_OF_FILE [] 5]).tokens
              ((Parser.new [Token.mk TokenType.IDENTIFIER ['x'] 0,
                Token.mk TokenType.SYMBOL ['+'] 2, Token.mk TokenType.IDENTIFIER ['y'] 4,
                Token.mk TokenType.END_OF_FILE [] 5]).pos + 2))) = true
          then (Parser.new [Token.mk TokenType.IDENTIFIER ['x'] 0,
            Token.mk TokenType.SYMBOL ['+'] 2, Token.mk TokenType.IDENTIFIER ['y'] 4,
            Token.mk TokenType.END_OF_FILE [] 5]).pos + 3
          else (Parser.new [Token.mk TokenType.IDENTIFIER ['x'] 0,
            Token.mk TokenType.SYMBOL ['+'] 2, Token.mk TokenType.IDENTIFIER ['y'] 4,
            Token.mk TokenType.END_OF_FILE [] 5]).pos + 1) ∧
      (Parser.new [Token.mk TokenType.IDENTIFIER ['x'] 0, Token.mk TokenType.SYMBOL ['+'] 2,
        Token.mk TokenType.IDENTIFIER ['y'] 4, Token.mk TokenType.END_OF_FILE [] 5]).parse_cond
        = Result.ok (Parser.mk [Token.mk TokenType.IDENTIFIER ['x'] 0,
            Token.mk TokenType.SYMBOL ['+'] 2, Token.mk TokenType.IDENTIFIER ['y'] 4,
            Token.mk TokenType.END_OF_FILE [] 5] 3 (Token.mk TokenType.END_OF_FILE [] 5)) :=
  ⟨⟨⟨[Token.mk TokenType.IDENTIFIER ['x'] 0, Token.mk TokenType.SYMBOL ['+'] 2,
      Token.mk TokenType.IDENTIFIER ['y'] 4], Token.mk TokenType.END_OF_FILE [] 5, rfl, rfl⟩,
      ⟨by decide, by decide⟩, by decide, rfl⟩,
    (C16_parse_cond_cursor (Parser.new [Token.mk TokenType.IDENTIFIER ['x'] 0,
      Token.mk TokenType.SYMBOL ['+'] 2, Token.mk TokenType.IDENTIFIER ['y'] 4,
      Token.mk TokenType.END_OF_FILE [] 5])
      ⟨[Token.mk TokenType.IDENTIFIER ['x'] 0, Token.mk TokenType.SYMBOL ['+'] 2,
        Token.mk TokenType.IDENTIFIER ['y'] 4], Token.mk TokenType.END_OF_FILE [] 5, rfl, rfl⟩
      ⟨by decide, by decide⟩ (by decide)).2 rfl, by decide⟩

theorem parse_atoms (body : List Token) (eof : Token) (hne : body ≠ [])
    (hall : ∀ t ∈ body, t.is_alphabet = true) (heof : eof.type = TokenType.END_OF_FILE) :
    Parser.parse (body ++ [eof]) = Result.ok () := by
  have hst : starts_statement [eof] = false := by
    simp [starts_statement, Token.is_keyword, Token.is_alphabet, Token.is_value, heof]
  rw [Parser.parse_eq, lstmt_atoms body [eof] _ hne hall hst (by simp; omega)]
  simp only [look_append_length, heof]
  rfl

/-- C11, as amended: an operator with no right-hand value and no further statement following
it is accepted: every statement-alphabet token followed by a SYMBOL token and `END_OF_FILE`
parses without error (the operator is itself a statement-alphabet token); for the input `x + `
tokenizing gives IDENTIFIER, SYMBOL, END_OF_FILE, parsing accepts, and the driver outcome is
`No Error`. -/
theorem C11_trailing_operator_accepted (a o eof : Token) (ha : Grammar.atom a = true)
    (ho : o.type = TokenType.SYMBOL) (heof : eof.type = TokenType.END_OF_FILE) :
    Parser.parse [a, o, eof] = Result.ok () ∧
      Lexer.tokenize ['x', ' ', '+', ' '] = Result.ok
        [Token.mk TokenType.IDENTIFIER ['x'] 0, Token.mk TokenType.SYMBOL ['+'] 2,
          Token.mk TokenType.END_OF_FILE [] 4] ∧
      main ['x', ' ', '+', ' '] = some Verdict.NoError := by
  refine ⟨?_, by decide, by decide⟩
  have hoa : o.is_alphabet = true := by simp [Token.is_alphabet, ho]
  exact parse_atoms [a, o] eof (by simp) (by
    intro t ht
    simp only [List.mem_cons, List.mem_singleton, List.not_mem_nil, or_false] at ht
    rcases ht with rfl | rfl
    · exact ha
    · exact hoa) heof

/-- C11, as stated, fails: the input `x + ` tokenizes, parses, and yields `No Error`, not
`Syntax Error`. -/
theorem C11_counterexample :
    Lexer.tokenize ['x', ' ', '+', ' '] = Result.ok
        [Token.mk TokenType.IDENTIFIER ['x'] 0, Token.mk TokenType.SYMBOL ['+'] 2,
          Token.mk TokenType.END_OF_FILE [] 4] ∧
      Parser.parse [Token.mk TokenType.IDENTIFIER ['x'] 0, Token.mk TokenType.SYMBOL ['+'] 2,
          Token.mk TokenType.END_OF_FILE [] 4] ≠ Result.error Error.SyntaxError ∧
      main ['x', ' ', '+', ' '] ≠ some Verdict.SyntaxError := by
  refine ⟨by decide, by decide, by decide⟩

/-- C11, instance: the theorem applied to a concrete input. -/
theorem C11_trailing_operator_accepted_witness :
    (Grammar.atom (Token.mk TokenType.INTEGER ['7'] 0) = true ∧
      (Token.mk TokenType.SYMBOL ['*'] 1).type = TokenType.SYMBOL ∧
      (Token.mk TokenType.END_OF_FILE [] 2).type = TokenType.END_OF_FILE) ∧
      Parser.parse [Token.mk TokenType.INTEGER ['7'] 0, Token.mk TokenType.SYMBOL ['*'] 1,
        Token.mk TokenType.END_OF_FILE [] 2] = Result.ok () :=
  ⟨⟨rfl, rfl, rfl⟩,
    (C11_trailing_operator_accepted (Token.mk TokenType.INTEGER ['7'] 0)
      (Token.mk TokenType.SYMBOL ['*'] 1) (Token.mk TokenType.END_OF_FILE [] 2)
      rfl rfl rfl).1⟩

theorem Parser.parse_statement_or_synthetic :
    ∀ (n : Nat) (p : Parser),
      Parser.parse_statement_or Parser.synthetic n p = Parser.parse_statement n p := by
  intro n
  induction n with
  | zero => intro p; rfl
  | succ n ih =>
    intro p
    have hf : Parser.parse_statement_or Parser.synthetic n = Parser.parse_statement n :=
      funext ih
    rw [Parser.parse_statement_or, Parser.parse_statement, hf]
    rfl

/-- With the synthetic branch put back, the parser over `advance_or` is the parser. -/
theorem Parser.parse_or_synthetic (toks : List Token) :
    Parser.parse_or Parser.synthetic toks = Parser.parse toks := by
  unfold Parser.parse_or Parser.parse Parser.parseS
  rw [Parser.parse_statement_or_synthetic]

end Compiler
